import Mathlib

/-!
A shallow embedding of `main.go` of aws-cost-notify-to-slack.

The program fetches last month's AWS cost grouped by service, sums it, ranks the
services by cost, posts a text report and a pie chart to Slack.

Modelling conventions.

* `float64` is the type `F64`: a finite value carried as an exact rational, the two
  infinities and NaN.  Comparisons and the special values follow IEEE 754 as Go
  implements them; arithmetic on finite values is exact (no rounding, no overflow of
  a finite sum) and the sign of zero is not tracked.
* Library routines of the Go standard library that the program calls are modelled
  from their documented behaviour: `strconv.ParseFloat` by `ParseFloat`,
  `time.Date`, `Time.AddDate` and `Time.Format` by `Date`, `Time.AddDate` and
  `Time.Format`, with the zone lookup of `time.Local`.
  `sort.Slice` is an argument of `makeCostList`, bound by the contract `SortSliceSpec`;
  `pdqsortSlice` models the implementation shipped with Go 1.19 and later, and
  `pdqsortSlice_spec` proves that it meets the contract.
* A Go run-time panic (index out of range, nil dereference) is the result `none`.
  The response has the shape the SDK decodes: an empty `ResultsByTime`, an empty `Keys`
  and a metric missing from `Metrics` are modelled (they panic); the pointers to the
  response, to a key and to an amount are taken as non-nil.
-/

namespace AwsCostNotify

/-! ## float64 -/

/-- Values of Go's `float64`: a finite number (its exact value), `+Inf`, `-Inf`, `NaN`. -/
inductive F64 where
  | fin (q : ℚ)
  | posInf
  | negInf
  | nan
  deriving DecidableEq

namespace F64

/-- Go's `math.IsNaN`. -/
def isNaN : F64 → Bool
  | nan => true
  | _ => false

/-- The value is a finite number (neither an infinity nor NaN). -/
def isFinite : F64 → Bool
  | fin _ => true
  | _ => false

/-- The rational value of a finite `F64` (0 for the special values). -/
def toRat : F64 → ℚ
  | fin q => q
  | _ => 0

/-- Go's `x + y` on `float64`. -/
def add : F64 → F64 → F64
  | fin a, fin b => fin (a + b)
  | nan, _ => nan
  | _, nan => nan
  | posInf, negInf => nan
  | negInf, posInf => nan
  | posInf, _ => posInf
  | negInf, _ => negInf
  | _, posInf => posInf
  | _, negInf => negInf

/-- Go's `x * y` on `float64`. -/
def mul : F64 → F64 → F64
  | fin a, fin b => fin (a * b)
  | nan, _ => nan
  | _, nan => nan
  | posInf, fin b => if b = 0 then nan else if 0 < b then posInf else negInf
  | negInf, fin b => if b = 0 then nan else if 0 < b then negInf else posInf
  | fin a, posInf => if a = 0 then nan else if 0 < a then posInf else negInf
  | fin a, negInf => if a = 0 then nan else if 0 < a then negInf else posInf
  | posInf, posInf => posInf
  | posInf, negInf => negInf
  | negInf, posInf => negInf
  | negInf, negInf => posInf

/-- Go's `x / y` on `float64`.  A finite nonzero value divided by zero is an infinity
of the dividend's sign (the zero divisor is taken positive), and `0 / 0` is NaN. -/
def div : F64 → F64 → F64
  | fin a, fin b =>
    if b = 0 then (if a = 0 then nan else if 0 < a then posInf else negInf)
    else fin (a / b)
  | nan, _ => nan
  | _, nan => nan
  | fin _, posInf => fin 0
  | fin _, negInf => fin 0
  | posInf, fin b => if 0 ≤ b then posInf else negInf
  | negInf, fin b => if 0 ≤ b then negInf else posInf
  | posInf, posInf => nan
  | posInf, negInf => nan
  | negInf, posInf => nan
  | negInf, negInf => nan

/-- Go's `x < y` on `float64`: false whenever an operand is NaN. -/
def lt : F64 → F64 → Bool
  | fin a, fin b => decide (a < b)
  | nan, _ => false
  | _, nan => false
  | negInf, negInf => false
  | negInf, _ => true
  | posInf, _ => false
  | fin _, posInf => true
  | fin _, negInf => false

/-- Go's `x <= y` on `float64`: false whenever an operand is NaN. -/
def le : F64 → F64 → Bool
  | fin a, fin b => decide (a ≤ b)
  | nan, _ => false
  | _, nan => false
  | negInf, _ => true
  | posInf, posInf => true
  | posInf, _ => false
  | fin _, posInf => true
  | fin _, negInf => false

/-- Go's `x > y`. -/
def gt (x y : F64) : Bool := lt y x

/-- Go's `x >= y`. -/
def ge (x y : F64) : Bool := le y x

/-- Go's `x == y` on `float64`: false whenever an operand is NaN. -/
def eq : F64 → F64 → Bool
  | fin a, fin b => decide (a = b)
  | posInf, posInf => true
  | negInf, negInf => true
  | _, _ => false

end F64

/-! ## strconv.ParseFloat -/

/-- The two errors `strconv.ParseFloat` reports (`strconv.ErrSyntax`, `strconv.ErrRange`). -/
inductive NumError where
  | ErrSyntax
  | ErrRange
  deriving DecidableEq

/-- Go's `lower(c) = c | ('x' - 'X')` on a byte, here on a character code. -/
def lower (c : Nat) : Nat := c ||| 0x20

/-- Length of the common prefix of `s` and the lower-case string `pre`, ignoring the
case of ASCII letters of `s` (strconv's `commonPrefixLenIgnoreCase`). -/
def commonPrefixLenIgnoreCase : List Nat → List Nat → Nat
  | c :: s, p :: pre =>
    let c := if 'A'.toNat ≤ c ∧ c ≤ 'Z'.toNat then c + 32 else c
    if c ≠ p then 0 else 1 + commonPrefixLenIgnoreCase s pre
  | _, _ => 0

/-- Character codes of a string. -/
def codes (s : String) : List Nat := s.toList.map Char.toNat

/-- strconv's `special`: recognises a possibly signed infinity and an unsigned NaN at
the start of `s`; returns the value and the number of characters consumed. -/
def special (s : List Nat) : Option (F64 × Nat) :=
  match s with
  | [] => none
  | c :: rest =>
    if c = '+'.toNat ∨ c = '-'.toNat then
      let n := commonPrefixLenIgnoreCase rest (codes "infinity")
      let n := if 3 < n ∧ n < 8 then 3 else n
      if n = 3 ∨ n = 8 then
        some (if c = '-'.toNat then F64.negInf else F64.posInf, 1 + n)
      else none
    else if c = 'i'.toNat ∨ c = 'I'.toNat then
      let n := commonPrefixLenIgnoreCase s (codes "infinity")
      let n := if 3 < n ∧ n < 8 then 3 else n
      if n = 3 ∨ n = 8 then some (F64.posInf, n) else none
    else if c = 'n'.toNat ∨ c = 'N'.toNat then
      if commonPrefixLenIgnoreCase s (codes "nan") = 3 then some (F64.nan, 3) else none
    else none

/-- State of the mantissa loop of strconv's `readFloat`.  `mantissa` accumulates every
significant digit (the library keeps 19 and re-reads the rest on its slow path, which
yields the correctly rounded value of the full digit string). -/
structure Digits where
  mantissa : Nat
  nd : Nat
  dp : Int
  sawdot : Bool
  sawdigits : Bool
  underscores : Bool

/-- The mantissa loop of `readFloat`: digits, at most one point, underscores; stops at
the first other character and returns what is left of the input. -/
def readDigits (base : Nat) : List Nat → Digits → Digits × List Nat
  | [], st => (st, [])
  | c :: cs, st =>
    if c = '_'.toNat then readDigits base cs { st with underscores := true }
    else if c = '.'.toNat then
      if st.sawdot then (st, c :: cs)
      else readDigits base cs { st with sawdot := true, dp := st.nd }
    else if '0'.toNat ≤ c ∧ c ≤ '9'.toNat then
      if c = '0'.toNat ∧ st.nd = 0 then
        readDigits base cs { st with sawdigits := true, dp := st.dp - 1 }
      else
        readDigits base cs { st with
          sawdigits := true, nd := st.nd + 1,
          mantissa := st.mantissa * base + (c - '0'.toNat) }
    else if base = 16 ∧ 'a'.toNat ≤ lower c ∧ lower c ≤ 'f'.toNat then
      readDigits base cs { st with
        sawdigits := true, nd := st.nd + 1,
        mantissa := st.mantissa * 16 + (lower c - 'a'.toNat + 10) }
    else (st, c :: cs)

/-- The exponent digits of `readFloat`: digits and underscores; the exponent stops
growing once it has reached 10000. -/
def readExpDigits : List Nat → Nat → Bool → Nat × Bool × List Nat
  | [], e, u => (e, u, [])
  | c :: cs, e, u =>
    if '0'.toNat ≤ c ∧ c ≤ '9'.toNat then
      readExpDigits cs (if e < 10000 then e * 10 + (c - '0'.toNat) else e) u
    else if c = '_'.toNat then readExpDigits cs e true
    else (e, u, c :: cs)

/-- Main loop of strconv's `underscoreOK`; `saw` is the class of the last character
seen: 0 a digit or base prefix, 1 an underscore, 2 anything else, 3 the beginning. -/
def underscoreLoop (hex : Bool) : List Nat → Nat → Bool
  | [], saw => saw ≠ 1
  | c :: cs, saw =>
    if ('0'.toNat ≤ c ∧ c ≤ '9'.toNat) ∨ (hex ∧ 'a'.toNat ≤ lower c ∧ lower c ≤ 'f'.toNat) then
      underscoreLoop hex cs 0
    else if c = '_'.toNat then
      if saw ≠ 0 then false else underscoreLoop hex cs 1
    else if saw = 1 then false
    else underscoreLoop hex cs 2

/-- strconv's `underscoreOK`: underscores appear only between digits or between a
base prefix and a digit. -/
def underscoreOK (s : List Nat) : Bool :=
  let s := match s with
    | c :: rest => if c = '-'.toNat ∨ c = '+'.toNat then rest else s
    | [] => s
  match s with
  | c0 :: c1 :: rest =>
    if c0 = '0'.toNat ∧ (lower c1 = 'b'.toNat ∨ lower c1 = 'o'.toNat ∨ lower c1 = 'x'.toNat) then
      underscoreLoop (lower c1 = 'x'.toNat) rest 0
    else underscoreLoop false s 3
  | _ => underscoreLoop false s 3

/-- What `readFloat` returns when it succeeds: the sign, whether the number is
hexadecimal, the digits read, the exponent (decimal for base 10, binary for base 16)
and the unread rest of the input. -/
structure ReadFloat where
  neg : Bool
  hex : Bool
  mantissa : Nat
  exp : Int
  rest : List Nat

/-- strconv's `readFloat`: `none` when the input does not start with a number. -/
def readFloat (s : List Nat) : Option ReadFloat :=
  match s with
  | [] => none
  | c :: rest0 =>
    let neg := decide (c = '-'.toNat)
    let s1 := if c = '+'.toNat ∨ c = '-'.toNat then rest0 else s
    let hex : Bool := match s1 with
      | c0 :: c1 :: _ :: _ => decide (c0 = '0'.toNat ∧ lower c1 = 'x'.toNat)
      | _ => false
    let base := if hex then 16 else 10
    let s2 := if hex then s1.drop 2 else s1
    let (st, s3) := readDigits base s2 ⟨0, 0, 0, false, false, false⟩
    if ¬ st.sawdigits then none
    else
      let dp0 : Int := if st.sawdot then st.dp else st.nd
      let dp1 : Int := if hex then dp0 * 4 else dp0
      let ndMant : Int := if hex then (st.nd : Int) * 4 else st.nd
      let expChar := if hex then 'p'.toNat else 'e'.toNat
      let finish (dp : Int) (underscores : Bool) (rest : List Nat) : Option ReadFloat :=
        if underscores ∧ ¬ underscoreOK (s.take (s.length - rest.length)) then none
        else some ⟨neg, hex, st.mantissa, if st.mantissa ≠ 0 then dp - ndMant else 0, rest⟩
      match s3 with
      | c :: s4 =>
        if lower c = expChar then
          match s4 with
          | [] => none
          | d :: s5 =>
            let esign : Int := if d = '-'.toNat then -1 else 1
            let s6 := if d = '+'.toNat ∨ d = '-'.toNat then s5 else s4
            match s6 with
            | [] => none
            | d0 :: _ =>
              if d0 < '0'.toNat ∨ d0 > '9'.toNat then none
              else
                let (e, u, s7) := readExpDigits s6 0 st.underscores
                finish (dp1 + (e : Int) * esign) u s7
        else if hex then none
        else finish dp1 st.underscores s3
      | [] => if hex then none else finish dp1 st.underscores s3

/-- The smallest magnitude that rounds to an infinity in binary64: the largest finite
value plus half a unit in its last place. -/
def overflowBound : ℚ := ((2 ^ 1024 - 2 ^ 970 : Nat) : ℚ)

/-- The number a successful `readFloat` denotes, before the range check. -/
def ReadFloat.magnitude (r : ReadFloat) : ℚ :=
  let b : Nat := if r.hex then 2 else 10
  if 0 ≤ r.exp then ((r.mantissa * b ^ r.exp.toNat : Nat) : ℚ)
  else mkRat r.mantissa (b ^ (-r.exp).toNat)

/-- Go's `strconv.ParseFloat(s, 64)`: the value and the error returned together.
On a syntax error the value is 0; on a range error it is the infinity of the
number's sign; otherwise the error is nil and the value is the number read. -/
def ParseFloat (s : String) : F64 × Option NumError :=
  let cs := codes s
  match special cs with
  | some (v, n) => if n ≠ cs.length then (F64.fin 0, some NumError.ErrSyntax) else (v, none)
  | none =>
    match readFloat cs with
    | none => (F64.fin 0, some NumError.ErrSyntax)
    | some r =>
      if r.rest ≠ [] then (F64.fin 0, some NumError.ErrSyntax)
      else if overflowBound ≤ r.magnitude then
        (if r.neg then F64.negInf else F64.posInf, some NumError.ErrRange)
      else (F64.fin (if r.neg then - r.magnitude else r.magnitude), none)

/-! ## The billing response and the ranked list -/

/-- The SDK's `costexplorer.MetricValue`: the amount, a decimal string. -/
structure MetricValue where
  Amount : String

/-- The SDK's `costexplorer.Group`: the keys of the group (the service name first) and
its metrics by name. -/
structure Group where
  Keys : List String
  Metrics : List (String × MetricValue)

/-- The SDK's `costexplorer.ResultByTime`: the groups of one time bucket. -/
structure ResultByTime where
  Groups : List Group

/-- The SDK's `costexplorer.GetCostAndUsageOutput`. -/
structure GetCostAndUsageOutput where
  ResultsByTime : List ResultByTime

/-- The program's `Result`: a service, its cost and its share of the total in percent. -/
structure Result where
  Name : String
  Cost : F64
  Ratio : F64
  deriving DecidableEq

/-- The expression `strconv.ParseFloat(*v.Metrics["BlendedCost"].Amount, 64)` with its
error discarded (`x, _ := ...`): the value `ParseFloat` returns, whatever the error.
`none` when the group has no `BlendedCost` metric (a nil dereference in Go). -/
def blendedCost (v : Group) : Option F64 :=
  match v.Metrics.lookup "BlendedCost" with
  | some m => some (ParseFloat m.Amount).1
  | none => none

/-- The loop of `SumCost`: adds the parsed amount of every group to `sum`. -/
def sumLoop : List Group → F64 → Option F64
  | [], sum => some sum
  | v :: vs, sum =>
    match blendedCost v with
    | some x => sumLoop vs (F64.add sum x)
    | none => none

/-- The program's `SumCost`: the sum of the parsed amounts of the groups of the first
time bucket.  `none` when there is no time bucket or a group lacks the metric. -/
def SumCost (cost : GetCostAndUsageOutput) : Option F64 :=
  match cost.ResultsByTime with
  | [] => none
  | r :: _ => sumLoop r.Groups (F64.fin 0)

/-- The entry `makeCostList` appends for group `v`: its first key, its parsed amount and
`cost / totalCost * 100`.  `none` when the group has no metric or no key. -/
def entry (totalCost : F64) (v : Group) : Option Result :=
  match blendedCost v, v.Keys with
  | some cost, k :: _ => some ⟨k, cost, F64.mul (F64.div cost totalCost) (F64.fin 100)⟩
  | _, _ => none

/-- The loop of `makeCostList`: appends one entry per group to `resp`. -/
def costLoop (totalCost : F64) : List Group → List Result → Option (List Result)
  | [], resp => some resp
  | v :: vs, resp =>
    match entry totalCost v with
    | some r => costLoop totalCost vs (resp ++ [r])
    | none => none

/-- The comparison `makeCostList` hands to `sort.Slice`,
`func(i, j int) bool { return resp[i].Cost > resp[j].Cost }`, as a comparison of the
elements that stand at `i` and `j`. -/
def costLess (x y : Result) : Bool := F64.gt x.Cost y.Cost

/-- A model of `sort.Slice`: given the comparison and the slice, the slice as it is
left when the call returns (`none` if the call does not return normally). -/
abbrev SortSlice := (Result → Result → Bool) → List Result → Option (List Result)

/-- The program's `makeCostList`, over the `sort.Slice` it calls: builds one entry per
group of the first time bucket and sorts the entries by `costLess`. -/
def makeCostList (sortSlice : SortSlice) (cost : GetCostAndUsageOutput) (totalCost : F64) :
    Option (List Result) :=
  match cost.ResultsByTime with
  | [] => none
  | r :: _ =>
    match costLoop totalCost r.Groups [] with
    | some resp => sortSlice costLess resp
    | none => none

/-! ## The pie chart -/

set_option linter.dupNamespace false in
/-- The chart library's `chart.Value`: a labelled slice. -/
structure Value where
  Label : String
  Value : F64
  deriving DecidableEq

/-- The loop of `drawPieGraph`: an entry whose ratio is below 1.0 adds its cost to
`others`, any other entry is appended to `values` as a slice of its own. -/
def pieLoop : List Result → List Value → Value → List Value × Value
  | [], values, others => (values, others)
  | v :: vs, values, others =>
    if F64.lt v.Ratio (F64.fin 1) then
      pieLoop vs values { others with Value := F64.add others.Value v.Cost }
    else
      pieLoop vs (values ++ [⟨v.Name, v.Cost⟩]) others

/-- The slice list `drawPieGraph` hands to the chart (`pie.Values`): the slices the
loop collected followed by the `Others` slice. -/
def pieValues (results : List Result) : List Value :=
  let (values, others) := pieLoop results [] ⟨"Others", F64.fin 0⟩
  values ++ [others]

/-! ## sort.Slice as implemented since Go 1.19 (pattern-defeating quicksort)

The routines below follow `sort/zsortfunc.go`.  The data is a list, `Less` and `Swap`
act on positions, and a position outside the data (a panic in Go) gives `none`, as
does a loop that outruns the bound `fuel` given to it; `pdqsort_func_spec` shows that
neither happens on a call from `pdqsortSlice`. -/

section Pdqsort

variable {α : Type}

/-- The call `data.Less(i, j)`. -/
def Less (less : α → α → Bool) (data : List α) (i j : Nat) : Option Bool :=
  match data[i]?, data[j]? with
  | some x, some y => some (less x y)
  | _, _ => none

/-- The call `data.Swap(i, j)`. -/
def Swap (data : List α) (i j : Nat) : Option (List α) :=
  match data[i]?, data[j]? with
  | some x, some y => some ((data.set i y).set j x)
  | _, _ => none

/-- Inner loop of `insertionSort_func`:
`for j := i; j > a && data.Less(j, j-1); j-- { data.Swap(j, j-1) }`. -/
def insertionInner (less : α → α → Bool) (a : Nat) : Nat → List α → Option (List α)
  | 0, data => some data
  | j + 1, data =>
    if a < j + 1 then
      match Less less data (j + 1) j with
      | some true =>
        match Swap data (j + 1) j with
        | some data1 => insertionInner less a j data1
        | none => none
      | some false => some data
      | none => none
    else some data

/-- Outer loop of `insertionSort_func`, `for i := a + 1; i < b; i++`, with `k` the
number of iterations left. -/
def insertionOuter (less : α → α → Bool) (a : Nat) : Nat → Nat → List α → Option (List α)
  | 0, _, data => some data
  | k + 1, i, data =>
    match insertionInner less a i data with
    | some data1 => insertionOuter less a k (i + 1) data1
    | none => none

/-- Go's `insertionSort_func`: sorts `data[a:b]` by insertion. -/
def insertionSort_func (less : α → α → Bool) (data : List α) (a b : Nat) : Option (List α) :=
  insertionOuter less a (b - (a + 1)) (a + 1) data

/-- Go's `siftDown_func(data, lo, hi, first)`: restores the heap property below `root`
(initially `lo`) in the heap `data[first : first + hi]`. -/
def siftDown_func (less : α → α → Bool) :
    Nat → List α → Nat → Nat → Nat → Option (List α)
  | 0, _, _, _, _ => none
  | fuel + 1, data, root, hi, first =>
    let child := 2 * root + 1
    if hi ≤ child then some data
    else
      match (if child + 1 < hi then Less less data (first + child) (first + child + 1)
             else some false) with
      | none => none
      | some right =>
        let child1 := if right then child + 1 else child
        match Less less data (first + root) (first + child1) with
        | none => none
        | some false => some data
        | some true =>
          match Swap data (first + root) (first + child1) with
          | none => none
          | some data1 => siftDown_func less fuel data1 child1 hi first

/-- First loop of `heapSort_func`, `for i := (hi - 1) / 2; i >= 0; i--`, which builds
the heap; `count` is `i + 1`. -/
def heapBuildLoop (less : α → α → Bool) (hi first : Nat) : Nat → List α → Option (List α)
  | 0, data => some data
  | i + 1, data =>
    match siftDown_func less (hi + 1) data i hi first with
    | some data1 => heapBuildLoop less hi first i data1
    | none => none

/-- Second loop of `heapSort_func`, `for i := hi - 1; i >= 0; i--`, which moves the
greatest element to the end and restores the heap; `count` is `i + 1`. -/
def heapPopLoop (less : α → α → Bool) (first : Nat) : Nat → List α → Option (List α)
  | 0, data => some data
  | i + 1, data =>
    match Swap data first (first + i) with
    | none => none
    | some data1 =>
      match siftDown_func less (i + 1) data1 0 i first with
      | some data2 => heapPopLoop less first i data2
      | none => none

/-- Go's `heapSort_func`: sorts `data[a:b]` with a heap. -/
def heapSort_func (less : α → α → Bool) (data : List α) (a b : Nat) : Option (List α) :=
  let first := a
  let hi := b - a
  match heapBuildLoop less hi first ((hi - 1) / 2 + 1) data with
  | some data1 => heapPopLoop less first hi data1
  | none => none

/-- Go's `order2_func`: the two positions in order, counting a swap when they were not. -/
def order2_func (less : α → α → Bool) (data : List α) (a b swaps : Nat) :
    Option (Nat × Nat × Nat) :=
  match Less less data b a with
  | some true => some (b, a, swaps + 1)
  | some false => some (a, b, swaps)
  | none => none

/-- Go's `median_func`: the position of the median of three elements. -/
def median_func (less : α → α → Bool) (data : List α) (a b c swaps : Nat) :
    Option (Nat × Nat) :=
  match order2_func less data a b swaps with
  | none => none
  | some (a1, b1, s1) =>
    match order2_func less data b1 c s1 with
    | none => none
    | some (b2, _, s2) =>
      match order2_func less data a1 b2 s2 with
      | none => none
      | some (_, b3, s3) => some (b3, s3)

/-- Go's `medianAdjacent_func`: the median of the elements at `a - 1`, `a`, `a + 1`. -/
def medianAdjacent_func (less : α → α → Bool) (data : List α) (a swaps : Nat) :
    Option (Nat × Nat) :=
  median_func less data (a - 1) a (a + 1) swaps

/-- Go's `sortedHint`. -/
inductive SortedHint where
  | unknownHint
  | increasingHint
  | decreasingHint
  deriving DecidableEq

/-- Go's `choosePivot_func`: a pivot position in `data[a:b]` and a hint on whether the
range looks sorted. -/
def choosePivot_func (less : α → α → Bool) (data : List α) (a b : Nat) :
    Option (Nat × SortedHint) :=
  let l := b - a
  let i := a + l / 4 * 1
  let j := a + l / 4 * 2
  let k := a + l / 4 * 3
  let chosen : Option (Nat × Nat) :=
    if 8 ≤ l then
      if 50 ≤ l then
        match medianAdjacent_func less data i 0 with
        | none => none
        | some (i1, s1) =>
          match medianAdjacent_func less data j s1 with
          | none => none
          | some (j1, s2) =>
            match medianAdjacent_func less data k s2 with
            | none => none
            | some (k1, s3) => median_func less data i1 j1 k1 s3
      else median_func less data i j k 0
    else some (j, 0)
  match chosen with
  | none => none
  | some (j1, swaps) =>
    if swaps = 0 then some (j1, SortedHint.increasingHint)
    else if swaps = 4 * 3 then some (j1, SortedHint.decreasingHint)
    else some (j1, SortedHint.unknownHint)

/-- Loop of Go's `reverseRange_func`, `for i < j { data.Swap(i, j); i++; j-- }`, with
`k` a bound on the iterations left. -/
def reverseLoop : Nat → List α → Nat → Nat → Option (List α)
  | 0, data, _, _ => some data
  | k + 1, data, i, j =>
    if i < j then
      match Swap data i j with
      | some data1 => reverseLoop k data1 (i + 1) (j - 1)
      | none => none
    else some data

/-- Go's `reverseRange_func`: reverses `data[a:b]`. -/
def reverseRange_func (data : List α) (a b : Nat) : Option (List α) :=
  reverseLoop (b - a) data a (b - 1)

/-- The scan `for i < b && !data.Less(i, i-1) { i++ }` of `partialInsertionSort_func`;
`k` bounds the iterations left. -/
def scanOrdered (less : α → α → Bool) (data : List α) (b : Nat) : Nat → Nat → Option Nat
  | 0, i => some i
  | k + 1, i =>
    if i < b then
      match Less less data i (i - 1) with
      | some false => scanOrdered less data b k (i + 1)
      | some true => some i
      | none => none
    else some i

/-- The loop `for j := i - 1; j >= 1; j--` of `partialInsertionSort_func`, which moves
the smaller element to the left. -/
def shiftLeft (less : α → α → Bool) : Nat → List α → Option (List α)
  | 0, data => some data
  | j + 1, data =>
    match Less less data (j + 1) j with
    | some false => some data
    | some true =>
      match Swap data (j + 1) j with
      | some data1 => shiftLeft less j data1
      | none => none
    | none => none

/-- The loop `for j := i + 1; j < b; j++` of `partialInsertionSort_func`, which moves
the greater element to the right; `k` is the number of iterations left. -/
def shiftRight (less : α → α → Bool) : Nat → Nat → List α → Option (List α)
  | 0, _, data => some data
  | k + 1, j, data =>
    match Less less data j (j - 1) with
    | some false => some data
    | some true =>
      match Swap data j (j - 1) with
      | some data1 => shiftRight less k (j + 1) data1
      | none => none
    | none => none

/-- The loop `for j := 0; j < maxSteps; j++` of `partialInsertionSort_func`, with
`steps` iterations left and `i` the scan position. -/
def partialInsertionLoop (less : α → α → Bool) (a b : Nat) :
    Nat → Nat → List α → Option (List α × Bool)
  | 0, _, data => some (data, false)
  | steps + 1, i, data =>
    match scanOrdered less data b (b - i) i with
    | none => none
    | some i1 =>
      if i1 = b then some (data, true)
      else if b - a < 50 then some (data, false)
      else
        match Swap data i1 (i1 - 1) with
        | none => none
        | some data1 =>
          match (if 2 ≤ i1 - a then shiftLeft less (i1 - 1) data1 else some data1) with
          | none => none
          | some data2 =>
            match (if 2 ≤ b - i1 then shiftRight less (b - (i1 + 1)) (i1 + 1) data2
                   else some data2) with
            | none => none
            | some data3 => partialInsertionLoop less a b steps i1 data3

/-- Go's `partialInsertionSort_func`: a few insertion steps on `data[a:b]`; the flag
says whether the range ended up sorted. -/
def partialInsertionSort_func (less : α → α → Bool) (data : List α) (a b : Nat) :
    Option (List α × Bool) :=
  partialInsertionLoop less a b 5 (a + 1) data

/-- The scan `for i <= j && data.Less(i, a) { i++ }` of `partition_func`. -/
def scanUp (less : α → α → Bool) (data : List α) (a j : Nat) : Nat → Nat → Option Nat
  | 0, i => some i
  | k + 1, i =>
    if i ≤ j then
      match Less less data i a with
      | some true => scanUp less data a j k (i + 1)
      | some false => some i
      | none => none
    else some i

/-- The scan `for i <= j && !data.Less(j, a) { j-- }` of `partition_func`. -/
def scanDown (less : α → α → Bool) (data : List α) (a i : Nat) : Nat → Nat → Option Nat
  | 0, j => some j
  | k + 1, j =>
    if i ≤ j then
      match Less less data j a with
      | some false => scanDown less data a i k (j - 1)
      | some true => some j
      | none => none
    else some j

/-- The `for` loop that ends `partition_func`: scan up, scan down, stop when the scans
have crossed, otherwise swap and step; returns the data and the final `j`. -/
def partitionLoop (less : α → α → Bool) (a : Nat) :
    Nat → List α → Nat → Nat → Option (List α × Nat)
  | 0, _, _, _ => none
  | k + 1, data, i, j =>
    match scanUp less data a j (j + 1 - i) i with
    | none => none
    | some i1 =>
      match scanDown less data a i1 (j + 1 - i1) j with
      | none => none
      | some j1 =>
        if j1 < i1 then some (data, j1)
        else
          match Swap data i1 j1 with
          | none => none
          | some data1 => partitionLoop less a k data1 (i1 + 1) (j1 - 1)

/-- Go's `partition_func`: one quicksort partition of `data[a:b]` around the element at
`pivot`; returns the data, the pivot's new position and whether the range was already
partitioned. -/
def partition_func (less : α → α → Bool) (data : List α) (a b pivot : Nat) :
    Option (List α × Nat × Bool) :=
  match Swap data a pivot with
  | none => none
  | some data1 =>
    match scanUp less data1 a (b - 1) (b - 1 + 1 - (a + 1)) (a + 1) with
    | none => none
    | some i =>
      match scanDown less data1 a i (b - 1 + 1 - i) (b - 1) with
      | none => none
      | some j =>
        if j < i then
          match Swap data1 j a with
          | some data2 => some (data2, j, true)
          | none => none
        else
          match Swap data1 i j with
          | none => none
          | some data2 =>
            match partitionLoop less a (b - a) data2 (i + 1) (j - 1) with
            | none => none
            | some (data3, j1) =>
              match Swap data3 j1 a with
              | some data4 => some (data4, j1, false)
              | none => none

/-- The scan `for i <= j && !data.Less(a, i) { i++ }` of `partitionEqual_func`. -/
def scanUpEqual (less : α → α → Bool) (data : List α) (a j : Nat) : Nat → Nat → Option Nat
  | 0, i => some i
  | k + 1, i =>
    if i ≤ j then
      match Less less data a i with
      | some false => scanUpEqual less data a j k (i + 1)
      | some true => some i
      | none => none
    else some i

/-- The scan `for i <= j && data.Less(a, j) { j-- }` of `partitionEqual_func`. -/
def scanDownEqual (less : α → α → Bool) (data : List α) (a i : Nat) : Nat → Nat → Option Nat
  | 0, j => some j
  | k + 1, j =>
    if i ≤ j then
      match Less less data a j with
      | some true => scanDownEqual less data a i k (j - 1)
      | some false => some j
      | none => none
    else some j

/-- The `for` loop of `partitionEqual_func`; returns the data and the final `i`. -/
def partitionEqualLoop (less : α → α → Bool) (a : Nat) :
    Nat → List α → Nat → Nat → Option (List α × Nat)
  | 0, _, _, _ => none
  | k + 1, data, i, j =>
    match scanUpEqual less data a j (j + 1 - i) i with
    | none => none
    | some i1 =>
      match scanDownEqual less data a i1 (j + 1 - i1) j with
      | none => none
      | some j1 =>
        if j1 < i1 then some (data, i1)
        else
          match Swap data i1 j1 with
          | none => none
          | some data1 => partitionEqualLoop less a k data1 (i1 + 1) (j1 - 1)

/-- Go's `partitionEqual_func`: partitions `data[a:b]` into the elements equal to the
pivot followed by the elements greater than it. -/
def partitionEqual_func (less : α → α → Bool) (data : List α) (a b pivot : Nat) :
    Option (List α × Nat) :=
  match Swap data a pivot with
  | none => none
  | some data1 => partitionEqualLoop less a (b - a + 1) data1 (a + 1) (b - 1)

/-- Go's `bits.Len`: the number of bits needed to write `n`. -/
def bitsLen (n : Nat) : Nat := if n = 0 then 0 else Nat.log2 n + 1

/-- One step of the `xorshift` generator of the sort package, on 64 bits.  The generator
only picks which elements `breakPatterns_func` swaps: the correctness proof does not
look at its values, and a slice of at most 13 elements never reaches it. -/
def xorshiftNext (r : Nat) : Nat :=
  let r1 := r ^^^ (r <<< 13 % 2 ^ 64)
  let r2 := r1 ^^^ (r1 >>> 7)
  r2 ^^^ (r2 <<< 17 % 2 ^ 64)

/-- The loop `for i := 0; i < 3; i++` of `breakPatterns_func`; `k` is the number of
iterations left and `pos` stands for `idx + i`. -/
def breakPatternsLoop (a length modulus : Nat) : Nat → Nat → Nat → List α → Option (List α)
  | 0, _, _, data => some data
  | k + 1, random, pos, data =>
    let random1 := xorshiftNext random
    let other := random1 &&& (modulus - 1)
    let other1 := if length ≤ other then other - length else other
    match Swap data pos (a + other1) with
    | some data1 => breakPatternsLoop a length modulus k random1 (pos + 1) data1
    | none => none

/-- Go's `breakPatterns_func`: scatters three elements of `data[a:b]` when the range
has at least 8 elements. -/
def breakPatterns_func (data : List α) (a b : Nat) : Option (List α) :=
  let length := b - a
  if 8 ≤ length then
    let modulus := 1 <<< bitsLen length
    let idx := a + (length / 4) * 2 - 1
    breakPatternsLoop a length modulus 3 length idx data
  else some data

/-- The step `if !wasBalanced { breakPatterns_func(data, a, b); limit-- }` of
`pdqsort_func`; returns the data and the new `limit`. -/
def breakStep (data : List α) (a b limit : Nat) (wasBalanced : Bool) :
    Option (List α × Nat) :=
  if wasBalanced then some (data, limit)
  else
    match breakPatterns_func data a b with
    | some d => some (d, limit - 1)
    | none => none

/-- The step of `pdqsort_func` that chooses the pivot and, on `decreasingHint`,
reverses the range: `reverseRange_func(data, a, b)`, `pivot = (b - 1) - (pivot - a)`,
`hint = increasingHint`. -/
def pivotStep (less : α → α → Bool) (data : List α) (a b : Nat) :
    Option (List α × Nat × SortedHint) :=
  match choosePivot_func less data a b with
  | none => none
  | some (pivot0, hint0) =>
    if hint0 = SortedHint.decreasingHint then
      match reverseRange_func data a b with
      | some d => some (d, (b - 1) - (pivot0 - a), SortedHint.increasingHint)
      | none => none
    else some (data, pivot0, hint0)

/-- The step `if wasBalanced && wasPartitioned && hint == increasingHint` of
`pdqsort_func`, which tries `partialInsertionSort_func`; the flag says whether the
range is now sorted. -/
def attemptStep (less : α → α → Bool) (data : List α) (a b : Nat)
    (wasBalanced wasPartitioned : Bool) (hint : SortedHint) : Option (List α × Bool) :=
  if wasBalanced = true ∧ wasPartitioned = true ∧ hint = SortedHint.increasingHint then
    partialInsertionSort_func less data a b
  else some (data, false)

/-- The test `a > 0 && !data.Less(a-1, pivot)` of `pdqsort_func`, negated: `some false`
when the range is to be partitioned into equal and greater elements. -/
def leftLess (less : α → α → Bool) (data : List α) (a pivot : Nat) : Option Bool :=
  if 0 < a then Less less data (a - 1) pivot else some true

/-- Go's `pdqsort_func` on `data[a:b]`.  The `for` loop and the recursive call both
consume `fuel`. -/
def pdqsort_func (less : α → α → Bool) :
    Nat → List α → Nat → Nat → Nat → Bool → Bool → Option (List α)
  | 0, _, _, _, _, _, _ => none
  | fuel + 1, data, a, b, limit, wasBalanced, wasPartitioned =>
    if b - a ≤ 12 then insertionSort_func less data a b
    else if limit = 0 then heapSort_func less data a b
    else
      match breakStep data a b limit wasBalanced with
      | none => none
      | some (data0, limit1) =>
        match pivotStep less data0 a b with
        | none => none
        | some (data1, pivot, hint) =>
          match attemptStep less data1 a b wasBalanced wasPartitioned hint with
          | none => none
          | some (data2, true) => some data2
          | some (data2, false) =>
            match leftLess less data2 a pivot with
            | none => none
            | some false =>
              match partitionEqual_func less data2 a b pivot with
              | none => none
              | some (data3, mid) =>
                pdqsort_func less fuel data3 mid b limit1 wasBalanced wasPartitioned
            | some true =>
              match partition_func less data2 a b pivot with
              | none => none
              | some (data3, mid, alreadyPartitioned) =>
                if mid - a < b - mid then
                  match pdqsort_func less fuel data3 a mid limit1 true true with
                  | none => none
                  | some data4 =>
                    pdqsort_func less fuel data4 (mid + 1) b limit1
                      (decide ((b - a) / 8 ≤ mid - a)) alreadyPartitioned
                else
                  match pdqsort_func less fuel data3 (mid + 1) b limit1 true true with
                  | none => none
                  | some data4 =>
                    pdqsort_func less fuel data4 a mid limit1
                      (decide ((b - a) / 8 ≤ b - mid)) alreadyPartitioned

/-- Go's `sort.Slice(x, less)`: `pdqsort_func` on the whole slice, with
`limit = bits.Len(length)`. -/
def pdqsortSlice (less : α → α → Bool) (data : List α) : Option (List α) :=
  pdqsort_func less (data.length + 1) data 0 data.length (bitsLen data.length) true true

end Pdqsort


/-! ## The contract of sort.Slice -/

/-- The requirement `sort.Slice` puts on `less`, on the elements of `xs`: a strict weak
ordering (irreflexive, transitive, and transitive in its negation). -/
def StrictWeakOn {α : Type} (less : α → α → Bool) (xs : List α) : Prop :=
  (∀ x ∈ xs, less x x = false) ∧
  (∀ x ∈ xs, ∀ y ∈ xs, ∀ z ∈ xs, less x y = true → less y z = true → less x z = true) ∧
  (∀ x ∈ xs, ∀ y ∈ xs, ∀ z ∈ xs, less x y = false → less y z = false → less x z = false)

/-- What the documentation of `sort.Slice` promises: the call returns with the slice
rearranged (a permutation of its elements), and when `less` is a strict weak ordering
no element is less than one placed before it.  Nothing is promised on the order of
elements neither of which is less than the other ("the sort is not guaranteed to be
stable"). -/
structure SortSliceSpec (sortSlice : SortSlice) : Prop where
  returns_perm : ∀ less xs, ∃ out, sortSlice less xs = some out ∧ out.Perm xs
  sorted : ∀ less xs out, StrictWeakOn less xs → sortSlice less xs = some out →
    out.Pairwise (fun x y => less y x = false)

/-- A sort that meets `SortSliceSpec`: insertion sort, which is also what `sort.Slice`
runs on a slice of at most 12 elements. -/
def insertionSlice : SortSlice :=
  fun less xs => some (xs.insertionSort (fun x y => less y x = false))

/-! ## Vocabulary of the correctness proof of the sort -/

section SortVocabulary

variable {α : Type}

/-- The data `d1` differs from `d` by a rearrangement of the positions `a` to `b - 1`. -/
structure Frame (a b : Nat) (d d1 : List α) : Prop where
  length : d1.length = d.length
  outside : ∀ k, (k < a ∨ b ≤ k) → d1[k]? = d[k]?
  perm : d1.Perm d

/-- Every element at a position from `a` to `b - 1` satisfies `P`. -/
def AllOn (P : α → Prop) (a b : Nat) (d : List α) : Prop :=
  ∀ k x, a ≤ k → k < b → d[k]? = some x → P x

/-- The positions from `a` to `b - 1` are in order: no element is less than one that
comes before it. -/
def SortedOn (less : α → α → Bool) (a b : Nat) (d : List α) : Prop :=
  ∀ i j x y, a ≤ i → i < j → j < b → d[i]? = some x → d[j]? = some y → less y x = false

/-- The element just before position `a`, when there is one, is not greater than any
element at the positions from `a` to `b - 1`. -/
def LeftOk (less : α → α → Bool) (a b : Nat) (d : List α) : Prop :=
  ∀ l p, a = l + 1 → d[l]? = some p → AllOn (fun x => less x p = false) a b d

/-- Node `n` of the heap stored at `first` is not less than its children below `hi`. -/
def HeapAt (less : α → α → Bool) (first hi : Nat) (d : List α) (n : Nat) : Prop :=
  ∀ c x y, (c = 2 * n + 1 ∨ c = 2 * n + 2) → c < hi → d[first + n]? = some x →
    d[first + c]? = some y → less x y = false

/-- The heap property holds at every node from `lo` on, except possibly at `r`, and the
parent of `r` is not less than the children of `r`. -/
def AlmostHeap (less : α → α → Bool) (first lo hi r : Nat) (d : List α) : Prop :=
  (∀ n, lo ≤ n → n ≠ r → HeapAt less first hi d n) ∧
  (∀ q, lo ≤ q → (r = 2 * q + 1 ∨ r = 2 * q + 2) → ∀ c x y, (c = 2 * r + 1 ∨ c = 2 * r + 2) →
    c < hi → d[first + q]? = some x → d[first + c]? = some y → less x y = false)

end SortVocabulary

/-! ## Dates: time.Now, time.Date, Time.AddDate, Time.Format

A `time.Time` is an instant, counted in seconds since 1970-01-01T00:00:00Z, with the
location it is read in; the nanoseconds, which the program never reads, are dropped.
A location is its list of zone transitions.  Days are counted from 0001-01-01 of the
proleptic Gregorian calendar (Go's internal epoch); Go's absolute epoch, a multiple of
400 years earlier, only serves to keep its unsigned arithmetic positive and is replaced
here by integer division that rounds down.  The integers are unbounded: the wrap-around
of Go's 64-bit counts, which needs a year some 292 billion years away, is not
modelled. -/

/-- Go's `time.Location`: the offset (seconds east of UTC) in use before the first
transition, and the transitions `(when, offset)` in increasing order of `when`, each
giving the offset in use from the instant `when` on.  The zone names, the cache and
the rule that extends the last transition are left out. -/
structure Location where
  first : Int
  tx : List (Int × Int)
  deriving DecidableEq

/-- Go's `alpha`, the start of the zone in use before the first transition. -/
def alpha : Int := -(2 ^ 63)

/-- Go's `omega`, the end of the zone in use after the last transition. -/
def omegaEnd : Int := 2 ^ 63 - 1

/-- The search of `Location.lookup` for the transition with the largest `when` not
after `sec`: the offset in use at `sec` with the start and the end of its validity,
`offset` and `start` being those of the zone in use before the transitions of the list. -/
def lookupFrom (sec : Int) : List (Int × Int) → Int → Int → Int × Int × Int
  | [], offset, start => (offset, start, omegaEnd)
  | (when, off) :: rest, offset, start =>
    if sec < when then (offset, start, when)
    else lookupFrom sec rest off when

/-- Go's `l.lookup(sec)`: the offset in use at the instant `sec`, and the interval
`[start, end)` of instants during which that zone is in use. -/
def Location.lookup (l : Location) (sec : Int) : Int × Int × Int :=
  lookupFrom sec l.tx l.first alpha

/-- Go's `time.UTC`. -/
def UTC : Location := ⟨0, []⟩

/-- Go's `time.Time`. -/
structure Time where
  unix : Int
  loc : Location
  deriving DecidableEq

/-- Go's `isLeap`. -/
def isLeap (year : Int) : Bool :=
  year % 4 = 0 ∧ (year % 100 ≠ 0 ∨ year % 400 = 0)

/-- Go's table `daysBefore`: the number of days of a non-leap year before the month
that follows month `m` (`daysBefore 0 = 0`, `daysBefore 1 = 31`, ...). -/
def daysBefore (m : Int) : Int :=
  if m = 0 then 0 else if m = 1 then 31 else if m = 2 then 59 else if m = 3 then 90
  else if m = 4 then 120 else if m = 5 then 151 else if m = 6 then 181
  else if m = 7 then 212 else if m = 8 then 243 else if m = 9 then 273
  else if m = 10 then 304 else if m = 11 then 334 else 365

/-- Go's `daysIn`: the number of days of month `m` (1 to 12) of `year`. -/
def daysIn (m : Int) (year : Int) : Int :=
  if m = 2 then (if isLeap year then 29 else 28)
  else if m = 4 ∨ m = 6 ∨ m = 9 ∨ m = 11 then 30
  else 31

/-- Go's `norm(hi, lo, base)`: carries `lo` into `hi` so that `0 <= lo < base`. -/
def norm (hi lo base : Int) : Int × Int :=
  let (hi1, lo1) :=
    if lo < 0 then
      let n := (-lo - 1) / base + 1
      (hi - n, lo + n * base)
    else (hi, lo)
  if base ≤ lo1 then
    let n := lo1 / base
    (hi1 + n, lo1 - n * base)
  else (hi1, lo1)

/-- Go's `daysSinceEpoch(year)`: the days from the epoch to the first day of `year`,
by cycles of 400, 100, 4 and 1 years. -/
def daysSinceEpoch (year : Int) : Int :=
  let y := year - 1
  let n400 := y / 400
  let y1 := y - 400 * n400
  let n100 := y1 / 100
  let y2 := y1 - 100 * n100
  let n4 := y2 / 4
  let y3 := y2 - 4 * n4
  146097 * n400 + 36524 * n100 + 1461 * n4 + 365 * y3

/-- The seconds from 0001-01-01T00:00:00Z to 1970-01-01T00:00:00Z (Go's
`unixToInternal`). -/
def unixToInternal : Int := (1969 * 365 + 1969 / 4 - 1969 / 100 + 1969 / 400) * 86400

/-- Go's `time.Date(year, month, day, hour, min, sec, 0, loc)`: the fields are
normalised, the date is counted in seconds as if it were in UTC, and the offset that
`loc` uses is subtracted: the offset found at that count of seconds or, when the
resulting instant falls outside the validity of that zone, the offset found at the
resulting instant. -/
def Date (year month day hour min sec : Int) (loc : Location) : Time :=
  let m := month - 1
  let (year, m) := norm year m 12
  let month := m + 1
  let (min, sec) := norm min sec 60
  let (hour, min) := norm hour min 60
  let (day, hour) := norm day hour 24
  let d := daysSinceEpoch year + daysBefore (month - 1) +
    (if isLeap year ∧ 3 ≤ month then 1 else 0) + (day - 1)
  let abs := d * 86400 + (hour * 3600 + min * 60 + sec)
  let unix := abs - unixToInternal
  let (offset, start, end_) := loc.lookup unix
  if offset ≠ 0 then
    let utc := unix - offset
    let offset1 := if utc < start ∨ end_ ≤ utc then (loc.lookup utc).1 else offset
    ⟨unix - offset1, loc⟩
  else ⟨unix, loc⟩

/-- Go's `t.abs()`: the seconds from the epoch to the instant, read on the clock of
the location. -/
def Time.abs (t : Time) : Int :=
  t.unix + (t.loc.lookup t.unix).1 + unixToInternal

/-- The year and the day of the year (from 0) of Go's `absDate`, from the number of
days since the epoch. -/
def absYear (days : Int) : Int × Int :=
  let n400 := days / 146097
  let d1 := days - 146097 * n400
  let n100 := d1 / 36524
  let n100 := n100 - n100 / 4
  let d2 := d1 - 36524 * n100
  let n4 := d2 / 1461
  let d3 := d2 - 1461 * n4
  let n1 := d3 / 365
  let n1 := n1 - n1 / 4
  let d4 := d3 - 365 * n1
  (400 * n400 + 100 * n100 + 4 * n4 + n1 + 1, d4)

/-- The month and the day of the month of Go's `absDate`, from the day of the year. -/
def absMonthDay (leap : Bool) (yday : Int) : Int × Int :=
  if leap ∧ yday = 31 + 29 - 1 then (2, 29)
  else
    let day := if leap ∧ 31 + 29 - 1 < yday then yday - 1 else yday
    let month := day / 31
    let end_ := daysBefore (month + 1)
    if end_ ≤ day then (month + 1 + 1, day - end_ + 1)
    else (month + 1, day - daysBefore month + 1)

/-- Go's `absDate(abs, true)`: year, month and day. -/
def absDate (abs : Int) : Int × Int × Int :=
  let (year, yday) := absYear (abs / 86400)
  let (month, day) := absMonthDay (isLeap year) yday
  (year, month, day)

/-- Go's `t.Date()`. -/
def Time.Date (t : Time) : Int × Int × Int := absDate t.abs

/-- Go's `t.Year()`. -/
def Time.Year (t : Time) : Int := t.Date.1

/-- Go's `t.Month()`. -/
def Time.Month (t : Time) : Int := t.Date.2.1

/-- Go's `t.Clock()`: hour, minute and second of the day. -/
def Time.Clock (t : Time) : Int × Int × Int :=
  let sec := t.abs % 86400
  let hour := sec / 3600
  let sec1 := sec - hour * 3600
  let min := sec1 / 60
  (hour, min, sec1 - min * 60)

/-- Go's `t.AddDate(years, months, days)`. -/
def Time.AddDate (t : Time) (years months days : Int) : Time :=
  let (year, month, day) := t.Date
  let (hour, min, sec) := t.Clock
  AwsCostNotify.Date (year + years) (month + months) (day + days) hour min sec t.loc

/-- The decimal digits of `u`, most significant first (the loop of Go's `appendInt`);
`fuel` bounds the number of digits. -/
def decimalDigits : Nat → Nat → List Char
  | 0, _ => []
  | fuel + 1, u =>
    if 10 ≤ u then decimalDigits fuel (u / 10) ++ [Char.ofNat ('0'.toNat + u % 10)]
    else [Char.ofNat ('0'.toNat + u)]

/-- Go's `appendInt(b, x, width)`: a minus sign for a negative `x`, zeros up to `width`
digits, the digits. -/
def appendInt (x : Int) (width : Nat) : List Char :=
  let ds := decimalDigits (x.natAbs + 1) x.natAbs
  (if x < 0 then ['-'] else []) ++ List.replicate (width - ds.length) '0' ++ ds

/-- The text of the layout "2006-01-02" for a date: the year on at least four digits,
the month and the day on two. -/
def formatDate (year month day : Int) : String :=
  String.mk (appendInt year 4 ++ ['-'] ++ appendInt month 2 ++ ['-'] ++ appendInt day 2)

/-- Go's `t.Format("2006-01-02")`: the date of the instant on the clock of its
location. -/
def Time.Format (t : Time) : String :=
  let (year, month, day) := t.Date
  formatDate year month day

/-- The program's `getStartAndEndDay`, with `Local` standing for `time.Local` and `now`
for the instant `time.Now()` returns. -/
def getStartAndEndDay (Local : Location) (now : Int) : String × String :=
  let today : Time := ⟨now, Local⟩
  let lastMonthStartDay := Date today.Year (today.Month - 1) 1 0 0 0 Local
  let lastMonthEndDay := lastMonthStartDay.AddDate 0 1 (-1)
  let start := lastMonthStartDay.Format
  let end_ := lastMonthEndDay.Format
  (start, end_)

/-! ## Handle and its stages -/

/-- A Go `error` value: a message, and the error it wraps if it was made with `%w`. -/
inductive GoError where
  | base (msg : String)
  | wrap (msg : String) (cause : GoError)
  deriving DecidableEq

/-- The method `err.Error()`. -/
def GoError.Error : GoError → String
  | base msg => msg
  | wrap msg _ => msg

/-- The call `fmt.Errorf(text + "%w", err)`: the message followed by the text of `err`,
wrapping `err`. -/
def Errorf (text : String) (err : GoError) : GoError :=
  GoError.wrap (text ++ err.Error) err

/-- The content of a `bytes.Buffer`. -/
abbrev Buffer := List Nat

/-- A call of one of the four stage functions of `Handle`, with its arguments. -/
inductive Call where
  | getCost (start end_ : String)
  | sendToSlack (cost : String)
  | drawPieGraph (results : List Result)
  | sendPieGraphToSlack (b : Buffer)
  deriving DecidableEq

/-- Everything outside the program that a run of `Handle` depends on: the clock (the
instant `time.Now()` returns, in seconds since 1970-01-01T00:00:00Z, and the location
`time.Local`), the environment variables, the answers of the billing API, of the two Slack calls and of
the chart renderer, the library's `sort.Slice`, and the `%.2f` / `%.1f` formatting of
`fmt.Sprintf` (`sprintfFloat digits x`). -/
structure World where
  now : Int
  Local : Location
  SLACKENDPOINT : String
  SLACKAPITOKEN : String
  SLACKCHANNEL : String
  AWSACCOUNT : String
  sortSlice : SortSlice
  sprintfFloat : Nat → F64 → String
  getCostAndUsage : String → String → Except GoError GetCostAndUsageOutput
  httpPost : String → String → Option GoError
  render : List Value → Except GoError Buffer
  uploadFile : String → String → List String → Buffer → Option GoError

/-- The program's `getCost`: creates the session and calls `GetCostAndUsage` for the
period (monthly granularity, blended cost, grouped by service); either step's error is
returned as is. -/
def getCost (w : World) (start end_ : String) (calls : List Call) :
    Except GoError GetCostAndUsageOutput × List Call :=
  (w.getCostAndUsage start end_, calls ++ [Call.getCost start end_])

/-- The program's `sendToSlack`: posts the JSON body whose `text` is the report headed by
`*Monthly Report*` to the webhook; an error of the marshalling, of the request
construction or of the transport is returned, the response is not looked at. -/
def sendToSlack (w : World) (cost : String) (calls : List Call) : Option GoError × List Call :=
  (w.httpPost w.SLACKENDPOINT ("*Monthly Report*\n " ++ cost), calls ++ [Call.sendToSlack cost])

/-- The program's `drawPieGraph`: builds the slices, renders a 512 by 512 pie chart as
PNG into a buffer and returns the buffer, or the renderer's error. -/
def drawPieGraph (w : World) (results : List Result) (calls : List Call) :
    Except GoError Buffer × List Call :=
  (w.render (pieValues results), calls ++ [Call.drawPieGraph results])

/-- The program's `sendPieGraphToSlack`: uploads the buffer as `output.png` to the
channel. -/
def sendPieGraphToSlack (w : World) (b : Buffer) (calls : List Call) :
    Option GoError × List Call :=
  (w.uploadFile w.SLACKAPITOKEN "output.png" [w.SLACKCHANNEL] b,
    calls ++ [Call.sendPieGraphToSlack b])

/-- How a run of `Handle` ends: it returns an `error` (nil or not), or it panics. -/
inductive HandleResult where
  | returned (err : Option GoError)
  | panicked
  deriving DecidableEq

/-- The report text `Handle` builds: the header, one line per entry, the closing note. -/
def reportText (w : World) (start end_ : String) (totalCost : F64) (list : List Result) :
    String :=
  let str := "*AWS Account: " ++ w.AWSACCOUNT ++ "*\n*Start: " ++ start ++ ", End: " ++ end_ ++
    "*\n*Total Cost: $" ++ w.sprintfFloat 2 totalCost ++ "*\n"
  let str := list.foldl (fun str v =>
    str ++ ("*" ++ v.Name ++ "*: " ++ w.sprintfFloat 2 v.Cost ++ "(" ++
      w.sprintfFloat 1 v.Ratio ++ ")%\n")) str
  str ++ "全体に占める利用料金の割合が1.0%未満のサービスは円グラフではOthersにまとめてあります"

/-- The program's `Handle`: the result and the stage calls made, in order. -/
def Handle (w : World) : HandleResult × List Call :=
  let (start, end_) := getStartAndEndDay w.Local w.now
  match getCost w start end_ [] with
  | (Except.error err, calls) =>
    (HandleResult.returned (some (Errorf "get cost error = " err)), calls)
  | (Except.ok resp, calls) =>
    match SumCost resp with
    | none => (HandleResult.panicked, calls)
    | some totalCost =>
      match makeCostList w.sortSlice resp totalCost with
      | none => (HandleResult.panicked, calls)
      | some list =>
        let str := reportText w start end_ totalCost list
        match sendToSlack w str calls with
        | (some err, calls) =>
          (HandleResult.returned (some (Errorf "send to slack error = " err)), calls)
        | (none, calls) =>
          match drawPieGraph w list calls with
          | (Except.error err, calls) =>
            (HandleResult.returned (some (Errorf "draw pie graph error = " err)), calls)
          | (Except.ok b, calls) =>
            match sendPieGraphToSlack w b calls with
            | (some err, calls) =>
              (HandleResult.returned (some (Errorf "send pie graph error = " err)), calls)
            | (none, calls) => (HandleResult.returned none, calls)

/-! ## Vocabulary of the statements -/

/-- The group is as the billing API delivers it: it has a key (the service name) and a
`BlendedCost` metric. -/
def Group.WellFormed (v : Group) : Prop :=
  v.Keys ≠ [] ∧ ∃ m, v.Metrics.lookup "BlendedCost" = some m

/-- The parsed amounts of a list of groups, in order. -/
def parsedAmounts (gs : List Group) : List F64 := gs.filterMap blendedCost

/-- The sum of the `Cost` fields of a list of entries, added up from `0.0` in order. -/
def costSum (out : List Result) : F64 := (out.map (fun e => e.Cost)).foldl F64.add (F64.fin 0)

/-- The sum of the `Ratio` fields of a list of entries, added up from `0.0` in order. -/
def ratioSum (out : List Result) : F64 := (out.map (fun e => e.Ratio)).foldl F64.add (F64.fin 0)

/-- A group with one key and a `BlendedCost` metric of the given amount. -/
def mkGroup (name amount : String) : Group :=
  ⟨[name], [("BlendedCost", ⟨amount⟩)]⟩

/-- A time bucket holding one group per (service, amount) pair. -/
def mkBucket (pairs : List (String × String)) : ResultByTime :=
  ⟨pairs.map (fun p => mkGroup p.1 p.2)⟩

/-- A response with a single time bucket holding one group per (service, amount) pair. -/
def mkResponse (pairs : List (String × String)) : GetCostAndUsageOutput :=
  ⟨[mkBucket pairs]⟩

/-- The input of the end-to-end scenario. -/
def scenario : GetCostAndUsageOutput :=
  mkResponse [("EC2", "120.00"), ("S3", "1.00"), ("RDS", "79.00")]

/-- An input with an amount that parses to `+Inf`. -/
def infiniteAmount : GetCostAndUsageOutput :=
  mkResponse [("EC2", "Inf"), ("S3", "1.00")]

/-- An input with an amount that parses to NaN. -/
def nanAmount : GetCostAndUsageOutput :=
  mkResponse [("EC2", "1.00"), ("S3", "NaN"), ("RDS", "2.00")]

/-- Thirteen services, the first twelve with the same cost. -/
def tiedCosts : GetCostAndUsageOutput :=
  mkResponse [("svc00", "1.00"), ("svc01", "1.00"), ("svc02", "1.00"), ("svc03", "1.00"),
    ("svc04", "1.00"), ("svc05", "1.00"), ("svc06", "1.00"), ("svc07", "1.00"),
    ("svc08", "1.00"), ("svc09", "1.00"), ("svc10", "1.00"), ("svc11", "1.00"),
    ("svc12", "2.00")]

/-- An input whose only amount is zero, so that the total is zero. -/
def zeroCost : GetCostAndUsageOutput :=
  mkResponse [("EC2", "0")]

/-- An input with an amount beyond the range of `float64`. -/
def hugeAmount : GetCostAndUsageOutput :=
  mkResponse [("EC2", "1e999"), ("S3", "1.00")]

/-- An input with an amount that is not a number. -/
def garbageAmount : GetCostAndUsageOutput :=
  mkResponse [("EC2", "n/a"), ("S3", "1.00")]

/-- The error `strconv.ParseFloat` returns for the amount of group `v` (discarded by
the program). -/
def amountError (v : Group) : Option NumError :=
  match v.Metrics.lookup "BlendedCost" with
  | some m => (ParseFloat m.Amount).2
  | none => none

/-- The four stages of `Handle`. -/
inductive Stage where
  | fetchCost
  | sendText
  | renderChart
  | sendImage
  deriving DecidableEq

/-- The stage a call belongs to. -/
def Call.stage : Call → Stage
  | Call.getCost _ _ => Stage.fetchCost
  | Call.sendToSlack _ => Stage.sendText
  | Call.drawPieGraph _ => Stage.renderChart
  | Call.sendPieGraphToSlack _ => Stage.sendImage

/-- The text `Handle` puts before the error of a failed call. -/
def Call.label : Call → String
  | Call.getCost _ _ => "get cost error = "
  | Call.sendToSlack _ => "send to slack error = "
  | Call.drawPieGraph _ => "draw pie graph error = "
  | Call.sendPieGraphToSlack _ => "send pie graph error = "

/-- The error a stage call returns in world `w`: `none` when the call succeeds. -/
def World.failure (w : World) : Call → Option GoError
  | Call.getCost start end_ =>
    match (getCost w start end_ []).1 with
    | Except.error err => some err
    | Except.ok _ => none
  | Call.sendToSlack cost => (sendToSlack w cost []).1
  | Call.drawPieGraph results =>
    match (drawPieGraph w results []).1 with
    | Except.error err => some err
    | Except.ok _ => none
  | Call.sendPieGraphToSlack b => (sendPieGraphToSlack w b []).1

/-- The decimal digit `k` as a character. -/
def digitChar (k : Nat) : Char := Char.ofNat ('0'.toNat + k)

/-- The text `YYYY-MM-DD` of a date, written out from the spec's words: the year on
four digits, the month on two, the day on two, separated by hyphens. -/
def isoDate (y m d : Nat) : String :=
  String.mk [digitChar (y / 1000 % 10), digitChar (y / 100 % 10), digitChar (y / 10 % 10),
    digitChar (y % 10), '-', digitChar (m / 10 % 10), digitChar (m % 10), '-',
    digitChar (d / 10 % 10), digitChar (d % 10)]

/-- The year of the month before month `m` of year `y`. -/
def prevMonthYear (y m : Int) : Int := if m = 1 then y - 1 else y

/-- The month before month `m`: December before January. -/
def prevMonth (m : Int) : Int := if m = 1 then 12 else m - 1

/-- The seconds from 1970-01-01T00:00:00Z to midnight UTC of the day `d` of the month
`m` (1 to 12) of the year `y`. -/
def civilSeconds (y m d : Int) : Int :=
  (daysSinceEpoch y + daysBefore (m - 1) + (if isLeap y = true ∧ 3 ≤ m then 1 else 0) +
    (d - 1)) * 86400 - unixToInternal

/-- The instant of midnight UTC of a date, as `time.Date` gives it. -/
def midnightUTC (y m d : Int) : Int := (Date y m d 0 0 0 UTC).unix

/-- A location nine hours east of UTC all year (as Asia/Tokyo). -/
def tokyo : Location := ⟨32400, []⟩

/-- A location as America/Asuncion around 2017: UTC-3 (daylight-saving time) until
2017-03-26 03:00:00 UTC, then UTC-4 until 2017-10-01 04:00:00 UTC, which is midnight
on the local clock, then UTC-3 again. -/
def asuncion : Location := ⟨-10800, [(1490497200, -14400), (1506830400, -10800)]⟩

/-- The start date `Handle` computes. -/
def World.start (w : World) : String := (getStartAndEndDay w.Local w.now).1

/-- The end date `Handle` computes. -/
def World.end_ (w : World) : String := (getStartAndEndDay w.Local w.now).2

/-- The report `Handle` sends for a total and a ranked list. -/
def World.report (w : World) (totalCost : F64) (list : List Result) : String :=
  reportText w w.start w.end_ totalCost list


/-- A world in which the API answers with the end-to-end scenario and every call
succeeds, invoked on 2024-03-15 10:30:00 UTC. -/
def scenarioWorld : World where
  now := 1710498600
  Local := UTC
  SLACKENDPOINT := "https://hooks.slack.com/services/T"
  SLACKAPITOKEN := "xoxb"
  SLACKCHANNEL := "C01"
  AWSACCOUNT := "123456789012"
  sortSlice := pdqsortSlice
  sprintfFloat := fun _ _ => "#"
  getCostAndUsage := fun _ _ => Except.ok scenario
  httpPost := fun _ _ => none
  render := fun _ => Except.ok [137, 80, 78, 71]
  uploadFile := fun _ _ _ _ => none

/-- The same world with a billing API that fails. -/
def failingWorld : World :=
  { scenarioWorld with getCostAndUsage := fun _ _ => Except.error (GoError.base "AccessDenied") }
/-! ## Lemmas on `F64` -/

namespace F64

theorem addComm (x y : F64) : add x y = add y x := by
  cases x <;> cases y <;> simp [add, Rat.add_comm]

theorem addAssoc (x y z : F64) : add (add x y) z = add x (add y z) := by
  cases x <;> cases y <;> cases z <;> simp [add, Rat.add_assoc]

theorem addZero (x : F64) : add x (fin 0) = x := by
  cases x <;> simp [add]

theorem zeroAdd (x : F64) : add (fin 0) x = x := by
  cases x <;> simp [add]

theorem addRightComm (x y z : F64) : add (add x y) z = add (add x z) y := by
  rw [addAssoc, addComm y z, ← addAssoc]

theorem addRightCommutative : RightCommutative add := ⟨addRightComm⟩

theorem ltIrrefl (x : F64) : lt x x = false := by
  cases x <;> simp [lt]

theorem ltTrans (x y z : F64) (h1 : lt x y = true) (h2 : lt y z = true) : lt x z = true := by
  cases x <;> cases y <;> cases z <;> simp_all [lt]
  exact lt_of_lt_of_le h1 (le_of_lt h2)

theorem ltNegTrans (x y z : F64) (hx : x.isNaN = false) (hy : y.isNaN = false)
    (hz : z.isNaN = false) (h1 : lt x y = false) (h2 : lt y z = false) : lt x z = false := by
  cases x <;> cases y <;> cases z <;> simp_all [lt, isNaN]
  exact le_trans h2 h1

theorem ge_of_not_lt (x y : F64) (hx : x.isNaN = false) (hy : y.isNaN = false)
    (h : lt x y = false) : ge x y = true := by
  cases x <;> cases y <;> simp_all [lt, ge, le, isNaN]

theorem lt_false_of_ge (x y : F64) (h : ge x y = true) : lt x y = false := by
  cases x <;> cases y <;> simp_all [lt, ge, le]

theorem ge_nan_left (y : F64) : ge nan y = false := by
  cases y <;> simp [ge, le]

theorem ge_nan_right (x : F64) : ge x nan = false := by
  cases x <;> simp [ge, le]

theorem eq_self_of_finite (x : F64) (h : x.isFinite = true) : eq x x = true := by
  cases x <;> simp_all [eq, isFinite]

end F64


/-! ## Lemmas on the aggregator -/

theorem entry_of_wellFormed (totalCost : F64) (v : Group) (h : v.WellFormed) :
    ∃ c k, blendedCost v = some c ∧ v.Keys.head? = some k ∧
      entry totalCost v = some ⟨k, c, F64.mul (F64.div c totalCost) (F64.fin 100)⟩ := by
  obtain ⟨hk, m, hm⟩ := h
  cases hkeys : v.Keys with
  | nil => exact absurd hkeys hk
  | cons k ks =>
    refine ⟨(ParseFloat m.Amount).1, k, ?_, rfl, ?_⟩
    · simp [blendedCost, hm]
    · simp [entry, blendedCost, hm, hkeys]

theorem entry_cost (totalCost : F64) (v : Group) (e : Result) (h : entry totalCost v = some e) :
    blendedCost v = some e.Cost ∧
      e.Ratio = F64.mul (F64.div e.Cost totalCost) (F64.fin 100) := by
  unfold entry at h
  split at h
  · rename_i c k ks hc hk
    simp only [Option.some.injEq] at h
    subst h
    exact ⟨hc, rfl⟩
  · exact absurd h (by simp)

theorem costLoop_eq (totalCost : F64) (gs : List Group) (hwf : ∀ v ∈ gs, v.WellFormed)
    (acc : List Result) :
    costLoop totalCost gs acc = some (acc ++ gs.filterMap (entry totalCost)) := by
  induction gs generalizing acc with
  | nil => simp [costLoop]
  | cons v vs ih =>
    obtain ⟨c, k, -, -, he⟩ := entry_of_wellFormed totalCost v (hwf v (List.mem_cons_self _ _))
    have ih1 := ih (fun u hu => hwf u (List.mem_cons_of_mem _ hu))
    simp [costLoop, he, ih1]

theorem filterMap_entry_length (totalCost : F64) (gs : List Group)
    (hwf : ∀ v ∈ gs, v.WellFormed) : (gs.filterMap (entry totalCost)).length = gs.length := by
  induction gs with
  | nil => rfl
  | cons v vs ih =>
    obtain ⟨c, k, -, -, he⟩ := entry_of_wellFormed totalCost v (hwf v (List.mem_cons_self _ _))
    simp [List.filterMap_cons, he, ih (fun u hu => hwf u (List.mem_cons_of_mem _ hu))]

theorem filterMap_entry_cost (totalCost : F64) (gs : List Group)
    (hwf : ∀ v ∈ gs, v.WellFormed) :
    (gs.filterMap (entry totalCost)).map (fun e => e.Cost) = parsedAmounts gs := by
  induction gs with
  | nil => rfl
  | cons v vs ih =>
    obtain ⟨c, k, hc, -, he⟩ := entry_of_wellFormed totalCost v (hwf v (List.mem_cons_self _ _))
    have ih1 := ih (fun u hu => hwf u (List.mem_cons_of_mem _ hu))
    simp only [parsedAmounts] at ih1
    simp [parsedAmounts, List.filterMap_cons, he, hc, ih1]

theorem sumLoop_eq (gs : List Group) (hwf : ∀ v ∈ gs, v.WellFormed) (sum : F64) :
    sumLoop gs sum = some ((parsedAmounts gs).foldl F64.add sum) := by
  induction gs generalizing sum with
  | nil => simp [sumLoop, parsedAmounts]
  | cons v vs ih =>
    obtain ⟨c, k, hc, -, -⟩ := entry_of_wellFormed (F64.fin 0) v (hwf v (List.mem_cons_self _ _))
    have ih1 := ih (fun u hu => hwf u (List.mem_cons_of_mem _ hu))
    simp [sumLoop, hc, ih1, parsedAmounts, List.filterMap_cons]

/-- The run of `makeCostList` on a well-formed first bucket: it returns, and the list
is a permutation of the entries built from the groups. -/
theorem makeCostList_perm (sortSlice : SortSlice) (hs : SortSliceSpec sortSlice)
    (cost : GetCostAndUsageOutput) (totalCost : F64) (r : ResultByTime)
    (rest : List ResultByTime) (hr : cost.ResultsByTime = r :: rest)
    (hwf : ∀ v ∈ r.Groups, v.WellFormed) :
    ∃ out, makeCostList sortSlice cost totalCost = some out ∧
      sortSlice costLess (r.Groups.filterMap (entry totalCost)) = some out ∧
      out.Perm (r.Groups.filterMap (entry totalCost)) := by
  obtain ⟨out, hout, hperm⟩ := hs.returns_perm costLess (r.Groups.filterMap (entry totalCost))
  refine ⟨out, ?_, hout, hperm⟩
  simp [makeCostList, hr, costLoop_eq totalCost r.Groups hwf, hout]

theorem sumCost_eq (cost : GetCostAndUsageOutput) (r : ResultByTime)
    (rest : List ResultByTime) (hr : cost.ResultsByTime = r :: rest)
    (hwf : ∀ v ∈ r.Groups, v.WellFormed) :
    SumCost cost = some ((parsedAmounts r.Groups).foldl F64.add (F64.fin 0)) := by
  simp [SumCost, hr, sumLoop_eq r.Groups hwf]

/-- Finite values add up to a finite value: the exact sum. -/
theorem foldl_add_finite (xs : List F64) (hfin : ∀ c ∈ xs, c.isFinite = true) (s : ℚ) :
    xs.foldl F64.add (F64.fin s) = F64.fin (s + (xs.map F64.toRat).sum) := by
  induction xs generalizing s with
  | nil => simp
  | cons x xs ih =>
    have hx := hfin x (List.mem_cons_self _ _)
    cases x with
    | fin q =>
      simp only [List.foldl_cons, F64.add, List.map_cons, List.sum_cons, F64.toRat]
      rw [ih (fun c hc => hfin c (List.mem_cons_of_mem _ hc))]
      congr 1
      ring
    | posInf => simp [F64.isFinite] at hx
    | negInf => simp [F64.isFinite] at hx
    | nan => simp [F64.isFinite] at hx

/-! ## Insertion sort meets the contract of sort.Slice -/

theorem pairwise_orderedInsert (r : Result → Result → Prop) [DecidableRel r] (x : Result)
    (l : List Result)
    (htot : ∀ a ∈ x :: l, ∀ b ∈ x :: l, r a b ∨ r b a)
    (htrans : ∀ a ∈ x :: l, ∀ b ∈ x :: l, ∀ c ∈ x :: l, r a b → r b c → r a c)
    (hl : l.Pairwise r) : (l.orderedInsert r x).Pairwise r := by
  induction l with
  | nil => simp
  | cons b l ih =>
    rw [List.orderedInsert]
    have hb : b ∈ x :: b :: l := by simp
    have hx : x ∈ x :: b :: l := by simp
    rw [List.pairwise_cons] at hl
    split
    · rename_i hxb
      refine List.Pairwise.cons ?_ (List.Pairwise.cons hl.1 hl.2)
      intro y hy
      rcases List.mem_cons.1 hy with rfl | hy
      · exact hxb
      · exact htrans x hx b hb y (by simp [hy]) hxb (hl.1 y hy)
    · rename_i hxb
      have hbx : r b x := (htot x hx b hb).resolve_left hxb
      refine List.Pairwise.cons ?_ ?_
      · intro y hy
        rcases (List.mem_orderedInsert r).1 hy with rfl | hy
        · exact hbx
        · exact hl.1 y hy
      · apply ih
        · intro a ha c hc
          exact htot a (by rcases List.mem_cons.1 ha with rfl | h <;> simp [*]) c
            (by rcases List.mem_cons.1 hc with rfl | h <;> simp [*])
        · intro a ha c hc d hd
          exact htrans a (by rcases List.mem_cons.1 ha with rfl | h <;> simp [*]) c
            (by rcases List.mem_cons.1 hc with rfl | h <;> simp [*]) d
            (by rcases List.mem_cons.1 hd with rfl | h <;> simp [*])
        · exact hl.2

theorem pairwise_insertionSort (r : Result → Result → Prop) [DecidableRel r]
    (l : List Result)
    (htot : ∀ a ∈ l, ∀ b ∈ l, r a b ∨ r b a)
    (htrans : ∀ a ∈ l, ∀ b ∈ l, ∀ c ∈ l, r a b → r b c → r a c) :
    (l.insertionSort r).Pairwise r := by
  induction l with
  | nil => simp
  | cons x l ih =>
    rw [List.insertionSort]
    have hsub : ∀ a, a ∈ l → a ∈ x :: l := fun a ha => List.mem_cons_of_mem _ ha
    have hmem : ∀ a, a ∈ x :: l.insertionSort r → a ∈ x :: l := by
      intro a ha
      rcases List.mem_cons.1 ha with rfl | h
      · simp
      · exact hsub a ((List.perm_insertionSort r l).mem_iff.1 h)
    apply pairwise_orderedInsert
    · intro a ha b hb
      exact htot a (hmem a ha) b (hmem b hb)
    · intro a ha b hb c hc
      exact htrans a (hmem a ha) b (hmem b hb) c (hmem c hc)
    · exact ih (fun a ha b hb => htot a (hsub a ha) b (hsub b hb))
        (fun a ha b hb c hc => htrans a (hsub a ha) b (hsub b hb) c (hsub c hc))

/-- Insertion sort returns a permutation, sorted whenever `less` is a strict weak
ordering on the elements. -/
theorem insertionSlice_spec : SortSliceSpec insertionSlice := by
  constructor
  · intro less xs
    exact ⟨_, rfl, List.perm_insertionSort _ xs⟩
  · intro less xs out hswo hout
    simp only [insertionSlice, Option.some.injEq] at hout
    subst hout
    obtain ⟨hirr, htr, hneg⟩ := hswo
    apply pairwise_insertionSort
    · intro a ha b hb
      by_cases h : less b a = false
      · exact Or.inl h
      · right
        have hba : less b a = true := by simpa using h
        cases hab : less a b with
        | false => rfl
        | true =>
          have := htr a ha b hb a ha hab hba
          rw [hirr a ha] at this
          exact absurd this (by simp)
    · intro a ha b hb c hc h1 h2
      exact hneg c hc b hb a ha h2 h1

theorem filterMap_entry_ratio (totalCost : F64) (gs : List Group)
    (hwf : ∀ v ∈ gs, v.WellFormed) :
    (gs.filterMap (entry totalCost)).map (fun e => e.Ratio) =
      (parsedAmounts gs).map (fun c => F64.mul (F64.div c totalCost) (F64.fin 100)) := by
  induction gs with
  | nil => rfl
  | cons v vs ih =>
    obtain ⟨c, k, hc, -, he⟩ := entry_of_wellFormed totalCost v (hwf v (List.mem_cons_self _ _))
    have ih1 := ih (fun u hu => hwf u (List.mem_cons_of_mem _ hu))
    simp only [parsedAmounts] at ih1
    simp [parsedAmounts, List.filterMap_cons, he, hc, ih1]

/-- Every entry of the list is built from a group: its cost is the group's parsed
amount and its ratio is `cost / totalCost * 100`. -/
theorem mem_entries (totalCost : F64) (gs : List Group) (e : Result)
    (he : e ∈ gs.filterMap (entry totalCost)) :
    e.Cost ∈ parsedAmounts gs ∧
      e.Ratio = F64.mul (F64.div e.Cost totalCost) (F64.fin 100) := by
  obtain ⟨v, hv, hev⟩ := List.mem_filterMap.1 he
  obtain ⟨hc, hr⟩ := entry_cost totalCost v e hev
  exact ⟨List.mem_filterMap.2 ⟨v, hv, hc⟩, hr⟩

theorem ratio_of_finite (q t : ℚ) (ht : t ≠ 0) :
    F64.mul (F64.div (F64.fin q) (F64.fin t)) (F64.fin 100) = F64.fin (q / t * 100) := by
  simp [F64.div, F64.mul, ht]

theorem sum_map_ratio (xs : List F64) (t : ℚ) :
    ((xs.map (fun c => F64.fin (c.toRat / t * 100))).map F64.toRat).sum =
      (xs.map F64.toRat).sum / t * 100 := by
  induction xs with
  | nil => simp
  | cons x xs ih =>
    simp only [List.map_cons, List.sum_cons, F64.toRat] at ih ⊢
    rw [ih]
    ring

theorem map_ratio_finite (xs : List F64) (hfin : ∀ c ∈ xs, c.isFinite = true) (t : ℚ)
    (ht : t ≠ 0) :
    xs.map (fun c => F64.mul (F64.div c (F64.fin t)) (F64.fin 100)) =
      xs.map (fun c => F64.fin (c.toRat / t * 100)) := by
  apply List.map_congr_left
  intro c hc
  have := hfin c hc
  cases c with
  | fin q => simpa [F64.toRat] using ratio_of_finite q t ht
  | posInf => simp [F64.isFinite] at this
  | negInf => simp [F64.isFinite] at this
  | nan => simp [F64.isFinite] at this

theorem toRat_le_sum (xs : List F64) (hnn : ∀ c ∈ xs, 0 ≤ c.toRat) (c : F64) (hc : c ∈ xs) :
    c.toRat ≤ (xs.map F64.toRat).sum := by
  induction xs with
  | nil => simp at hc
  | cons x xs ih =>
    have hsum : 0 ≤ (xs.map F64.toRat).sum :=
      List.sum_nonneg (by
        intro y hy
        obtain ⟨z, hz, rfl⟩ := List.mem_map.1 hy
        exact hnn z (List.mem_cons_of_mem _ hz))
    simp only [List.map_cons, List.sum_cons]
    rcases List.mem_cons.1 hc with rfl | h
    · linarith
    · have := ih (fun y hy => hnn y (List.mem_cons_of_mem _ hy)) h
      have := hnn x (List.mem_cons_self _ _)
      linarith

/-! ## Evaluation of the concrete inputs -/

theorem mkBucket_wellFormed (pairs : List (String × String)) :
    ∀ v ∈ (mkBucket pairs).Groups, v.WellFormed := by
  intro v hv
  obtain ⟨p, -, rfl⟩ := List.mem_map.1 hv
  exact ⟨by simp [mkGroup], ⟨p.2⟩, by simp [mkGroup, List.lookup]⟩

theorem parsedAmounts_mkBucket (pairs : List (String × String)) :
    parsedAmounts (mkBucket pairs).Groups = pairs.map (fun p => (ParseFloat p.2).1) := by
  induction pairs with
  | nil => rfl
  | cons p ps ih =>
    have h : blendedCost (mkGroup p.1 p.2) = some (ParseFloat p.2).1 := by
      simp [blendedCost, mkGroup, List.lookup]
    show List.filterMap blendedCost (mkGroup p.1 p.2 :: (mkBucket ps).Groups) = _
    rw [List.filterMap_cons, h]
    show _ :: parsedAmounts (mkBucket ps).Groups = _
    rw [ih]
    rfl

theorem entries_mkBucket (totalCost : F64) (pairs : List (String × String)) :
    (mkBucket pairs).Groups.filterMap (entry totalCost) =
      pairs.map (fun p => (⟨p.1, (ParseFloat p.2).1,
        F64.mul (F64.div (ParseFloat p.2).1 totalCost) (F64.fin 100)⟩ : Result)) := by
  induction pairs with
  | nil => rfl
  | cons p ps ih =>
    have h : entry totalCost (mkGroup p.1 p.2) = some ⟨p.1, (ParseFloat p.2).1,
        F64.mul (F64.div (ParseFloat p.2).1 totalCost) (F64.fin 100)⟩ := by
      simp [entry, blendedCost, mkGroup, List.lookup]
    show List.filterMap (entry totalCost) (mkGroup p.1 p.2 :: (mkBucket ps).Groups) = _
    rw [List.filterMap_cons, h, ih]
    rfl

set_option exponentiation.threshold 2000 in
set_option maxRecDepth 100000 in
theorem parseFloat_120 : ParseFloat "120.00" = (F64.fin 120, none) := by decide

set_option exponentiation.threshold 2000 in
set_option maxRecDepth 100000 in
theorem parseFloat_1 : ParseFloat "1.00" = (F64.fin 1, none) := by decide

set_option exponentiation.threshold 2000 in
set_option maxRecDepth 100000 in
theorem parseFloat_2 : ParseFloat "2.00" = (F64.fin 2, none) := by decide

set_option exponentiation.threshold 2000 in
set_option maxRecDepth 100000 in
theorem parseFloat_79 : ParseFloat "79.00" = (F64.fin 79, none) := by decide

theorem parseFloat_Inf : ParseFloat "Inf" = (F64.posInf, none) := by decide

theorem parseFloat_NaN : ParseFloat "NaN" = (F64.nan, none) := by decide

set_option exponentiation.threshold 2000 in
set_option maxRecDepth 100000 in
theorem parseFloat_zero : ParseFloat "0" = (F64.fin 0, none) := by decide

set_option exponentiation.threshold 2000 in
set_option maxRecDepth 100000 in
theorem parseFloat_1e999 : ParseFloat "1e999" = (F64.posInf, some NumError.ErrRange) := by
  decide

theorem parseFloat_garbage : ParseFloat "n/a" = (F64.fin 0, some NumError.ErrSyntax) := by
  decide

/-! ## Lemmas on the sorted list -/

theorem F64.eq_of_not_lt (x y : F64) (hx : x.isNaN = false) (hy : y.isNaN = false)
    (h1 : F64.lt x y = false) (h2 : F64.lt y x = false) : x = y := by
  cases x <;> cases y <;> simp_all [F64.lt, F64.isNaN]
  exact le_antisymm h2 h1

theorem F64.eq_iff_of_not_nan (x y : F64) (hx : x.isNaN = false) :
    F64.eq x y = true ↔ x = y := by
  cases x <;> cases y <;> simp_all [F64.eq, F64.isNaN]

/-- On entries none of which has a NaN cost, `costLess` is a strict weak ordering. -/
theorem costLess_strictWeakOn (es : List Result) (hnan : ∀ e ∈ es, e.Cost.isNaN = false) :
    StrictWeakOn costLess es := by
  refine ⟨?_, ?_, ?_⟩
  · intro x _
    exact F64.ltIrrefl _
  · intro x _ y _ z _ h1 h2
    exact F64.ltTrans _ _ _ h2 h1
  · intro x hx y hy z hz h1 h2
    exact F64.ltNegTrans _ _ _ (hnan z hz) (hnan y hy) (hnan x hx) h2 h1

theorem entries_not_nan (totalCost : F64) (gs : List Group)
    (hnan : ∀ c ∈ parsedAmounts gs, c.isNaN = false) :
    ∀ e ∈ gs.filterMap (entry totalCost), e.Cost.isNaN = false :=
  fun e he => hnan _ (mem_entries totalCost gs e he).1

/-- Two sorted arrangements of the same elements are equal when the order is
antisymmetric on these elements. -/
theorem sorted_perm_unique (r : Result → Result → Prop) (l₁ l₂ : List Result)
    (hp : l₁.Perm l₂) (h₁ : l₁.Pairwise r) (h₂ : l₂.Pairwise r)
    (hanti : ∀ x ∈ l₁, ∀ y ∈ l₁, r x y → r y x → x = y) : l₁ = l₂ := by
  let r2 : Result → Result → Prop := fun x y => r x y ∧ (r y x → x = y)
  haveI : IsAntisymm Result r2 := ⟨fun x y hxy hyx => hxy.2 hyx.1⟩
  have h₁2 : l₁.Pairwise r2 :=
    h₁.imp_of_mem (fun ha hb hr => ⟨hr, fun hr2 => hanti _ ha _ hb hr hr2⟩)
  have h₂2 : l₂.Pairwise r2 :=
    h₂.imp_of_mem (fun ha hb hr =>
      ⟨hr, fun hr2 => hanti _ (hp.mem_iff.2 ha) _ (hp.mem_iff.2 hb) hr hr2⟩)
  exact List.eq_of_perm_of_sorted hp h₁2 h₂2

/-- The list `makeCostList` returns is sorted: no entry has a greater cost than one
placed before it, when no parsed amount is NaN. -/
theorem makeCostList_pairwise (sortSlice : SortSlice) (hs : SortSliceSpec sortSlice)
    (cost : GetCostAndUsageOutput) (totalCost : F64) (r : ResultByTime)
    (rest : List ResultByTime) (hr : cost.ResultsByTime = r :: rest)
    (hwf : ∀ v ∈ r.Groups, v.WellFormed)
    (hnan : ∀ c ∈ parsedAmounts r.Groups, c.isNaN = false) :
    ∃ out, makeCostList sortSlice cost totalCost = some out ∧
      out.Perm (r.Groups.filterMap (entry totalCost)) ∧
      out.Pairwise (fun x y => costLess y x = false) := by
  obtain ⟨out, hout, hsort, hperm⟩ := makeCostList_perm sortSlice hs cost totalCost r rest hr hwf
  exact ⟨out, hout, hperm,
    hs.sorted costLess _ out (costLess_strictWeakOn _ (entries_not_nan totalCost _ hnan)) hsort⟩

/-- When the parsed amounts are pairwise different and none is NaN, every sort that
meets the contract of `sort.Slice` returns the same list: the entries in descending
order of cost, as insertion sort arranges them. -/
theorem makeCostList_eq_insertionSort (sortSlice : SortSlice) (hs : SortSliceSpec sortSlice)
    (cost : GetCostAndUsageOutput) (totalCost : F64) (r : ResultByTime)
    (rest : List ResultByTime) (hr : cost.ResultsByTime = r :: rest)
    (hwf : ∀ v ∈ r.Groups, v.WellFormed)
    (hnan : ∀ c ∈ parsedAmounts r.Groups, c.isNaN = false)
    (hdist : (parsedAmounts r.Groups).Pairwise (fun a b => F64.eq a b = false)) :
    makeCostList sortSlice cost totalCost =
      insertionSlice costLess (r.Groups.filterMap (entry totalCost)) := by
  obtain ⟨out, hout, hperm, hsorted⟩ :=
    makeCostList_pairwise sortSlice hs cost totalCost r rest hr hwf hnan
  rw [hout]
  simp only [insertionSlice, Option.some.injEq]
  have hnan2 := entries_not_nan totalCost _ hnan
  have hnodup : ((r.Groups.filterMap (entry totalCost)).map (fun e => e.Cost)).Nodup := by
    rw [filterMap_entry_cost _ _ hwf]
    refine List.Pairwise.imp_of_mem ?_ hdist
    intro a b ha _ hab heq
    rw [(F64.eq_iff_of_not_nan a b (hnan a ha)).2 heq] at hab
    exact absurd hab (by simp)
  apply sorted_perm_unique (fun x y => costLess y x = false) _ _
    (hperm.trans (List.perm_insertionSort _ _).symm) hsorted
  · exact (insertionSlice_spec.sorted costLess _ _ (costLess_strictWeakOn _ hnan2) rfl)
  · intro x hx y hy h1 h2
    have hx2 := hperm.mem_iff.1 hx
    have hy2 := hperm.mem_iff.1 hy
    exact List.inj_on_of_nodup_map hnodup hx2 hy2
      (F64.eq_of_not_lt _ _ (hnan2 x hx2) (hnan2 y hy2) h1 h2)

/-! ## Lemmas on the pie chart -/

theorem pieLoop_eq (vs : List Result) (values : List Value) (others : Value) :
    pieLoop vs values others =
      (values ++ (vs.filter (fun v => !F64.lt v.Ratio (F64.fin 1))).map
          (fun v => (⟨v.Name, v.Cost⟩ : Value)),
        ⟨others.Label,
          ((vs.filter (fun v => F64.lt v.Ratio (F64.fin 1))).map (fun v => v.Cost)).foldl
            F64.add others.Value⟩) := by
  induction vs generalizing values others with
  | nil => simp [pieLoop]
  | cons v vs ih =>
    unfold pieLoop
    by_cases h : F64.lt v.Ratio (F64.fin 1) = true
    · simp [h, ih]
    · simp [h, ih]

theorem not_lt_iff_ge_or_nan (x y : F64) (hy : y.isNaN = false) :
    (!F64.lt x y) = (F64.ge x y || x.isNaN) := by
  cases x <;> cases y <;> simp_all [F64.lt, F64.ge, F64.le, F64.isNaN]
  rename_i a b
  by_cases h : a < b <;> simp [h, not_le_of_lt, le_of_not_lt]

/-! ## Lemmas on parse errors -/

/-- A syntax error comes with the value 0. -/
theorem parseFloat_syntax_zero (s : String) (h : (ParseFloat s).2 = some NumError.ErrSyntax) :
    (ParseFloat s).1 = F64.fin 0 := by
  simp only [ParseFloat] at h ⊢
  cases hsp : special (codes s) with
  | some p =>
    obtain ⟨v, n⟩ := p
    simp only [hsp] at h ⊢
    by_cases hn : n ≠ (codes s).length
    · simp [hn]
    · simp [hn] at h
  | none =>
    simp only [hsp] at h ⊢
    cases hrf : readFloat (codes s) with
    | none => simp
    | some r =>
      simp only [hrf] at h ⊢
      by_cases hrest : r.rest ≠ []
      · simp [hrest]
      · by_cases hov : overflowBound ≤ r.magnitude
        · simp [hrest, hov] at h
        · simp [hrest, hov] at h

/-- A range error comes with an infinity. -/
theorem parseFloat_range_inf (s : String) (h : (ParseFloat s).2 = some NumError.ErrRange) :
    (ParseFloat s).1 = F64.posInf ∨ (ParseFloat s).1 = F64.negInf := by
  simp only [ParseFloat] at h ⊢
  cases hsp : special (codes s) with
  | some p =>
    obtain ⟨v, n⟩ := p
    simp only [hsp] at h ⊢
    by_cases hn : n ≠ (codes s).length
    · simp [hn] at h
    · simp [hn] at h
  | none =>
    simp only [hsp] at h ⊢
    cases hrf : readFloat (codes s) with
    | none => simp [hrf] at h
    | some r =>
      simp only [hrf] at h ⊢
      by_cases hrest : r.rest ≠ []
      · simp [hrest] at h
      · by_cases hov : overflowBound ≤ r.magnitude
        · by_cases hneg : r.neg = true <;> simp [hrest, hov, hneg]
        · simp [hrest, hov] at h

theorem blendedCost_of_syntax_error (v : Group)
    (h : amountError v = some NumError.ErrSyntax) : blendedCost v = some (F64.fin 0) := by
  unfold amountError at h
  unfold blendedCost
  cases hm : v.Metrics.lookup "BlendedCost" with
  | none => simp [hm] at h
  | some m =>
    simp only [hm] at h ⊢
    rw [parseFloat_syntax_zero _ h]

theorem blendedCost_of_range_error (v : Group)
    (h : amountError v = some NumError.ErrRange) :
    blendedCost v = some F64.posInf ∨ blendedCost v = some F64.negInf := by
  unfold amountError at h
  unfold blendedCost
  cases hm : v.Metrics.lookup "BlendedCost" with
  | none => simp [hm] at h
  | some m =>
    simp only [hm] at h ⊢
    rcases parseFloat_range_inf _ h with h1 | h1 <;> simp [h1]

/-- Dropping the groups whose amount is a syntax error does not change the sum. -/
theorem foldl_parsedAmounts_filter (gs : List Group) (sum : F64) :
    (parsedAmounts gs).foldl F64.add sum =
      (parsedAmounts (gs.filter
        (fun v => decide (amountError v ≠ some NumError.ErrSyntax)))).foldl F64.add sum := by
  induction gs generalizing sum with
  | nil => rfl
  | cons v vs ih =>
    by_cases h : amountError v = some NumError.ErrSyntax
    · have hb := blendedCost_of_syntax_error v h
      simp only [parsedAmounts] at ih
      simp [parsedAmounts, List.filterMap_cons, hb, h, F64.addZero, ih]
    · simp only [parsedAmounts] at ih
      cases hb : blendedCost v with
      | none => simp [parsedAmounts, List.filterMap_cons, hb, h, ih]
      | some c => simp [parsedAmounts, List.filterMap_cons, hb, h, ih]

theorem zero_ratio (total : F64) (h0 : total ≠ F64.fin 0) (hnan : total.isNaN = false) :
    F64.mul (F64.div (F64.fin 0) total) (F64.fin 100) = F64.fin 0 := by
  cases total with
  | fin t =>
    have ht : t ≠ 0 := fun h => h0 (by rw [h])
    simp [F64.div, F64.mul, ht]
  | posInf => simp [F64.div, F64.mul]
  | negInf => simp [F64.div, F64.mul]
  | nan => simp [F64.isNaN] at hnan

/-! ## Lemmas on dates -/

theorem decimalDigits_small (fuel n : Nat) (h : n < 10) :
    decimalDigits (fuel + 1) n = [digitChar n] := by
  simp [decimalDigits, digitChar, Nat.not_le.2 h]

theorem decimalDigits_step (fuel n : Nat) (h : 10 ≤ n) :
    decimalDigits (fuel + 1) n = decimalDigits fuel (n / 10) ++ [digitChar (n % 10)] := by
  simp [decimalDigits, digitChar, h]

theorem decimalDigits_one (fuel n : Nat) (hf : n < fuel) (h : n < 10) :
    decimalDigits fuel n = [digitChar n] := by
  obtain ⟨f, rfl⟩ : ∃ f, fuel = f + 1 := ⟨fuel - 1, by omega⟩
  exact decimalDigits_small f n h

theorem decimalDigits_two (fuel n : Nat) (hf : n < fuel) (h10 : 10 ≤ n) (h : n < 100) :
    decimalDigits fuel n = [digitChar (n / 10), digitChar (n % 10)] := by
  obtain ⟨f, rfl⟩ : ∃ f, fuel = f + 1 := ⟨fuel - 1, by omega⟩
  rw [decimalDigits_step f n h10, decimalDigits_one f (n / 10) (by omega) (by omega)]
  rfl

theorem decimalDigits_three (fuel n : Nat) (hf : n < fuel) (h100 : 100 ≤ n) (h : n < 1000) :
    decimalDigits fuel n = [digitChar (n / 10 / 10), digitChar (n / 10 % 10),
      digitChar (n % 10)] := by
  obtain ⟨f, rfl⟩ : ∃ f, fuel = f + 1 := ⟨fuel - 1, by omega⟩
  rw [decimalDigits_step f n (by omega),
    decimalDigits_two f (n / 10) (by omega) (by omega) (by omega)]
  rfl

theorem decimalDigits_four (fuel n : Nat) (hf : n < fuel) (h1000 : 1000 ≤ n) (h : n < 10000) :
    decimalDigits fuel n = [digitChar (n / 10 / 10 / 10), digitChar (n / 10 / 10 % 10),
      digitChar (n / 10 % 10), digitChar (n % 10)] := by
  obtain ⟨f, rfl⟩ : ∃ f, fuel = f + 1 := ⟨fuel - 1, by omega⟩
  rw [decimalDigits_step f n (by omega),
    decimalDigits_three f (n / 10) (by omega) (by omega) (by omega)]
  rfl

theorem appendInt_two (n : Nat) (h : n ≤ 99) :
    appendInt (n : Int) 2 = [digitChar (n / 10 % 10), digitChar (n % 10)] := by
  unfold appendInt
  have hneg : ¬ ((n : Int) < 0) := by omega
  simp only [Int.natAbs_ofNat, hneg, if_false, List.nil_append]
  by_cases h10 : n < 10
  · rw [decimalDigits_one _ n (by omega) h10]
    have h1 : n / 10 % 10 = 0 := by omega
    have h2 : n % 10 = n := by omega
    simp [h1, h2, digitChar]
  · rw [decimalDigits_two _ n (by omega) (by omega) (by omega)]
    have h1 : n / 10 % 10 = n / 10 := by omega
    simp [h1]

theorem appendInt_four (n : Nat) (h : n ≤ 9999) :
    appendInt (n : Int) 4 = [digitChar (n / 1000 % 10), digitChar (n / 100 % 10),
      digitChar (n / 10 % 10), digitChar (n % 10)] := by
  unfold appendInt
  have hneg : ¬ ((n : Int) < 0) := by omega
  simp only [Int.natAbs_ofNat, hneg, if_false, List.nil_append]
  by_cases h10 : n < 10
  · rw [decimalDigits_one _ n (by omega) h10]
    have h1 : n / 1000 % 10 = 0 := by omega
    have h2 : n / 100 % 10 = 0 := by omega
    have h3 : n / 10 % 10 = 0 := by omega
    have h4 : n % 10 = n := by omega
    simp [h1, h2, h3, h4, digitChar, List.replicate]
  · by_cases h100 : n < 100
    · rw [decimalDigits_two _ n (by omega) (by omega) h100]
      have h1 : n / 1000 % 10 = 0 := by omega
      have h2 : n / 100 % 10 = 0 := by omega
      have h3 : n / 10 % 10 = n / 10 := by omega
      simp [h1, h2, h3, digitChar, List.replicate]
    · by_cases h1000 : n < 1000
      · rw [decimalDigits_three _ n (by omega) (by omega) h1000]
        have h1 : n / 1000 % 10 = 0 := by omega
        have h2 : n / 100 % 10 = n / 10 / 10 := by omega
        simp [h1, h2, digitChar, List.replicate]
      · rw [decimalDigits_four _ n (by omega) (by omega) (by omega)]
        have h1 : n / 1000 % 10 = n / 10 / 10 / 10 := by omega
        have h2 : n / 100 % 10 = n / 10 / 10 % 10 := by omega
        simp [h1, h2]

theorem div_eq_of_bounds (n k q : Int) (hk : 0 < k) (h0 : k * q ≤ n) (h1 : n < k * q + k) :
    n / k = q := by
  apply le_antisymm
  · have : n / k < q + 1 := Int.ediv_lt_of_lt_mul hk (by linarith)
    omega
  · exact Int.le_ediv_of_mul_le hk (by linarith)

theorem isLeap_iff (y : Int) :
    isLeap y = true ↔ y % 4 = 0 ∧ (y % 100 ≠ 0 ∨ y % 400 = 0) := by
  simp [isLeap]

theorem norm_of_range (hi lo base : Int) (h0 : 0 ≤ lo) (h1 : lo < base) :
    norm hi lo base = (hi, lo) := by
  simp [norm, not_lt.2 h0, not_le.2 h1]

theorem norm_twelve (hi lo : Int) (h0 : -12 ≤ lo) (h1 : lo < 24) :
    norm hi lo 12 = (hi + lo / 12, lo % 12) := by
  unfold norm
  by_cases hneg : lo < 0
  · have e1 : (-lo - 1) / 12 = 0 := by omega
    simp only [hneg, if_true, e1]
    rw [if_neg (by omega)]
    rw [Prod.mk.injEq]
    constructor <;> omega
  · simp only [hneg, if_false]
    by_cases hb : (12 : Int) ≤ lo
    · rw [if_pos hb]
      rw [Prod.mk.injEq]
      constructor <;> omega
    · rw [if_neg hb]
      rw [Prod.mk.injEq]
      constructor <;> omega

/-- The years of a 400-year cycle: the year number split by cycles of 400, 100 and 4
years, the count of days before the year, and the leap years. -/
theorem daysSinceEpoch_eq (y : Int) :
    ∃ a b c e : Int, (0 ≤ b ∧ b ≤ 3) ∧ (0 ≤ c ∧ c ≤ 24) ∧ (0 ≤ e ∧ e ≤ 3) ∧
      y = 400 * a + 100 * b + 4 * c + e + 1 ∧
      daysSinceEpoch y = 146097 * a + 36524 * b + 1461 * c + 365 * e ∧
      (isLeap y = true ↔ e = 3 ∧ (c ≠ 24 ∨ b = 3)) := by
  refine ⟨(y - 1) / 400, (y - 1 - 400 * ((y - 1) / 400)) / 100,
    (y - 1 - 400 * ((y - 1) / 400) - 100 * ((y - 1 - 400 * ((y - 1) / 400)) / 100)) / 4,
    y - 1 - 400 * ((y - 1) / 400) - 100 * ((y - 1 - 400 * ((y - 1) / 400)) / 100) -
      4 * ((y - 1 - 400 * ((y - 1) / 400) - 100 * ((y - 1 - 400 * ((y - 1) / 400)) / 100)) / 4),
    by omega, by omega, by omega, by omega, rfl, ?_⟩
  rw [isLeap_iff]
  omega

theorem absYear_of (a b c e yd : Int) (hb : 0 ≤ b ∧ b ≤ 3) (hc : 0 ≤ c ∧ c ≤ 24)
    (he : 0 ≤ e ∧ e ≤ 3) (hyd : 0 ≤ yd ∧ yd ≤ 365)
    (hleap : yd = 365 → e = 3 ∧ (c ≠ 24 ∨ b = 3)) :
    absYear (146097 * a + 36524 * b + 1461 * c + 365 * e + yd) =
      (400 * a + 100 * b + 4 * c + e + 1, yd) := by
  have h1 : (146097 * a + 36524 * b + 1461 * c + 365 * e + yd) / 146097 = a := by omega
  have e1 : 146097 * a + 36524 * b + 1461 * c + 365 * e + yd - 146097 * a =
      36524 * b + (1461 * c + 365 * e + yd) := by ring
  have h2 : (36524 * b + (1461 * c + 365 * e + yd)) / 36524 -
      (36524 * b + (1461 * c + 365 * e + yd)) / 36524 / 4 = b := by
    by_cases hR : 1461 * c + 365 * e + yd < 36524
    · rw [div_eq_of_bounds _ 36524 b (by norm_num) (by omega) (by omega)]
      omega
    · rw [div_eq_of_bounds _ 36524 4 (by norm_num) (by omega) (by omega)]
      omega
  have e2 : 36524 * b + (1461 * c + 365 * e + yd) - 36524 * b =
      1461 * c + (365 * e + yd) := by ring
  have h3 : (1461 * c + (365 * e + yd)) / 1461 = c := by omega
  have e3 : 1461 * c + (365 * e + yd) - 1461 * c = 365 * e + yd := by ring
  have h4 : (365 * e + yd) / 365 - (365 * e + yd) / 365 / 4 = e := by omega
  have e4 : 365 * e + yd - 365 * e = yd := by ring
  simp only [absYear]
  rw [h1, e1, h2, e2, h3, e3, h4, e4]

/-- The year and the day of the year found by `absDate` are those the count of days
was made from. -/
theorem absYear_daysSinceEpoch (y yd : Int) (h0 : 0 ≤ yd)
    (h1 : yd < 365 + (if isLeap y = true then 1 else 0)) :
    absYear (daysSinceEpoch y + yd) = (y, yd) := by
  obtain ⟨a, b, c, e, hb, hc, he, hy, hd, hl⟩ := daysSinceEpoch_eq y
  rw [hd]
  conv_rhs => rw [hy]
  apply absYear_of a b c e yd hb hc he
  · split at h1 <;> omega
  · intro h365
    apply hl.1
    by_contra hn
    rw [if_neg hn] at h1
    omega

/-- Every count of days is the count of some day of some year. -/
theorem exists_year_of_days (days : Int) :
    ∃ y yd, 0 ≤ yd ∧ yd < 365 + (if isLeap y = true then 1 else 0) ∧
      days = daysSinceEpoch y + yd := by
  have hr1 : 0 ≤ days % 146097 ∧ days % 146097 < 146097 := by omega
  obtain ⟨r1, hr1def⟩ : ∃ r1, r1 = days % 146097 := ⟨_, rfl⟩
  obtain ⟨a, hadef⟩ : ∃ a, a = days / 146097 := ⟨_, rfl⟩
  have hdays : days = 146097 * a + r1 := by omega
  rw [← hr1def] at hr1
  obtain ⟨b, hb, r2, hr2, hr1eq⟩ : ∃ b : Int, (0 ≤ b ∧ b ≤ 3) ∧ ∃ r2 : Int,
      (0 ≤ r2 ∧ r2 ≤ 36524 ∧ (r2 = 36524 → b = 3)) ∧ r1 = 36524 * b + r2 := by
    by_cases h4 : r1 < 146096
    · exact ⟨r1 / 36524, by omega, r1 % 36524, by omega, by omega⟩
    · exact ⟨3, by omega, 36524, by omega, by omega⟩
  obtain ⟨c, hc, r3, hr3, hr2eq⟩ : ∃ c : Int, (0 ≤ c ∧ c ≤ 24) ∧ ∃ r3 : Int,
      (0 ≤ r3 ∧ r3 ≤ 1460 ∧ (r2 = 36524 → c = 24 ∧ r3 = 1460)) ∧ r2 = 1461 * c + r3 :=
    ⟨r2 / 1461, by omega, r2 % 1461, by omega, by omega⟩
  obtain ⟨e, he, yd, hyd, hr3eq⟩ : ∃ e : Int, (0 ≤ e ∧ e ≤ 3) ∧ ∃ yd : Int,
      (0 ≤ yd ∧ yd ≤ 365 ∧ (yd = 365 → e = 3) ∧ (r3 < 1460 → yd < 365)) ∧
      r3 = 365 * e + yd := by
    by_cases h4 : r3 < 1460
    · exact ⟨r3 / 365, by omega, r3 % 365, by omega, by omega⟩
    · exact ⟨3, by omega, 365, by omega, by omega⟩
  obtain ⟨a1, b1, c1, e1, hb1, hc1, he1, hy1, hd1, hl1⟩ :=
    daysSinceEpoch_eq (400 * a + 100 * b + 4 * c + e + 1)
  have ha : a1 = a := by omega
  have hbb : b1 = b := by omega
  have hcc : c1 = c := by omega
  have hee : e1 = e := by omega
  subst ha hbb hcc hee
  refine ⟨400 * a1 + 100 * b1 + 4 * c1 + e1 + 1, yd, hyd.1, ?_, ?_⟩
  · by_cases hl : isLeap (400 * a1 + 100 * b1 + 4 * c1 + e1 + 1) = true
    · rw [if_pos hl]
      omega
    · rw [if_neg hl]
      have hnl : ¬ (e1 = 3 ∧ (c1 ≠ 24 ∨ b1 = 3)) := fun h => hl (hl1.2 h)
      have : yd ≠ 365 := by
        intro h365
        apply hnl
        refine ⟨hyd.2.2.1 h365, ?_⟩
        by_cases hc24 : c1 = 24
        · right
          apply hr2.2.2
          omega
        · left
          exact hc24
      omega
  · rw [hd1]
    omega

theorem daysIn_range (m y : Int) : 28 ≤ daysIn m y ∧ daysIn m y ≤ 31 := by
  unfold daysIn
  split_ifs <;> omega

theorem daysIn_eq_daysBefore (m y : Int) (hm : 1 ≤ m ∧ m ≤ 12) :
    daysIn m y = daysBefore m - daysBefore (m - 1) +
      (if isLeap y = true ∧ m = 2 then 1 else 0) := by
  obtain ⟨h1, h12⟩ := hm
  have hcases : m = 1 ∨ m = 2 ∨ m = 3 ∨ m = 4 ∨ m = 5 ∨ m = 6 ∨ m = 7 ∨ m = 8 ∨ m = 9 ∨
      m = 10 ∨ m = 11 ∨ m = 12 := by omega
  by_cases hl : isLeap y = true <;>
    rcases hcases with h | h | h | h | h | h | h | h | h | h | h | h <;>
    subst h <;> simp [daysBefore, daysIn, hl]

theorem daysBefore_bounds (m : Int) (hm : 1 ≤ m ∧ m ≤ 12) :
    31 * (m - 2) ≤ daysBefore (m - 1) ∧ daysBefore m ≤ 31 * m ∧ 0 ≤ daysBefore (m - 1) ∧
      daysBefore (m - 1) + 28 ≤ daysBefore m ∧ daysBefore m ≤ 365 ∧
      (3 ≤ m → 59 ≤ daysBefore (m - 1)) ∧ (m = 1 → daysBefore (m - 1) = 0) ∧
      (m = 2 → daysBefore (m - 1) = 31 ∧ daysBefore m = 59) := by
  obtain ⟨h1, h12⟩ := hm
  have hcases : m = 1 ∨ m = 2 ∨ m = 3 ∨ m = 4 ∨ m = 5 ∨ m = 6 ∨ m = 7 ∨ m = 8 ∨ m = 9 ∨
      m = 10 ∨ m = 11 ∨ m = 12 := by omega
  rcases hcases with h | h | h | h | h | h | h | h | h | h | h | h <;>
    subst h <;> simp [daysBefore]

/-- The estimate of the month by `absDate`, in a year without leap day. -/
theorem absMonthDay_core (m d : Int) (hm : 1 ≤ m ∧ m ≤ 12)
    (hd : 1 ≤ d ∧ d ≤ daysBefore m - daysBefore (m - 1)) (day : Int)
    (hday : day = daysBefore (m - 1) + (d - 1)) :
    (if daysBefore (day / 31 + 1) ≤ day then
        (day / 31 + 1 + 1, day - daysBefore (day / 31 + 1) + 1)
      else (day / 31 + 1, day - daysBefore (day / 31) + 1)) = (m, d) := by
  obtain ⟨hb1, hb2, hb3, -⟩ := daysBefore_bounds m hm
  have hq : day / 31 = m - 1 ∨ day / 31 = m - 2 := by omega
  rcases hq with hq | hq
  · rw [hq, sub_add_cancel, if_neg (by omega)]
    rw [Prod.mk.injEq]
    constructor <;> omega
  · have e : m - 2 + 1 = m - 1 := by ring
    rw [hq, e, if_pos (by omega)]
    rw [Prod.mk.injEq]
    constructor <;> omega

/-- The month and the day found by `absDate` are those the day of the year was made
from. -/
theorem absMonthDay_of (leap : Bool) (m d : Int) (hm : 1 ≤ m ∧ m ≤ 12)
    (hd : 1 ≤ d ∧ d ≤ daysBefore m - daysBefore (m - 1) +
      (if leap = true ∧ m = 2 then 1 else 0)) :
    absMonthDay leap (daysBefore (m - 1) + (if leap = true ∧ 3 ≤ m then 1 else 0) + (d - 1)) =
      (m, d) := by
  obtain ⟨hb1, hb2, hb3, hb4, hb5, hb6, hb7, hb8⟩ := daysBefore_bounds m hm
  obtain ⟨yd, hyd⟩ : ∃ yd, yd =
      daysBefore (m - 1) + (if leap = true ∧ 3 ≤ m then 1 else 0) + (d - 1) := ⟨_, rfl⟩
  rw [← hyd]
  unfold absMonthDay
  cases leap with
  | false =>
    simp only [Bool.false_eq_true, false_and, if_false] at hd hyd ⊢
    exact absMonthDay_core m d hm (by omega) yd (by omega)
  | true =>
    simp only [true_and] at hd hyd ⊢
    by_cases hm3 : 3 ≤ m
    · rw [if_pos hm3] at hyd
      rw [if_neg (by omega)] at hd
      have hk := hb6 hm3
      have hne : ¬ (yd = 31 + 29 - 1) := by omega
      have hgt : 31 + 29 - 1 < yd := by omega
      simp only [hne, hgt, if_true, if_false]
      exact absMonthDay_core m d hm (by omega) (yd - 1) (by omega)
    · rw [if_neg hm3] at hyd
      by_cases hm2 : m = 2
      · obtain ⟨hk1, hk2⟩ := hb8 hm2
        rw [if_pos hm2] at hd
        by_cases hd29 : d = 29
        · have he : yd = 31 + 29 - 1 := by omega
          simp only [he, if_true]
          rw [hm2, hd29]
        · have hne : ¬ (yd = 31 + 29 - 1) := by omega
          have hgt : ¬ (31 + 29 - 1 < yd) := by omega
          simp only [hne, hgt, if_false]
          exact absMonthDay_core m d hm (by omega) yd (by omega)
      · rw [if_neg hm2] at hd
        have hk := hb7 (by omega)
        have hne : ¬ (yd = 31 + 29 - 1) := by omega
        have hgt : ¬ (31 + 29 - 1 < yd) := by omega
        simp only [hne, hgt, if_false]
        exact absMonthDay_core m d hm (by omega) yd (by omega)

/-- The month `absDate` finds is a month of the calendar. -/
theorem absMonthDay_month_range (leap : Bool) (yday : Int) (h0 : 0 ≤ yday)
    (h1 : yday < 365 + (if leap = true then 1 else 0)) :
    1 ≤ (absMonthDay leap yday).1 ∧ (absMonthDay leap yday).1 ≤ 12 := by
  unfold absMonthDay
  by_cases hld : leap = true ∧ yday = 31 + 29 - 1
  · rw [if_pos hld]
    simp
  · rw [if_neg hld]
    have hday : 0 ≤ (if leap = true ∧ 31 + 29 - 1 < yday then yday - 1 else yday) ∧
        (if leap = true ∧ 31 + 29 - 1 < yday then yday - 1 else yday) ≤ 364 := by
      cases leap <;> simp at h1 hld ⊢ <;> (try split_ifs) <;> omega
    generalize (if leap = true ∧ 31 + 29 - 1 < yday then yday - 1 else yday) = day at hday
    simp only
    by_cases hq : day / 31 = 11
    · rw [hq]
      have : daysBefore (11 + 1) = 365 := by simp [daysBefore]
      rw [this, if_neg (by omega)]
      simp
    · split_ifs <;> simp only <;> omega

theorem daysSinceEpoch_closed (y : Int) :
    daysSinceEpoch y = 365 * (y - 1) + (y - 1) / 4 - (y - 1) / 100 + (y - 1) / 400 := by
  unfold daysSinceEpoch
  simp only
  omega

theorem daysSinceEpoch_succ (y : Int) :
    daysSinceEpoch (y + 1) = daysSinceEpoch y + 365 + (if isLeap y = true then 1 else 0) := by
  rw [daysSinceEpoch_closed, daysSinceEpoch_closed]
  by_cases hl : isLeap y = true
  · rw [if_pos hl]
    rw [isLeap_iff] at hl
    omega
  · rw [if_neg hl]
    rw [isLeap_iff] at hl
    omega

/-- The count of days, from the epoch, of the day `d` of the month `m` of the year
`y`, as `time.Date` computes it. -/
theorem absDate_of (y m d s : Int) (hm : 1 ≤ m ∧ m ≤ 12) (hd : 1 ≤ d ∧ d ≤ daysIn m y)
    (hs : 0 ≤ s ∧ s < 86400) :
    absDate ((daysSinceEpoch y + daysBefore (m - 1) +
      (if isLeap y = true ∧ 3 ≤ m then 1 else 0) + (d - 1)) * 86400 + s) = (y, m, d) := by
  obtain ⟨hb1, hb2, hb3, hb4, hb5, hb6, hb7, hb8⟩ := daysBefore_bounds m hm
  have hdi := daysIn_eq_daysBefore m y hm
  unfold absDate
  have hyd0 : 0 ≤ daysBefore (m - 1) + (if isLeap y = true ∧ 3 ≤ m then 1 else 0) +
      (d - 1) := by
    split_ifs <;> omega
  have hyd1 : daysBefore (m - 1) + (if isLeap y = true ∧ 3 ≤ m then 1 else 0) + (d - 1) <
      365 + (if isLeap y = true then 1 else 0) := by
    by_cases hl : isLeap y = true
    · simp only [hl, true_and, if_true] at hdi ⊢
      split_ifs at hdi ⊢ <;> omega
    · simp only [hl, Bool.false_eq_true, false_and, if_false] at hdi ⊢
      omega
  have hdiv : ((daysSinceEpoch y + daysBefore (m - 1) +
      (if isLeap y = true ∧ 3 ≤ m then 1 else 0) + (d - 1)) * 86400 + s) / 86400 =
      daysSinceEpoch y + (daysBefore (m - 1) +
        (if isLeap y = true ∧ 3 ≤ m then 1 else 0) + (d - 1)) := by
    apply div_eq_of_bounds _ _ _ (by norm_num) <;> omega
  rw [hdiv, absYear_daysSinceEpoch y _ hyd0 hyd1]
  simp only
  rw [absMonthDay_of (isLeap y) m d hm (by omega)]

/-- The month of a date is a month of the calendar. -/
theorem absDate_month_range (abs : Int) :
    1 ≤ (absDate abs).2.1 ∧ (absDate abs).2.1 ≤ 12 := by
  obtain ⟨y, yd, h0, h1, hdays⟩ := exists_year_of_days (abs / 86400)
  unfold absDate
  rw [hdays, absYear_daysSinceEpoch y yd h0 h1]
  exact absMonthDay_month_range (isLeap y) yd h0 h1

theorem lookup_UTC (u : Int) : UTC.lookup u = (0, alpha, omegaEnd) := rfl

/-- The instant `time.Date` returns for midnight of a date, in a location whose offset
is `off` both at that count of seconds read as UTC and at the instant returned. -/
theorem Date_midnight (y mm d off : Int) (loc : Location) (hmm : -11 ≤ mm ∧ mm ≤ 24)
    (hz1 : (loc.lookup (civilSeconds (y + (mm - 1) / 12) ((mm - 1) % 12 + 1) d)).1 = off)
    (hz2 : (loc.lookup (civilSeconds (y + (mm - 1) / 12) ((mm - 1) % 12 + 1) d - off)).1 = off) :
    Date y mm d 0 0 0 loc =
      ⟨civilSeconds (y + (mm - 1) / 12) ((mm - 1) % 12 + 1) d - off, loc⟩ := by
  unfold civilSeconds at hz1 hz2 ⊢
  unfold Date
  simp only [norm_twelve y (mm - 1) (by omega) (by omega),
    norm_of_range 0 0 60 (le_refl _) (by norm_num),
    norm_of_range d 0 24 (le_refl _) (by norm_num)]
  simp only [Int.reduceMul, Int.add_zero, mul_zero, add_zero]
  rcases hlk : loc.lookup ((daysSinceEpoch (y + (mm - 1) / 12) +
      daysBefore ((mm - 1) % 12 + 1 - 1) +
      (if isLeap (y + (mm - 1) / 12) = true ∧ 3 ≤ (mm - 1) % 12 + 1 then 1 else 0) + (d - 1)) *
        86400 - unixToInternal) with ⟨o, st, en⟩
  rw [hlk] at hz1
  simp only at hz1
  subst hz1
  simp only
  by_cases h0 : o = 0
  · simp [h0]
  · rw [if_pos h0]
    simp only [hz2, ite_self]

/-- The same for a month from 1 to 12, which needs no normalisation. -/
theorem Date_midnight_month (y m d off : Int) (loc : Location) (hm : 1 ≤ m ∧ m ≤ 12)
    (hz1 : (loc.lookup (civilSeconds y m d)).1 = off)
    (hz2 : (loc.lookup (civilSeconds y m d - off)).1 = off) :
    Date y m d 0 0 0 loc = ⟨civilSeconds y m d - off, loc⟩ := by
  have e1 : y + (m - 1) / 12 = y := by omega
  have e2 : (m - 1) % 12 + 1 = m := by omega
  have h := Date_midnight y m d off loc (by omega) (by rw [e1, e2]; exact hz1)
    (by rw [e1, e2]; exact hz2)
  rw [e1, e2] at h
  exact h

theorem midnightUTC_eq (y m d : Int) (hm : 1 ≤ m ∧ m ≤ 12) :
    midnightUTC y m d = civilSeconds y m d := by
  unfold midnightUTC
  rw [Date_midnight_month y m d 0 UTC hm rfl rfl]
  simp

theorem prevMonth_range (m : Int) (hm : 1 ≤ m ∧ m ≤ 12) :
    1 ≤ prevMonth m ∧ prevMonth m ≤ 12 := by
  unfold prevMonth
  split_ifs <;> omega

theorem prevMonth_norm (y m : Int) (hm : 1 ≤ m ∧ m ≤ 12) :
    y + (m - 1 - 1) / 12 = prevMonthYear y m ∧ (m - 1 - 1) % 12 + 1 = prevMonth m := by
  unfold prevMonthYear prevMonth
  split_ifs <;> omega

/-- Day 0 of the next month is the last day of the month. -/
theorem civilSeconds_last (y m : Int) (hm : 1 ≤ m ∧ m ≤ 12) :
    civilSeconds (y + 0 + (m + 1 - 1) / 12) ((m + 1 - 1) % 12 + 1) (1 + -1) =
      civilSeconds y m (daysIn m y) := by
  obtain ⟨hb1, hb2, hb3, hb4, hb5, hb6, hb7, hb8⟩ := daysBefore_bounds m hm
  have hdi := daysIn_eq_daysBefore m y hm
  unfold civilSeconds
  by_cases h12 : m = 12
  · subst h12
    have e1 : y + 0 + (12 + 1 - 1) / 12 = y + 1 := by omega
    have e2 : ((12 : Int) + 1 - 1) % 12 + 1 = 1 := by omega
    rw [e1, e2, daysSinceEpoch_succ]
    by_cases hl : isLeap y = true
    · simp [hl, daysBefore] at hdi ⊢
      omega
    · simp [hl, daysBefore] at hdi ⊢
      omega
  · have e1 : y + 0 + (m + 1 - 1) / 12 = y := by omega
    have e2 : (m + 1 - 1) % 12 + 1 = m + 1 := by omega
    have e3 : m + 1 - 1 = m := by omega
    rw [e1, e2, e3]
    by_cases hl : isLeap y = true
    · simp only [hl, true_and] at hdi ⊢
      split_ifs at hdi ⊢ <;> omega
    · simp only [hl, Bool.false_eq_true, false_and, if_false] at hdi ⊢
      omega

theorem Time_Date_of (loc : Location) (off y m d : Int) (hm : 1 ≤ m ∧ m ≤ 12)
    (hd : 1 ≤ d ∧ d ≤ daysIn m y)
    (hz : (loc.lookup (civilSeconds y m d - off)).1 = off) :
    (Time.mk (civilSeconds y m d - off) loc).Date = (y, m, d) := by
  unfold Time.Date Time.abs
  simp only
  rw [hz]
  have e : civilSeconds y m d - off + off + unixToInternal =
      (daysSinceEpoch y + daysBefore (m - 1) +
        (if isLeap y = true ∧ 3 ≤ m then 1 else 0) + (d - 1)) * 86400 + 0 := by
    unfold civilSeconds
    ring
  rw [e]
  exact absDate_of y m d 0 hm hd (by omega)

theorem Time_Clock_of (loc : Location) (off y m d : Int)
    (hz : (loc.lookup (civilSeconds y m d - off)).1 = off) :
    (Time.mk (civilSeconds y m d - off) loc).Clock = (0, 0, 0) := by
  unfold Time.Clock Time.abs
  simp only
  rw [hz]
  have e : civilSeconds y m d - off + off + unixToInternal =
      (daysSinceEpoch y + daysBefore (m - 1) +
        (if isLeap y = true ∧ 3 ≤ m then 1 else 0) + (d - 1)) * 86400 := by
    unfold civilSeconds
    ring
  rw [e, Int.mul_emod_left]
  simp

/-- For a year from 0 to 9999, the layout "2006-01-02" gives ten characters,
`YYYY-MM-DD`. -/
theorem formatDate_eq_isoDate (y m d : Nat) (hy : y ≤ 9999) (hm : m ≤ 99) (hd : d ≤ 99) :
    formatDate (y : Int) (m : Int) (d : Int) = isoDate y m d := by
  simp [formatDate, isoDate, appendInt_four y hy, appendInt_two m hm, appendInt_two d hd]


/-! ## sort.Slice: the model meets the contract

Proof that `pdqsortSlice` returns on every input, that it returns a permutation of its
input, and that the result is sorted when `less` is a strict weak ordering on the
elements. -/

section PdqsortProofs

variable {α : Type}

theorem cons_set_perm (t : List α) (k : Nat) (y h : α) (hk : t[k]? = some y) :
    (y :: t.set k h).Perm (h :: t) := by
  induction t generalizing k with
  | nil => simp at hk
  | cons z t ih =>
    cases k with
    | zero =>
      simp only [List.getElem?_cons_zero, Option.some.injEq] at hk
      subst hk
      exact List.Perm.swap h z t
    | succ k =>
      simp only [List.getElem?_cons_succ] at hk
      have h1 := ih k hk
      exact (List.Perm.swap z y _).trans ((h1.cons z).trans (List.Perm.swap h z t))

theorem set_set_perm_of_get (d : List α) (i j : Nat) (x y : α) (hi : d[i]? = some x)
    (hj : d[j]? = some y) : ((d.set i y).set j x).Perm d := by
  induction d generalizing i j with
  | nil => simp at hi
  | cons h t ih =>
    cases i with
    | zero =>
      simp only [List.getElem?_cons_zero, Option.some.injEq] at hi
      subst hi
      cases j with
      | zero =>
        simp only [List.getElem?_cons_zero, Option.some.injEq] at hj
        subst hj
        simp
      | succ j =>
        simp only [List.getElem?_cons_succ] at hj
        simpa using cons_set_perm t j y h hj
    | succ i =>
      simp only [List.getElem?_cons_succ] at hi
      cases j with
      | zero =>
        simp only [List.getElem?_cons_zero, Option.some.injEq] at hj
        subst hj
        simpa using cons_set_perm t i x h hi
      | succ j =>
        simp only [List.getElem?_cons_succ] at hj
        simpa using ih i j hi hj

theorem Swap_some (d : List α) (i j : Nat) (hi : i < d.length) (hj : j < d.length) :
    ∃ d1, Swap d i j = some d1 := by
  obtain ⟨x, hx⟩ : ∃ x, d[i]? = some x := ⟨d[i], by simp [hi]⟩
  obtain ⟨y, hy⟩ : ∃ y, d[j]? = some y := ⟨d[j], by simp [hj]⟩
  exact ⟨(d.set i y).set j x, by simp [Swap, hx, hy]⟩

theorem Swap_inv (d d1 : List α) (i j : Nat) (h : Swap d i j = some d1) :
    ∃ x y, d[i]? = some x ∧ d[j]? = some y ∧ d1 = (d.set i y).set j x := by
  unfold Swap at h
  split at h
  · rename_i x y hx hy
    exact ⟨x, y, hx, hy, (Option.some.inj h).symm⟩
  · exact absurd h (by simp)

theorem Swap_length (d d1 : List α) (i j : Nat) (h : Swap d i j = some d1) :
    d1.length = d.length := by
  obtain ⟨x, y, -, -, rfl⟩ := Swap_inv d d1 i j h
  simp

theorem Swap_perm (d d1 : List α) (i j : Nat) (h : Swap d i j = some d1) : d1.Perm d := by
  obtain ⟨x, y, hx, hy, rfl⟩ := Swap_inv d d1 i j h
  exact set_set_perm_of_get d i j x y hx hy

theorem Swap_get_left (d d1 : List α) (i j : Nat) (h : Swap d i j = some d1) :
    d1[i]? = d[j]? := by
  obtain ⟨x, y, hx, hy, rfl⟩ := Swap_inv d d1 i j h
  have hi : i < d.length := by
    rcases List.getElem?_eq_some.1 hx with ⟨h1, -⟩
    exact h1
  rw [List.getElem?_set, List.getElem?_set]
  by_cases hij : j = i
  · subst hij
    simp [hi, hx, hy] at *
  · simp [hij, hi, hy]

theorem Swap_get_right (d d1 : List α) (i j : Nat) (h : Swap d i j = some d1) :
    d1[j]? = d[i]? := by
  obtain ⟨x, y, hx, hy, rfl⟩ := Swap_inv d d1 i j h
  have hj : j < d.length := by
    rcases List.getElem?_eq_some.1 hy with ⟨h1, -⟩
    exact h1
  rw [List.getElem?_set]
  simp [hj, hx]

theorem Swap_get_other (d d1 : List α) (i j k : Nat) (h : Swap d i j = some d1)
    (hki : k ≠ i) (hkj : k ≠ j) : d1[k]? = d[k]? := by
  obtain ⟨x, y, hx, hy, rfl⟩ := Swap_inv d d1 i j h
  rw [List.getElem?_set_ne (Ne.symm hkj), List.getElem?_set_ne (Ne.symm hki)]

theorem Less_some (less : α → α → Bool) (d : List α) (i j : Nat) (hi : i < d.length)
    (hj : j < d.length) :
    ∃ x y, d[i]? = some x ∧ d[j]? = some y ∧ Less less d i j = some (less x y) := by
  refine ⟨d[i], d[j], by simp [hi], by simp [hj], ?_⟩
  simp [Less, hi, hj]

theorem Less_inv (less : α → α → Bool) (d : List α) (i j : Nat) (c : Bool)
    (h : Less less d i j = some c) :
    ∃ x y, d[i]? = some x ∧ d[j]? = some y ∧ less x y = c := by
  unfold Less at h
  split at h
  · rename_i x y hx hy
    exact ⟨x, y, hx, hy, Option.some.inj h⟩
  · exact absurd h (by simp)

theorem Frame.refl (a b : Nat) (d : List α) : Frame a b d d :=
  ⟨rfl, fun _ _ => rfl, List.Perm.refl d⟩

theorem Frame.trans {a b : Nat} {d d1 d2 : List α} (h1 : Frame a b d d1)
    (h2 : Frame a b d1 d2) : Frame a b d d2 :=
  ⟨h2.length.trans h1.length, fun k hk => (h2.outside k hk).trans (h1.outside k hk),
    h2.perm.trans h1.perm⟩

theorem Frame.mono {a b a1 b1 : Nat} {d d1 : List α} (h : Frame a1 b1 d d1) (ha : a ≤ a1)
    (hb : b1 ≤ b) : Frame a b d d1 :=
  ⟨h.length, fun k hk => h.outside k (by omega), h.perm⟩

theorem Swap_frame (d d1 : List α) (i j a b : Nat) (h : Swap d i j = some d1)
    (hi : a ≤ i ∧ i < b) (hj : a ≤ j ∧ j < b) : Frame a b d d1 :=
  ⟨Swap_length d d1 i j h,
    fun k hk => Swap_get_other d d1 i j k h (by omega) (by omega),
    Swap_perm d d1 i j h⟩

/-- An element found in the range after a rearrangement of the range was in the range
before. -/
theorem Frame.exists_get {a b : Nat} {d d1 : List α} (h : Frame a b d d1) (k : Nat) (x : α)
    (hk : a ≤ k ∧ k < b) (hx : d1[k]? = some x) :
    ∃ k1, (a ≤ k1 ∧ k1 < b) ∧ d[k1]? = some x := by
  have hA : d1.take a = d.take a := by
    apply List.ext_getElem?
    intro n
    rw [List.getElem?_take, List.getElem?_take]
    split
    · exact h.outside n (Or.inl (by assumption))
    · rfl
  have hC : d1.drop b = d.drop b := by
    apply List.ext_getElem?
    intro n
    rw [List.getElem?_drop, List.getElem?_drop]
    exact h.outside _ (Or.inr (by omega))
  have e1 : d1 = d1.take a ++ ((d1.drop a).take (b - a) ++ d1.drop b) := by
    conv_lhs => rw [← List.take_append_drop a d1, ← List.take_append_drop (b - a) (d1.drop a)]
    rw [List.drop_drop]
    congr 3
    omega
  have e : d = d.take a ++ ((d.drop a).take (b - a) ++ d.drop b) := by
    conv_lhs => rw [← List.take_append_drop a d, ← List.take_append_drop (b - a) (d.drop a)]
    rw [List.drop_drop]
    congr 3
    omega
  have hp := h.perm
  rw [e1, e, hA, hC, List.perm_append_left_iff, List.perm_append_right_iff] at hp
  have hmem : x ∈ (d1.drop a).take (b - a) := by
    rw [List.mem_iff_getElem?]
    refine ⟨k - a, ?_⟩
    rw [List.getElem?_take, List.getElem?_drop]
    have : a + (k - a) = k := by omega
    simp [this, hx]
    omega
  have hmem2 := hp.mem_iff.1 hmem
  obtain ⟨n, hn⟩ := List.mem_iff_getElem?.1 hmem2
  rw [List.getElem?_take, List.getElem?_drop] at hn
  split at hn
  · exact ⟨a + n, ⟨by omega, by omega⟩, hn⟩
  · exact absurd hn (by simp)

theorem AllOn.frame {P : α → Prop} {a b a1 b1 : Nat} {d d1 : List α} (h : AllOn P a b d)
    (hf : Frame a1 b1 d d1) (ha : a ≤ a1) (hb : b1 ≤ b) : AllOn P a b d1 := by
  intro k x hk1 hk2 hx
  by_cases hin : a1 ≤ k ∧ k < b1
  · obtain ⟨k1, hk1r, hk1x⟩ := hf.exists_get k x hin hx
    exact h k1 x (by omega) (by omega) hk1x
  · rw [hf.outside k (by omega)] at hx
    exact h k x hk1 hk2 hx

theorem StrictWeakOn.perm {less : α → α → Bool} {d d1 : List α} (h : StrictWeakOn less d)
    (hp : d1.Perm d) : StrictWeakOn less d1 := by
  obtain ⟨h1, h2, h3⟩ := h
  refine ⟨fun x hx => h1 x (hp.mem_iff.1 hx), ?_, ?_⟩
  · intro x hx y hy z hz
    exact h2 x (hp.mem_iff.1 hx) y (hp.mem_iff.1 hy) z (hp.mem_iff.1 hz)
  · intro x hx y hy z hz
    exact h3 x (hp.mem_iff.1 hx) y (hp.mem_iff.1 hy) z (hp.mem_iff.1 hz)

theorem StrictWeakOn.ofFrame {less : α → α → Bool} {a b : Nat} {d d1 : List α}
    (h : StrictWeakOn less d) (hf : Frame a b d d1) : StrictWeakOn less d1 :=
  h.perm hf.perm

/-- Transitivity of "not greater": `x ≤ y` and `y ≤ z` give `x ≤ z`. -/
theorem StrictWeakOn.le_trans {less : α → α → Bool} {d : List α} (h : StrictWeakOn less d)
    {i j k : Nat} {x y z : α} (hx : d[i]? = some x) (hy : d[j]? = some y)
    (hz : d[k]? = some z) (h1 : less y x = false) (h2 : less z y = false) :
    less z x = false :=
  h.2.2 z (List.getElem?_mem hz) y (List.getElem?_mem hy) x (List.getElem?_mem hx) h2 h1

theorem StrictWeakOn.asymm {less : α → α → Bool} {d : List α} (h : StrictWeakOn less d)
    {i j : Nat} {x y : α} (hx : d[i]? = some x) (hy : d[j]? = some y)
    (h1 : less x y = true) : less y x = false := by
  cases hyx : less y x with
  | false => rfl
  | true =>
    have := h.2.1 x (List.getElem?_mem hx) y (List.getElem?_mem hy) x (List.getElem?_mem hx)
      h1 hyx
    rw [h.1 x (List.getElem?_mem hx)] at this
    exact absurd this (by simp)

/-- From `x < y` and `y ≤ z`: `x < z`. -/
theorem StrictWeakOn.lt_of_lt_of_le {less : α → α → Bool} {d : List α}
    (h : StrictWeakOn less d) {i j k : Nat} {x y z : α} (hx : d[i]? = some x)
    (hy : d[j]? = some y) (hz : d[k]? = some z) (h1 : less x y = true)
    (h2 : less z y = false) : less x z = true := by
  cases hxz : less x z with
  | true => rfl
  | false =>
    have := h.2.2 x (List.getElem?_mem hx) z (List.getElem?_mem hz) y (List.getElem?_mem hy)
      hxz h2
    rw [h1] at this
    exact absurd this (by simp)

/-- From `x ≤ y` and `y < z`: `x < z`. -/
theorem StrictWeakOn.lt_of_le_of_lt {less : α → α → Bool} {d : List α}
    (h : StrictWeakOn less d) {i j k : Nat} {x y z : α} (hx : d[i]? = some x)
    (hy : d[j]? = some y) (hz : d[k]? = some z) (h1 : less y x = false)
    (h2 : less y z = true) : less x z = true := by
  cases hxz : less x z with
  | true => rfl
  | false =>
    have := h.2.2 y (List.getElem?_mem hy) x (List.getElem?_mem hx) z (List.getElem?_mem hz)
      h1 hxz
    rw [h2] at this
    exact absurd this (by simp)

theorem SortedOn.frame_outside {less : α → α → Bool} {a b a1 b1 : Nat} {d d1 : List α}
    (h : SortedOn less a b d) (hf : Frame a1 b1 d d1) (hdisj : b ≤ a1 ∨ b1 ≤ a) :
    SortedOn less a b d1 := by
  intro i j x y hi hij hj hx hy
  rw [hf.outside i (by omega)] at hx
  rw [hf.outside j (by omega)] at hy
  exact h i j x y hi hij hj hx hy

theorem SortedOn.of_small (less : α → α → Bool) (a b : Nat) (d : List α) (h : b ≤ a + 1) :
    SortedOn less a b d := by
  intro i j x y hi hij hj _ _
  omega

/-- A sorted range grows by one position whose element is not less than any element
of the range. -/
theorem SortedOn.snoc {less : α → α → Bool} {a b : Nat} {d : List α}
    (h : SortedOn less a b d) (z : α) (hz : d[b]? = some z)
    (hall : AllOn (fun y => less z y = false) a b d) : SortedOn less a (b + 1) d := by
  intro i j x y hi hij hj hx hy
  by_cases hjb : j < b
  · exact h i j x y hi hij hjb hx hy
  · have : j = b := by omega
    subst this
    rw [hz] at hy
    cases hy
    exact hall i x hi hij hx

theorem insertionInner_spec (less : α → α → Bool) (a : Nat) (j : Nat) (d : List α)
    (hj : j < d.length) :
    ∃ d1, insertionInner less a j d = some d1 ∧ Frame a (j + 1) d d1 ∧
      (StrictWeakOn less d → SortedOn less a j d → SortedOn less a (j + 1) d1) := by
  induction j generalizing d with
  | zero =>
    refine ⟨d, rfl, Frame.refl _ _ _, fun _ _ => SortedOn.of_small less a 1 d (by omega)⟩
  | succ j ih =>
    unfold insertionInner
    by_cases ha : a < j + 1
    · simp only [ha, if_true]
      obtain ⟨x1, x0, hx1, hx0, hless⟩ := Less_some less d (j + 1) j hj (by omega)
      rw [hless]
      cases hc : less x1 x0 with
      | false =>
        refine ⟨d, rfl, Frame.refl _ _ _, ?_⟩
        intro hswo hs
        apply SortedOn.snoc hs x1 hx1
        intro k y hk1 hk2 hy
        by_cases hkj : k = j
        · subst hkj
          rw [hx0] at hy
          cases hy
          exact hc
        · exact hswo.le_trans hy hx0 hx1 (hs k j y x0 hk1 (by omega) (by omega) hy hx0) hc
      | true =>
        obtain ⟨d1, hswap⟩ := Swap_some d (j + 1) j hj (by omega)
        rw [hswap]
        have hlen := Swap_length d d1 _ _ hswap
        obtain ⟨d2, hd2, hf2, hsorted⟩ := ih d1 (by omega)
        have hf1 : Frame a (j + 1 + 1) d d1 :=
          Swap_frame d d1 (j + 1) j a (j + 1 + 1) hswap (by omega) (by omega)
        refine ⟨d2, hd2, hf1.trans (hf2.mono (le_refl _) (by omega)), ?_⟩
        intro hswo hs
        have hswo1 := hswo.ofFrame hf1
        have hd1j : d1[j]? = some x1 := by
          rw [Swap_get_right d d1 (j + 1) j hswap, hx1]
        have hd1j1 : d1[j + 1]? = some x0 := by
          rw [Swap_get_left d d1 (j + 1) j hswap, hx0]
        have hs1 : SortedOn less a j d1 := by
          intro i k x y hi hik hk hx hy
          rw [Swap_get_other d d1 (j + 1) j i hswap (by omega) (by omega)] at hx
          rw [Swap_get_other d d1 (j + 1) j k hswap (by omega) (by omega)] at hy
          exact hs i k x y hi hik (by omega) hx hy
        have hs2 := hsorted hswo1 hs1
        have hd2j1 : d2[j + 1]? = some x0 := by
          rw [hf2.outside (j + 1) (by omega), hd1j1]
        apply SortedOn.snoc hs2 x0 hd2j1
        have hall1 : AllOn (fun y => less x0 y = false) a (j + 1) d1 := by
          intro k y hk1 hk2 hy
          by_cases hkj : k = j
          · subst hkj
            rw [hd1j] at hy
            cases hy
            exact hswo.asymm hx1 hx0 hc
          · rw [Swap_get_other d d1 (j + 1) j k hswap (by omega) (by omega)] at hy
            exact hs k j y x0 hk1 (by omega) (by omega) hy hx0
        exact hall1.frame hf2 (le_refl _) (le_refl _)
    · simp only [ha, if_false]
      refine ⟨d, rfl, Frame.refl _ _ _, fun _ _ => SortedOn.of_small less a _ d (by omega)⟩

theorem insertionOuter_spec (less : α → α → Bool) (a : Nat) (k : Nat) (i : Nat) (d : List α)
    (hk : i + k ≤ d.length) :
    ∃ d1, insertionOuter less a k i d = some d1 ∧ Frame a (i + k) d d1 ∧
      (StrictWeakOn less d → SortedOn less a i d → SortedOn less a (i + k) d1) := by
  induction k generalizing i d with
  | zero => exact ⟨d, rfl, Frame.refl _ _ _, fun _ h => h⟩
  | succ k ih =>
    unfold insertionOuter
    obtain ⟨d1, hd1, hf1, hs1⟩ := insertionInner_spec less a i d (by omega)
    rw [hd1]
    obtain ⟨d2, hd2, hf2, hs2⟩ := ih (i + 1) d1 (by rw [hf1.length]; omega)
    refine ⟨d2, hd2, ?_, ?_⟩
    · have e : i + 1 + k = i + (k + 1) := by omega
      rw [e] at hf2
      exact (hf1.mono (le_refl _) (by omega)).trans hf2
    · intro hswo hs
      have e : i + 1 + k = i + (k + 1) := by omega
      rw [← e]
      exact hs2 (hswo.ofFrame hf1) (hs1 hswo hs)

theorem insertionSort_func_spec (less : α → α → Bool) (d : List α) (a b : Nat)
    (hb : b ≤ d.length) :
    ∃ d1, insertionSort_func less d a b = some d1 ∧ Frame a b d d1 ∧
      (StrictWeakOn less d → SortedOn less a b d1) := by
  unfold insertionSort_func
  by_cases h : a + 1 ≤ b
  · obtain ⟨d1, hd1, hf1, hs1⟩ :=
      insertionOuter_spec less a (b - (a + 1)) (a + 1) d (by omega)
    have e : a + 1 + (b - (a + 1)) = b := by omega
    rw [e] at hf1 hs1
    exact ⟨d1, hd1, hf1, fun hswo => hs1 hswo (SortedOn.of_small less a _ d (by omega))⟩
  · have e : b - (a + 1) = 0 := by omega
    rw [e]
    exact ⟨d, rfl, Frame.refl _ _ _, fun _ => SortedOn.of_small less a b d (by omega)⟩

/-! ### Choice of the pivot, reversal -/

theorem order2_func_spec (less : α → α → Bool) (d : List α) (a b swaps : Nat)
    (ha : a < d.length) (hb : b < d.length) :
    ∃ x y s, order2_func less d a b swaps = some (x, y, s) ∧
      ((x = a ∧ y = b) ∨ (x = b ∧ y = a)) := by
  obtain ⟨u, v, -, -, h⟩ := Less_some less d b a hb ha
  unfold order2_func
  rw [h]
  cases less u v with
  | true => exact ⟨b, a, swaps + 1, rfl, Or.inr ⟨rfl, rfl⟩⟩
  | false => exact ⟨a, b, swaps, rfl, Or.inl ⟨rfl, rfl⟩⟩

theorem median_func_spec (less : α → α → Bool) (d : List α) (a b c swaps : Nat)
    (ha : a < d.length) (hb : b < d.length) (hc : c < d.length) :
    ∃ m s, median_func less d a b c swaps = some (m, s) ∧ (m = a ∨ m = b ∨ m = c) := by
  unfold median_func
  obtain ⟨a1, b1, s1, h1, hab⟩ := order2_func_spec less d a b swaps ha hb
  rw [h1]
  simp only
  have hb1 : b1 < d.length := by rcases hab with ⟨-, rfl⟩ | ⟨-, rfl⟩ <;> assumption
  have ha1 : a1 < d.length := by rcases hab with ⟨rfl, -⟩ | ⟨rfl, -⟩ <;> assumption
  obtain ⟨b2, c2, s2, h2, hbc⟩ := order2_func_spec less d b1 c s1 hb1 hc
  rw [h2]
  simp only
  have hb2 : b2 < d.length := by rcases hbc with ⟨rfl, -⟩ | ⟨rfl, -⟩ <;> assumption
  obtain ⟨a3, b3, s3, h3, hab3⟩ := order2_func_spec less d a1 b2 s2 ha1 hb2
  rw [h3]
  simp only
  refine ⟨b3, s3, rfl, ?_⟩
  rcases hab with ⟨rfl, rfl⟩ | ⟨rfl, rfl⟩ <;> rcases hbc with ⟨rfl, rfl⟩ | ⟨rfl, rfl⟩ <;>
    rcases hab3 with ⟨rfl, rfl⟩ | ⟨rfl, rfl⟩ <;> simp

theorem medianAdjacent_func_spec (less : α → α → Bool) (d : List α) (a swaps : Nat)
    (ha : a + 1 < d.length) :
    ∃ m s, medianAdjacent_func less d a swaps = some (m, s) ∧ a - 1 ≤ m ∧ m ≤ a + 1 := by
  obtain ⟨m, s, h, hm⟩ :=
    median_func_spec less d (a - 1) a (a + 1) swaps (by omega) (by omega) ha
  exact ⟨m, s, h, by omega, by omega⟩

theorem choosePivot_func_spec (less : α → α → Bool) (d : List α) (a b : Nat)
    (hl : 8 ≤ b - a) (hb : b ≤ d.length) :
    ∃ p hint, choosePivot_func less d a b = some (p, hint) ∧ a ≤ p ∧ p < b := by
  unfold choosePivot_func
  simp only [hl, if_true]
  have hchosen : ∃ j1 swaps, (if 50 ≤ b - a then
        match medianAdjacent_func less d (a + (b - a) / 4 * 1) 0 with
        | none => none
        | some (i1, s1) =>
          match medianAdjacent_func less d (a + (b - a) / 4 * 2) s1 with
          | none => none
          | some (j1, s2) =>
            match medianAdjacent_func less d (a + (b - a) / 4 * 3) s2 with
            | none => none
            | some (k1, s3) => median_func less d i1 j1 k1 s3
      else median_func less d (a + (b - a) / 4 * 1) (a + (b - a) / 4 * 2)
        (a + (b - a) / 4 * 3) 0) = some (j1, swaps) ∧ a ≤ j1 ∧ j1 < b := by
    by_cases h50 : 50 ≤ b - a
    · simp only [h50, if_true]
      obtain ⟨i1, s1, h1, hi1⟩ :=
        medianAdjacent_func_spec less d (a + (b - a) / 4 * 1) 0 (by omega)
      obtain ⟨j1, s2, h2, hj1⟩ :=
        medianAdjacent_func_spec less d (a + (b - a) / 4 * 2) s1 (by omega)
      obtain ⟨k1, s3, h3, hk1⟩ :=
        medianAdjacent_func_spec less d (a + (b - a) / 4 * 3) s2 (by omega)
      obtain ⟨m, s, h4, hm⟩ :=
        median_func_spec less d i1 j1 k1 s3 (by omega) (by omega) (by omega)
      rw [h1]
      simp only
      rw [h2]
      simp only
      rw [h3]
      simp only
      exact ⟨m, s, h4, by omega, by omega⟩
    · simp only [h50, if_false]
      obtain ⟨m, s, h4, hm⟩ :=
        median_func_spec less d (a + (b - a) / 4 * 1) (a + (b - a) / 4 * 2)
          (a + (b - a) / 4 * 3) 0 (by omega) (by omega) (by omega)
      exact ⟨m, s, h4, by omega, by omega⟩
  obtain ⟨j1, swaps, hch, hj1a, hj1b⟩ := hchosen
  rw [hch]
  simp only
  split_ifs
  · exact ⟨j1, _, rfl, hj1a, hj1b⟩
  · exact ⟨j1, _, rfl, hj1a, hj1b⟩
  · exact ⟨j1, _, rfl, hj1a, hj1b⟩

theorem reverseLoop_spec (a b : Nat) (k : Nat) (d : List α) (i j : Nat) (hi : a ≤ i)
    (hj : j < b) (hb : b ≤ d.length) :
    ∃ d1, reverseLoop k d i j = some d1 ∧ Frame a b d d1 := by
  induction k generalizing d i j with
  | zero => exact ⟨d, rfl, Frame.refl _ _ _⟩
  | succ k ih =>
    unfold reverseLoop
    by_cases hij : i < j
    · simp only [hij, if_true]
      obtain ⟨d1, h1⟩ := Swap_some d i j (by omega) (by omega)
      rw [h1]
      have hf1 := Swap_frame d d1 i j a b h1 (by omega) (by omega)
      obtain ⟨d2, h2, hf2⟩ := ih d1 (i + 1) (j - 1) (by omega) (by omega)
        (by rw [hf1.length]; exact hb)
      exact ⟨d2, h2, hf1.trans hf2⟩
    · simp only [hij, if_false]
      exact ⟨d, rfl, Frame.refl _ _ _⟩

theorem reverseRange_func_spec (d : List α) (a b : Nat) (hab : a < b) (hb : b ≤ d.length) :
    ∃ d1, reverseRange_func d a b = some d1 ∧ Frame a b d d1 :=
  reverseLoop_spec a b (b - a) d a (b - 1) (le_refl _) (by omega) hb

/-! ### Partition -/

theorem scanUp_spec (less : α → α → Bool) (d : List α) (a j : Nat) (p : α)
    (hp : d[a]? = some p) (hj : j < d.length) (k i : Nat) (hk : j + 1 - i ≤ k) :
    ∃ i1, scanUp less d a j k i = some i1 ∧ i ≤ i1 ∧ (i ≤ j + 1 → i1 ≤ j + 1) ∧
      AllOn (fun x => less x p = true) i i1 d ∧
      (∀ x, i1 ≤ j → d[i1]? = some x → less x p = false) := by
  induction k generalizing i with
  | zero =>
    refine ⟨i, rfl, le_refl _, fun h => h, ?_, ?_⟩
    · intro n x h1 h2 _
      omega
    · intro x h1 _
      omega
  | succ k ih =>
    unfold scanUp
    by_cases hij : i ≤ j
    · simp only [hij, if_true]
      obtain ⟨x, p1, hx, hp1, hless⟩ := Less_some less d i a (by omega)
        (by rcases List.getElem?_eq_some.1 hp with ⟨h1, -⟩; exact h1)
      rw [hp] at hp1
      cases hp1
      rw [hless]
      cases hc : less x p with
      | true =>
        obtain ⟨i1, h1, h2, h3, h4, h5⟩ := ih (i + 1) (by omega)
        refine ⟨i1, h1, by omega, fun _ => h3 (by omega), ?_, h5⟩
        intro n y hn1 hn2 hy
        by_cases hni : n = i
        · subst hni
          rw [hx] at hy
          cases hy
          exact hc
        · exact h4 n y (by omega) hn2 hy
      | false =>
        refine ⟨i, rfl, le_refl _, fun h => h, ?_, ?_⟩
        · intro n y h1 h2 _
          omega
        · intro y _ hy
          rw [hx] at hy
          cases hy
          exact hc
    · simp only [hij, if_false]
      refine ⟨i, rfl, le_refl _, fun h => h, ?_, ?_⟩
      · intro n x h1 h2 _
        omega
      · intro x h1 _
        omega

theorem scanDown_spec (less : α → α → Bool) (d : List α) (a i : Nat) (p : α)
    (hp : d[a]? = some p) (hi : 1 ≤ i) (k j : Nat) (hk : j + 1 - i ≤ k)
    (hj : j < d.length) :
    ∃ j1, scanDown less d a i k j = some j1 ∧ j1 ≤ j ∧ (i ≤ j + 1 → i ≤ j1 + 1) ∧
      AllOn (fun x => less x p = false) (j1 + 1) (j + 1) d ∧
      (∀ x, i ≤ j1 → d[j1]? = some x → less x p = true) := by
  induction k generalizing j with
  | zero =>
    refine ⟨j, rfl, le_refl _, fun h => h, ?_, ?_⟩
    · intro n x h1 h2 _
      omega
    · intro x h1 _
      omega
  | succ k ih =>
    unfold scanDown
    by_cases hij : i ≤ j
    · simp only [hij, if_true]
      obtain ⟨x, p1, hx, hp1, hless⟩ := Less_some less d j a hj
        (by rcases List.getElem?_eq_some.1 hp with ⟨h1, -⟩; exact h1)
      rw [hp] at hp1
      cases hp1
      rw [hless]
      cases hc : less x p with
      | false =>
        obtain ⟨j1, h1, h2, h3, h4, h5⟩ := ih (j - 1) (by omega) (by omega)
        refine ⟨j1, h1, by omega, fun _ => h3 (by omega), ?_, h5⟩
        intro n y hn1 hn2 hy
        by_cases hnj : n = j
        · subst hnj
          rw [hx] at hy
          cases hy
          exact hc
        · exact h4 n y hn1 (by omega) hy
      | true =>
        refine ⟨j, rfl, le_refl _, fun h => h, ?_, ?_⟩
        · intro n y h1 h2 _
          omega
        · intro y _ hy
          rw [hx] at hy
          cases hy
          exact hc
    · simp only [hij, if_false]
      refine ⟨j, rfl, le_refl _, fun h => h, ?_, ?_⟩
      · intro n x h1 h2 _
        omega
      · intro x h1 _
        omega

theorem partitionLoop_spec (less : α → α → Bool) (a b : Nat) (p : α) (k : Nat) (d : List α)
    (i j : Nat) (hp : d[a]? = some p) (hb : b ≤ d.length) (hi : a + 1 ≤ i) (hj : j + 1 ≤ b)
    (hij : i ≤ j + 1) (hk : j + 1 - i < k)
    (hlow : AllOn (fun x => less x p = true) (a + 1) i d)
    (hhigh : AllOn (fun x => less x p = false) (j + 1) b d) :
    ∃ d1 j1, partitionLoop less a k d i j = some (d1, j1) ∧ Frame (a + 1) b d d1 ∧
      a ≤ j1 ∧ j1 < b ∧ AllOn (fun x => less x p = true) (a + 1) (j1 + 1) d1 ∧
      AllOn (fun x => less x p = false) (j1 + 1) b d1 := by
  induction k generalizing d i j with
  | zero => omega
  | succ k ih =>
    unfold partitionLoop
    obtain ⟨i1, hs1, hi1a, hi1b, hlow1, hstop1⟩ :=
      scanUp_spec less d a j p hp (by omega) (j + 1 - i) i (le_refl _)
    rw [hs1]
    simp only
    obtain ⟨j1, hs2, hj1a, hj1b, hhigh1, hstop2⟩ :=
      scanDown_spec less d a i1 p hp (by omega) (j + 1 - i1) j (le_refl _) (by omega)
    rw [hs2]
    simp only
    have hi1 := hi1b hij
    have hj1 := hj1b hi1
    have hlowA : AllOn (fun x => less x p = true) (a + 1) i1 d := by
      intro n x h1 h2 hx
      by_cases hn : n < i
      · exact hlow n x h1 hn hx
      · exact hlow1 n x (by omega) h2 hx
    have hhighA : AllOn (fun x => less x p = false) (j1 + 1) b d := by
      intro n x h1 h2 hx
      by_cases hn : j + 1 ≤ n
      · exact hhigh n x hn h2 hx
      · exact hhigh1 n x h1 (by omega) hx
    by_cases hcross : j1 < i1
    · simp only [hcross, if_true]
      have e : j1 + 1 = i1 := by omega
      refine ⟨d, j1, rfl, Frame.refl _ _ _, by omega, by omega, ?_, hhighA⟩
      rw [e]
      exact hlowA
    · simp only [hcross, if_false]
      have hi1len : i1 < d.length := by omega
      have hj1len : j1 < d.length := by omega
      obtain ⟨x1, hx1⟩ : ∃ x, d[i1]? = some x := ⟨d[i1], by simp [hi1len]⟩
      obtain ⟨y1, hy1⟩ : ∃ y, d[j1]? = some y := ⟨d[j1], by simp [hj1len]⟩
      have hx1p := hstop1 x1 (by omega) hx1
      have hy1p := hstop2 y1 (by omega) hy1
      have hne : i1 ≠ j1 := by
        intro h
        subst h
        rw [hx1] at hy1
        cases hy1
        rw [hx1p] at hy1p
        exact absurd hy1p (by simp)
      obtain ⟨d1, hsw⟩ := Swap_some d i1 j1 hi1len hj1len
      rw [hsw]
      simp only
      have hf1 := Swap_frame d d1 i1 j1 (a + 1) b hsw (by omega) (by omega)
      have hp1 : d1[a]? = some p := by
        rw [hf1.outside a (by omega), hp]
      have hlow2 : AllOn (fun x => less x p = true) (a + 1) (i1 + 1) d1 := by
        intro n x h1 h2 hx
        by_cases hn : n = i1
        · subst hn
          rw [Swap_get_left d d1 _ _ hsw, hy1] at hx
          cases hx
          exact hy1p
        · rw [Swap_get_other d d1 i1 j1 n hsw hn (by omega)] at hx
          exact hlowA n x h1 (by omega) hx
      have hhigh2 : AllOn (fun x => less x p = false) (j1 - 1 + 1) b d1 := by
        intro n x h1 h2 hx
        by_cases hn : n = j1
        · subst hn
          rw [Swap_get_right d d1 _ _ hsw, hx1] at hx
          cases hx
          exact hx1p
        · rw [Swap_get_other d d1 i1 j1 n hsw (by omega) hn] at hx
          exact hhighA n x (by omega) h2 hx
      obtain ⟨d2, j2, hloop, hf2, hj2a, hj2b, hlow3, hhigh3⟩ :=
        ih d1 (i1 + 1) (j1 - 1) hp1 (by rw [hf1.length]; exact hb) (by omega) (by omega)
          (by omega) (by omega) hlow2 hhigh2
      exact ⟨d2, j2, hloop, hf1.trans hf2, hj2a, hj2b, hlow3, hhigh3⟩

theorem partition_func_spec (less : α → α → Bool) (d : List α) (a b pivot : Nat)
    (hpa : a ≤ pivot) (hpb : pivot < b) (hb : b ≤ d.length) :
    ∃ d1 mid ap p, partition_func less d a b pivot = some (d1, mid, ap) ∧ Frame a b d d1 ∧
      a ≤ mid ∧ mid < b ∧ d[pivot]? = some p ∧ d1[mid]? = some p ∧
      AllOn (fun x => less x p = true) a mid d1 ∧
      AllOn (fun x => less x p = false) (mid + 1) b d1 := by
  unfold partition_func
  obtain ⟨d1, hsw1⟩ := Swap_some d a pivot (by omega) (by omega)
  rw [hsw1]
  simp only
  have hf1 := Swap_frame d d1 a pivot a b hsw1 (by omega) (by omega)
  have hpl : pivot < d.length := by omega
  obtain ⟨p, hp⟩ : ∃ p, d[pivot]? = some p := ⟨d[pivot], by simp [hpl]⟩
  have hp1 : d1[a]? = some p := by rw [Swap_get_left d d1 _ _ hsw1, hp]
  have hlen1 : d1.length = d.length := hf1.length
  obtain ⟨i, hs1, hi1a, hi1b, hlow1, hstop1⟩ :=
    scanUp_spec less d1 a (b - 1) p hp1 (by omega) (b - 1 + 1 - (a + 1)) (a + 1) (le_refl _)
  rw [hs1]
  simp only
  obtain ⟨j, hs2, hj1a, hj1b, hhigh1, hstop2⟩ :=
    scanDown_spec less d1 a i p hp1 (by omega) (b - 1 + 1 - i) (b - 1) (le_refl _) (by omega)
  rw [hs2]
  simp only
  have hi := hi1b (by omega)
  have hj := hj1b hi
  have e1 : b - 1 + 1 = b := by omega
  rw [e1] at hhigh1
  by_cases hcross : j < i
  · simp only [hcross, if_true]
    obtain ⟨d2, hsw2⟩ := Swap_some d1 j a (by omega) (by omega)
    rw [hsw2]
    simp only
    have hf2 := Swap_frame d1 d2 j a a b hsw2 (by omega) (by omega)
    refine ⟨d2, j, true, p, rfl, hf1.trans hf2, by omega, by omega, hp, ?_, ?_, ?_⟩
    · rw [Swap_get_left d1 d2 _ _ hsw2, hp1]
    · intro n x h1 h2 hx
      by_cases hn : n = a
      · subst hn
        rw [Swap_get_right d1 d2 _ _ hsw2] at hx
        exact hlow1 j x (by omega) (by omega) hx
      · rw [Swap_get_other d1 d2 j a n hsw2 (by omega) hn] at hx
        exact hlow1 n x (by omega) (by omega) hx
    · intro n x h1 h2 hx
      rw [Swap_get_other d1 d2 j a n hsw2 (by omega) (by omega)] at hx
      exact hhigh1 n x h1 h2 hx
  · simp only [hcross, if_false]
    have hilen : i < d1.length := by omega
    have hjlen : j < d1.length := by omega
    obtain ⟨x1, hx1⟩ : ∃ x, d1[i]? = some x := ⟨d1[i], by simp [hilen]⟩
    obtain ⟨y1, hy1⟩ : ∃ y, d1[j]? = some y := ⟨d1[j], by simp [hjlen]⟩
    have hx1p := hstop1 x1 (by omega) hx1
    have hy1p := hstop2 y1 (by omega) hy1
    have hne : i ≠ j := by
      intro h
      subst h
      rw [hx1] at hy1
      cases hy1
      rw [hx1p] at hy1p
      exact absurd hy1p (by simp)
    obtain ⟨d2, hsw2⟩ := Swap_some d1 i j hilen hjlen
    rw [hsw2]
    simp only
    have hf2 := Swap_frame d1 d2 i j (a + 1) b hsw2 (by omega) (by omega)
    have hp2 : d2[a]? = some p := by rw [hf2.outside a (by omega), hp1]
    have hlow2 : AllOn (fun x => less x p = true) (a + 1) (i + 1) d2 := by
      intro n x h1 h2 hx
      by_cases hn : n = i
      · subst hn
        rw [Swap_get_left d1 d2 _ _ hsw2, hy1] at hx
        cases hx
        exact hy1p
      · rw [Swap_get_other d1 d2 i j n hsw2 hn (by omega)] at hx
        exact hlow1 n x h1 (by omega) hx
    have hhigh2 : AllOn (fun x => less x p = false) (j - 1 + 1) b d2 := by
      intro n x h1 h2 hx
      by_cases hn : n = j
      · subst hn
        rw [Swap_get_right d1 d2 _ _ hsw2, hx1] at hx
        cases hx
        exact hx1p
      · rw [Swap_get_other d1 d2 i j n hsw2 (by omega) hn] at hx
        exact hhigh1 n x (by omega) h2 hx
    obtain ⟨d3, j1, hloop, hf3, hj1lo, hj1hi, hlow3, hhigh3⟩ :=
      partitionLoop_spec less a b p (b - a) d2 (i + 1) (j - 1) hp2
        (by rw [hf2.length, hlen1]; exact hb) (by omega) (by omega) (by omega) (by omega)
        hlow2 hhigh2
    rw [hloop]
    simp only
    have hlen3 : d3.length = d.length := by rw [hf3.length, hf2.length, hlen1]
    obtain ⟨d4, hsw4⟩ := Swap_some d3 j1 a (by omega) (by omega)
    rw [hsw4]
    simp only
    have hf4 := Swap_frame d3 d4 j1 a a b hsw4 (by omega) (by omega)
    have hp3 : d3[a]? = some p := by rw [hf3.outside a (by omega), hp2]
    refine ⟨d4, j1, false, p, rfl,
      hf1.trans (((hf2.trans hf3).mono (by omega) (le_refl _)).trans hf4), hj1lo, hj1hi, hp,
      ?_, ?_, ?_⟩
    · rw [Swap_get_left d3 d4 _ _ hsw4, hp3]
    · intro n x h1 h2 hx
      by_cases hn : n = a
      · subst hn
        rw [Swap_get_right d3 d4 _ _ hsw4] at hx
        exact hlow3 j1 x (by omega) (by omega) hx
      · rw [Swap_get_other d3 d4 j1 a n hsw4 (by omega) hn] at hx
        exact hlow3 n x (by omega) (by omega) hx
    · intro n x h1 h2 hx
      rw [Swap_get_other d3 d4 j1 a n hsw4 (by omega) (by omega)] at hx
      exact hhigh3 n x h1 h2 hx

/-! ### Partition into equal and greater elements -/

theorem scanUpEqual_spec (less : α → α → Bool) (d : List α) (a j : Nat) (p : α)
    (hp : d[a]? = some p) (hj : j < d.length) (k i : Nat) (hk : j + 1 - i ≤ k) :
    ∃ i1, scanUpEqual less d a j k i = some i1 ∧ i ≤ i1 ∧ (i ≤ j + 1 → i1 ≤ j + 1) ∧
      AllOn (fun x => less p x = false) i i1 d ∧
      (∀ x, i1 ≤ j → d[i1]? = some x → less p x = true) := by
  induction k generalizing i with
  | zero =>
    refine ⟨i, rfl, le_refl _, fun h => h, ?_, ?_⟩
    · intro n x h1 h2 _
      omega
    · intro x h1 _
      omega
  | succ k ih =>
    unfold scanUpEqual
    by_cases hij : i ≤ j
    · simp only [hij, if_true]
      obtain ⟨p1, x, hp1, hx, hless⟩ := Less_some less d a i
        (by rcases List.getElem?_eq_some.1 hp with ⟨h1, -⟩; exact h1) (by omega)
      rw [hp] at hp1
      cases hp1
      rw [hless]
      cases hc : less p x with
      | false =>
        obtain ⟨i1, h1, h2, h3, h4, h5⟩ := ih (i + 1) (by omega)
        refine ⟨i1, h1, by omega, fun _ => h3 (by omega), ?_, h5⟩
        intro n y hn1 hn2 hy
        by_cases hni : n = i
        · subst hni
          rw [hx] at hy
          cases hy
          exact hc
        · exact h4 n y (by omega) hn2 hy
      | true =>
        refine ⟨i, rfl, le_refl _, fun h => h, ?_, ?_⟩
        · intro n y h1 h2 _
          omega
        · intro y _ hy
          rw [hx] at hy
          cases hy
          exact hc
    · simp only [hij, if_false]
      refine ⟨i, rfl, le_refl _, fun h => h, ?_, ?_⟩
      · intro n x h1 h2 _
        omega
      · intro x h1 _
        omega

theorem scanDownEqual_spec (less : α → α → Bool) (d : List α) (a i : Nat) (p : α)
    (hp : d[a]? = some p) (hi : 1 ≤ i) (k j : Nat) (hk : j + 1 - i ≤ k)
    (hj : j < d.length) :
    ∃ j1, scanDownEqual less d a i k j = some j1 ∧ j1 ≤ j ∧ (i ≤ j + 1 → i ≤ j1 + 1) ∧
      AllOn (fun x => less p x = true) (j1 + 1) (j + 1) d ∧
      (∀ x, i ≤ j1 → d[j1]? = some x → less p x = false) := by
  induction k generalizing j with
  | zero =>
    refine ⟨j, rfl, le_refl _, fun h => h, ?_, ?_⟩
    · intro n x h1 h2 _
      omega
    · intro x h1 _
      omega
  | succ k ih =>
    unfold scanDownEqual
    by_cases hij : i ≤ j
    · simp only [hij, if_true]
      obtain ⟨p1, x, hp1, hx, hless⟩ := Less_some less d a j
        (by rcases List.getElem?_eq_some.1 hp with ⟨h1, -⟩; exact h1) hj
      rw [hp] at hp1
      cases hp1
      rw [hless]
      cases hc : less p x with
      | true =>
        obtain ⟨j1, h1, h2, h3, h4, h5⟩ := ih (j - 1) (by omega) (by omega)
        refine ⟨j1, h1, by omega, fun _ => h3 (by omega), ?_, h5⟩
        intro n y hn1 hn2 hy
        by_cases hnj : n = j
        · subst hnj
          rw [hx] at hy
          cases hy
          exact hc
        · exact h4 n y hn1 (by omega) hy
      | false =>
        refine ⟨j, rfl, le_refl _, fun h => h, ?_, ?_⟩
        · intro n y h1 h2 _
          omega
        · intro y _ hy
          rw [hx] at hy
          cases hy
          exact hc
    · simp only [hij, if_false]
      refine ⟨j, rfl, le_refl _, fun h => h, ?_, ?_⟩
      · intro n x h1 h2 _
        omega
      · intro x h1 _
        omega

theorem partitionEqualLoop_spec (less : α → α → Bool) (a b : Nat) (p : α) (k : Nat)
    (d : List α) (i j : Nat) (hp : d[a]? = some p) (hb : b ≤ d.length) (hi : a + 1 ≤ i)
    (hj : j + 1 ≤ b) (hij : i ≤ j + 1) (hk : j + 1 - i < k)
    (hlow : AllOn (fun x => less p x = false) (a + 1) i d)
    (hhigh : AllOn (fun x => less p x = true) (j + 1) b d) :
    ∃ d1 i1, partitionEqualLoop less a k d i j = some (d1, i1) ∧ Frame (a + 1) b d d1 ∧
      a + 1 ≤ i1 ∧ i1 ≤ b ∧ AllOn (fun x => less p x = false) (a + 1) i1 d1 ∧
      AllOn (fun x => less p x = true) i1 b d1 := by
  induction k generalizing d i j with
  | zero => omega
  | succ k ih =>
    unfold partitionEqualLoop
    obtain ⟨i1, hs1, hi1a, hi1b, hlow1, hstop1⟩ :=
      scanUpEqual_spec less d a j p hp (by omega) (j + 1 - i) i (le_refl _)
    rw [hs1]
    simp only
    obtain ⟨j1, hs2, hj1a, hj1b, hhigh1, hstop2⟩ :=
      scanDownEqual_spec less d a i1 p hp (by omega) (j + 1 - i1) j (le_refl _) (by omega)
    rw [hs2]
    simp only
    have hi1 := hi1b hij
    have hj1 := hj1b hi1
    have hlowA : AllOn (fun x => less p x = false) (a + 1) i1 d := by
      intro n x h1 h2 hx
      by_cases hn : n < i
      · exact hlow n x h1 hn hx
      · exact hlow1 n x (by omega) h2 hx
    have hhighA : AllOn (fun x => less p x = true) (j1 + 1) b d := by
      intro n x h1 h2 hx
      by_cases hn : j + 1 ≤ n
      · exact hhigh n x hn h2 hx
      · exact hhigh1 n x h1 (by omega) hx
    by_cases hcross : j1 < i1
    · simp only [hcross, if_true]
      have e : j1 + 1 = i1 := by omega
      refine ⟨d, i1, rfl, Frame.refl _ _ _, by omega, by omega, hlowA, ?_⟩
      rw [← e]
      exact hhighA
    · simp only [hcross, if_false]
      have hi1len : i1 < d.length := by omega
      have hj1len : j1 < d.length := by omega
      obtain ⟨x1, hx1⟩ : ∃ x, d[i1]? = some x := ⟨d[i1], by simp [hi1len]⟩
      obtain ⟨y1, hy1⟩ : ∃ y, d[j1]? = some y := ⟨d[j1], by simp [hj1len]⟩
      have hx1p := hstop1 x1 (by omega) hx1
      have hy1p := hstop2 y1 (by omega) hy1
      have hne : i1 ≠ j1 := by
        intro h
        subst h
        rw [hx1] at hy1
        cases hy1
        rw [hx1p] at hy1p
        exact absurd hy1p (by simp)
      obtain ⟨d1, hsw⟩ := Swap_some d i1 j1 hi1len hj1len
      rw [hsw]
      simp only
      have hf1 := Swap_frame d d1 i1 j1 (a + 1) b hsw (by omega) (by omega)
      have hp1 : d1[a]? = some p := by
        rw [hf1.outside a (by omega), hp]
      have hlow2 : AllOn (fun x => less p x = false) (a + 1) (i1 + 1) d1 := by
        intro n x h1 h2 hx
        by_cases hn : n = i1
        · subst hn
          rw [Swap_get_left d d1 _ _ hsw, hy1] at hx
          cases hx
          exact hy1p
        · rw [Swap_get_other d d1 i1 j1 n hsw hn (by omega)] at hx
          exact hlowA n x h1 (by omega) hx
      have hhigh2 : AllOn (fun x => less p x = true) (j1 - 1 + 1) b d1 := by
        intro n x h1 h2 hx
        by_cases hn : n = j1
        · subst hn
          rw [Swap_get_right d d1 _ _ hsw, hx1] at hx
          cases hx
          exact hx1p
        · rw [Swap_get_other d d1 i1 j1 n hsw (by omega) hn] at hx
          exact hhighA n x (by omega) h2 hx
      obtain ⟨d2, i2, hloop, hf2, hi2a, hi2b, hlow3, hhigh3⟩ :=
        ih d1 (i1 + 1) (j1 - 1) hp1 (by rw [hf1.length]; exact hb) (by omega) (by omega)
          (by omega) (by omega) hlow2 hhigh2
      exact ⟨d2, i2, hloop, hf1.trans hf2, hi2a, hi2b, hlow3, hhigh3⟩

theorem partitionEqual_func_spec (less : α → α → Bool) (d : List α) (a b pivot : Nat)
    (hpa : a ≤ pivot) (hpb : pivot < b) (hb : b ≤ d.length) :
    ∃ d1 mid p, partitionEqual_func less d a b pivot = some (d1, mid) ∧ Frame a b d d1 ∧
      a + 1 ≤ mid ∧ mid ≤ b ∧ d[pivot]? = some p ∧ d1[a]? = some p ∧
      AllOn (fun x => less p x = false) (a + 1) mid d1 ∧
      AllOn (fun x => less p x = true) mid b d1 := by
  unfold partitionEqual_func
  obtain ⟨d1, hsw1⟩ := Swap_some d a pivot (by omega) (by omega)
  rw [hsw1]
  simp only
  have hf1 := Swap_frame d d1 a pivot a b hsw1 (by omega) (by omega)
  have hpl : pivot < d.length := by omega
  obtain ⟨p, hp⟩ : ∃ p, d[pivot]? = some p := ⟨d[pivot], by simp [hpl]⟩
  have hp1 : d1[a]? = some p := by rw [Swap_get_left d d1 _ _ hsw1, hp]
  obtain ⟨d2, mid, hloop, hf2, hm1, hm2, hlow, hhigh⟩ :=
    partitionEqualLoop_spec less a b p (b - a + 1) d1 (a + 1) (b - 1) hp1
      (by rw [hf1.length]; exact hb) (le_refl _) (by omega) (by omega) (by omega)
      (by intro n x h1 h2 _; omega) (by intro n x h1 h2 _; omega)
  refine ⟨d2, mid, p, hloop, hf1.trans (hf2.mono (by omega) (le_refl _)), hm1, hm2, hp, ?_,
    hlow, hhigh⟩
  rw [hf2.outside a (by omega), hp1]

/-! ### Heap sort -/

theorem siftDown_func_spec (less : α → α → Bool) (first lo hi : Nat) (fuel : Nat)
    (d : List α) (root : Nat) (hfuel : hi - root < fuel) (hb : first + hi ≤ d.length)
    (hlo : lo ≤ root) :
    ∃ d1, siftDown_func less fuel d root hi first = some d1 ∧
      Frame (first + root) (first + hi) d d1 ∧
      (StrictWeakOn less d → AlmostHeap less first lo hi root d →
        ∀ n, lo ≤ n → HeapAt less first hi d1 n) := by
  induction fuel generalizing d root with
  | zero => omega
  | succ fuel ih =>
    unfold siftDown_func
    simp only
    by_cases hchild : hi ≤ 2 * root + 1
    · simp only [hchild, if_true]
      refine ⟨d, rfl, Frame.refl _ _ _, ?_⟩
      intro _ halmost n hn
      by_cases hnr : n = root
      · intro c x y hc hchi _ _
        rcases hc with rfl | rfl <;> omega
      · exact halmost.1 n hn hnr
    · simp only [hchild, if_false]
      -- the left child exists
      have hleft : first + (2 * root + 1) < d.length := by omega
      obtain ⟨xl, hxl⟩ : ∃ x, d[first + (2 * root + 1)]? = some x :=
        ⟨d[first + (2 * root + 1)], by simp [hleft]⟩
      obtain ⟨xr, hxr⟩ : ∃ x, d[first + root]? = some x :=
        ⟨d[first + root], by simp [show first + root < d.length by omega]⟩
      -- the choice of the greater child
      have hchoice : ∃ right, (if 2 * root + 1 + 1 < hi then
            Less less d (first + (2 * root + 1)) (first + (2 * root + 1) + 1)
          else some false) = some right ∧
          (right = true → 2 * root + 1 + 1 < hi) ∧
          (∀ c y z, (c = 2 * root + 1 ∨ c = 2 * root + 2) → c < hi →
            d[first + (if right = true then 2 * root + 1 + 1 else 2 * root + 1)]? = some y →
            d[first + c]? = some z → StrictWeakOn less d → less y z = false) := by
        by_cases hr : 2 * root + 1 + 1 < hi
        · rw [if_pos hr]
          obtain ⟨u, v, hu, hv, hless⟩ := Less_some less d (first + (2 * root + 1))
            (first + (2 * root + 1) + 1) (by omega) (by omega)
          refine ⟨less u v, hless, fun _ => hr, ?_⟩
          intro c y z hc hchi hy hz hswo
          cases hcmp : less u v with
          | true =>
            simp only [hcmp, if_true] at hy
            have e : first + (2 * root + 1 + 1) = first + (2 * root + 1) + 1 := by omega
            rw [e, hv] at hy
            cases hy
            rcases hc with rfl | rfl
            · rw [hu] at hz
              cases hz
              exact hswo.asymm hu hv hcmp
            · have e2 : first + (2 * root + 2) = first + (2 * root + 1) + 1 := by omega
              rw [e2, hv] at hz
              cases hz
              exact hswo.1 _ (List.getElem?_mem hv)
          | false =>
            simp only [hcmp] at hy
            rw [if_neg (by simp), hu] at hy
            cases hy
            rcases hc with rfl | rfl
            · rw [hu] at hz
              cases hz
              exact hswo.1 _ (List.getElem?_mem hu)
            · have e2 : first + (2 * root + 2) = first + (2 * root + 1) + 1 := by omega
              rw [e2, hv] at hz
              cases hz
              -- less u v = false means v is not greater than u: need less u v = false
              exact hcmp
        · rw [if_neg hr]
          refine ⟨false, rfl, fun h => absurd h (by simp), ?_⟩
          intro c y z hc hchi hy hz hswo
          rw [if_neg (by simp)] at hy
          have hc1 : c = 2 * root + 1 := by omega
          subst hc1
          rw [hy] at hz
          cases hz
          exact hswo.1 _ (List.getElem?_mem hy)
      obtain ⟨right, hright, hrlt, hbest⟩ := hchoice
      rw [hright]
      simp only
      have hc1lt : (if right = true then 2 * root + 1 + 1 else 2 * root + 1) < hi := by
        cases right with
        | true => simpa using hrlt rfl
        | false =>
          simp only [Bool.false_eq_true, if_false]
          omega
      have hc1gt : 2 * root + 1 ≤ (if right = true then 2 * root + 1 + 1 else 2 * root + 1) := by
        split_ifs <;> omega
      have hc1le : (if right = true then 2 * root + 1 + 1 else 2 * root + 1) ≤ 2 * root + 2 := by
        split_ifs <;> omega
      generalize hc1 : (if right = true then 2 * root + 1 + 1 else 2 * root + 1) = child1 at *
      obtain ⟨u, v, hu, hv, hless⟩ := Less_some less d (first + root) (first + child1)
        (by omega) (by omega)
      rw [hxr] at hu
      cases hu
      rw [hless]
      cases hcmp : less xr v with
      | false =>
        simp only
        refine ⟨d, rfl, Frame.refl _ _ _, ?_⟩
        intro hswo halmost n hn
        by_cases hnr : n = root
        · subst hnr
          intro c x y hc hchi hx hy
          rw [hxr] at hx
          cases hx
          have h1 := hbest c v y hc hchi hv hy hswo
          exact hswo.le_trans hy hv hxr h1 hcmp
        · exact halmost.1 n hn hnr
      | true =>
        simp only
        obtain ⟨d1, hsw⟩ := Swap_some d (first + root) (first + child1) (by omega) (by omega)
        rw [hsw]
        simp only
        have hf1 := Swap_frame d d1 (first + root) (first + child1) (first + root) (first + hi)
          hsw (by omega) (by omega)
        obtain ⟨d2, hd2, hf2, hheap⟩ := ih d1 child1 (by omega) (by rw [hf1.length]; exact hb)
          (by omega)
        refine ⟨d2, hd2, hf1.trans (hf2.mono (by omega) (le_refl _)), ?_⟩
        intro hswo halmost
        apply hheap (hswo.ofFrame hf1)
        have hroot1 : d1[first + root]? = some v := by
          rw [Swap_get_left d d1 _ _ hsw, hv]
        have hchild1 : d1[first + child1]? = some xr := by
          rw [Swap_get_right d d1 _ _ hsw, hxr]
        have hother : ∀ m, m ≠ root → m ≠ child1 → d1[first + m]? = d[first + m]? := by
          intro m h1 h2
          exact Swap_get_other d d1 _ _ _ hsw (by omega) (by omega)
        constructor
        · intro n hn hnc c x y hc hchi hx hy
          by_cases hnr : n = root
          · subst hnr
            rw [hroot1] at hx
            cases hx
            by_cases hcc : c = child1
            · subst hcc
              rw [hchild1] at hy
              cases hy
              exact hswo.asymm hxr hv hcmp
            · rw [hother c (by omega) hcc] at hy
              exact hbest c v y hc hchi hv hy hswo
          · rw [hother n hnr hnc] at hx
            by_cases hcr : c = root
            · subst hcr
              rw [hroot1] at hy
              cases hy
              exact halmost.2 n hn (by omega) child1 x v (by omega) hc1lt hx hv
            · have hcc : c ≠ child1 := by omega
              rw [hother c hcr hcc] at hy
              exact halmost.1 n hn hnr c x y hc hchi hx hy
        · intro q hq hqc c x y hc hchi hx hy
          have hqr : q = root := by omega
          subst hqr
          rw [hroot1] at hx
          cases hx
          rw [hother c (by omega) (by omega)] at hy
          exact halmost.1 child1 (by omega) (by omega) c v y hc hchi hv hy

theorem heapBuildLoop_spec (less : α → α → Bool) (hi first : Nat) (count : Nat) (d : List α)
    (hb : first + hi ≤ d.length) :
    ∃ d1, heapBuildLoop less hi first count d = some d1 ∧ Frame first (first + hi) d d1 ∧
      (StrictWeakOn less d → (∀ n, count ≤ n → HeapAt less first hi d n) →
        ∀ n, HeapAt less first hi d1 n) := by
  induction count generalizing d with
  | zero => exact ⟨d, rfl, Frame.refl _ _ _, fun _ h n => h n (Nat.zero_le _)⟩
  | succ i ih =>
    unfold heapBuildLoop
    obtain ⟨d1, h1, hf1, hheap1⟩ :=
      siftDown_func_spec less first i hi (hi + 1) d i (by omega) hb (le_refl _)
    rw [h1]
    simp only
    obtain ⟨d2, h2, hf2, hheap2⟩ := ih d1 (by rw [hf1.length]; exact hb)
    refine ⟨d2, h2, (hf1.mono (by omega) (le_refl _)).trans hf2, ?_⟩
    intro hswo hheap
    apply hheap2 (hswo.ofFrame hf1)
    apply hheap1 hswo
    constructor
    · intro n hn hni
      exact hheap n (by omega)
    · intro q hq hqi
      omega

/-- The root of a heap is not less than any of its elements. -/
theorem heap_root_max (less : α → α → Bool) (first hi : Nat) (d : List α)
    (hswo : StrictWeakOn less d) (hb : first + hi ≤ d.length)
    (hheap : ∀ n, HeapAt less first hi d n) (r : α) (hr : d[first]? = some r) :
    ∀ n x, n < hi → d[first + n]? = some x → less r x = false := by
  intro n
  induction n using Nat.strong_induction_on with
  | _ n ih =>
    intro x hn hx
    by_cases h0 : n = 0
    · subst h0
      rw [Nat.add_zero, hr] at hx
      cases hx
      exact hswo.1 _ (List.getElem?_mem hr)
    · have hq : first + (n - 1) / 2 < d.length := by omega
      obtain ⟨y, hy⟩ : ∃ y, d[first + (n - 1) / 2]? = some y :=
        ⟨d[first + (n - 1) / 2], by simp [hq]⟩
      have h1 := ih ((n - 1) / 2) (by omega) y (by omega) hy
      have h2 := hheap ((n - 1) / 2) n y x (by omega) hn hy hx
      exact hswo.le_trans hx hy hr h2 h1

theorem heapPopLoop_spec (less : α → α → Bool) (first hi : Nat) (count : Nat) (d : List α)
    (hc : count ≤ hi) (hb : first + hi ≤ d.length) :
    ∃ d1, heapPopLoop less first count d = some d1 ∧ Frame first (first + count) d d1 ∧
      (StrictWeakOn less d → (∀ n, HeapAt less first count d n) →
        SortedOn less (first + count) (first + hi) d →
        (∀ l y, first + count ≤ l → l < first + hi → d[l]? = some y →
          AllOn (fun x => less y x = false) first (first + count) d) →
        SortedOn less first (first + hi) d1) := by
  induction count generalizing d with
  | zero =>
    refine ⟨d, rfl, Frame.refl _ _ _, ?_⟩
    intro _ _ hs _
    simpa using hs
  | succ i ih =>
    unfold heapPopLoop
    obtain ⟨d1, hsw⟩ := Swap_some d first (first + i) (by omega) (by omega)
    rw [hsw]
    simp only
    have hf1 := Swap_frame d d1 first (first + i) first (first + (i + 1)) hsw (by omega)
      (by omega)
    obtain ⟨d2, h2, hf2, hheap2⟩ :=
      siftDown_func_spec less first 0 i (i + 1) d1 0 (by omega)
        (by rw [hf1.length]; omega) (le_refl _)
    rw [h2]
    simp only
    rw [Nat.add_zero] at hf2
    obtain ⟨d3, h3, hf3, hsorted3⟩ := ih d2 (by omega)
      (by rw [hf2.length, hf1.length]; exact hb)
    refine ⟨d3, h3,
      hf1.trans ((hf2.mono (le_refl _) (by omega)).trans (hf3.mono (le_refl _) (by omega))), ?_⟩
    intro hswo hheap hs hsep
    have hswo1 := hswo.ofFrame hf1
    have hswo2 := hswo1.ofFrame hf2
    obtain ⟨r, hr⟩ : ∃ r, d[first]? = some r :=
      ⟨d[first], by simp [show first < d.length by omega]⟩
    obtain ⟨z, hz⟩ : ∃ z, d[first + i]? = some z :=
      ⟨d[first + i], by simp [show first + i < d.length by omega]⟩
    have hmax := heap_root_max less first (i + 1) d hswo (by omega) hheap r hr
    have hd1i : d1[first + i]? = some r := by rw [Swap_get_right d d1 _ _ hsw, hr]
    have hd1f : d1[first]? = some z := by rw [Swap_get_left d d1 _ _ hsw, hz]
    have hother : ∀ m, m ≠ first → m ≠ first + i → d1[m]? = d[m]? :=
      fun m h1 h2 => Swap_get_other d d1 _ _ m hsw h1 h2
    -- every element of the prefix of `d1` is not greater than `r`
    have hle_r : AllOn (fun x => less r x = false) first (first + i) d1 := by
      intro k x hk1 hk2 hx
      by_cases hkf : k = first
      · rw [hkf, hd1f] at hx
        cases hx
        exact hmax i _ (by omega) hz
      · rw [hother k hkf (by omega)] at hx
        have e : first + (k - first) = k := by omega
        exact hmax (k - first) x (by omega) (by rw [e]; exact hx)
    apply hsorted3 hswo2
    · -- the heap property below `i`
      intro n
      apply hheap2 hswo1 _ n (Nat.zero_le _)
      constructor
      · intro n _ hn0 c x y hcn hci hx hy
        rw [hother (first + n) (by omega) (by omega)] at hx
        rw [hother (first + c) (by omega) (by omega)] at hy
        exact hheap n c x y hcn (by omega) hx hy
      · intro q _ hq
        omega
    · -- the sorted suffix, one element longer
      have hs1 : SortedOn less (first + i) (first + hi) d1 := by
        intro k l x y hk hkl hl hx hy
        rw [hother l (by omega) (by omega)] at hy
        by_cases hki : k = first + i
        · rw [hki, hd1i] at hx
          cases hx
          exact hsep l y (by omega) hl hy first _ (le_refl _) (by omega) hr
        · rw [hother k (by omega) hki] at hx
          exact hs k l x y (by omega) hkl hl hx hy
      exact hs1.frame_outside hf2 (Or.inr (le_refl _))
    · -- the prefix stays below the suffix
      intro l y hl1 hl2 hy
      rw [hf2.outside l (by omega)] at hy
      have hall1 : AllOn (fun x => less y x = false) first (first + i) d1 := by
        by_cases hli : l = first + i
        · rw [hli, hd1i] at hy
          cases hy
          exact hle_r
        · rw [hother l (by omega) hli] at hy
          intro k x hk1 hk2 hx
          by_cases hkf : k = first
          · rw [hkf, hd1f] at hx
            cases hx
            exact hsep l y (by omega) hl2 hy (first + i) _ (by omega) (by omega) hz
          · rw [hother k hkf (by omega)] at hx
            exact hsep l y (by omega) hl2 hy k x hk1 (by omega) hx
      exact hall1.frame hf2 (le_refl _) (le_refl _)

theorem heapSort_func_spec (less : α → α → Bool) (d : List α) (a b : Nat) (hab : a ≤ b)
    (hb : b ≤ d.length) :
    ∃ d1, heapSort_func less d a b = some d1 ∧ Frame a b d d1 ∧
      (StrictWeakOn less d → SortedOn less a b d1) := by
  unfold heapSort_func
  simp only
  obtain ⟨d1, h1, hf1, hheap1⟩ :=
    heapBuildLoop_spec less (b - a) a ((b - a - 1) / 2 + 1) d (by omega)
  rw [h1]
  simp only
  obtain ⟨d2, h2, hf2, hsorted2⟩ :=
    heapPopLoop_spec less a (b - a) (b - a) d1 (le_refl _) (by rw [hf1.length]; omega)
  have e : a + (b - a) = b := by omega
  rw [e] at hf1 hf2 hsorted2
  refine ⟨d2, h2, hf1.trans hf2, ?_⟩
  intro hswo
  apply hsorted2 (hswo.ofFrame hf1)
  · apply hheap1 hswo
    intro n hn c x y hc hchi _ _
    omega
  · exact SortedOn.of_small less b b d1 (by omega)
  · intro l y h1 h2 _
    omega

theorem breakPatternsLoop_spec (a length modulus : Nat)
    (hmod : modulus ≤ 2 * length) (hmod0 : 0 < modulus) :
    ∀ (k random pos : Nat) (d : List α), a ≤ pos → pos + k ≤ a + length →
      a + length ≤ d.length →
      ∃ d1, breakPatternsLoop a length modulus k random pos d = some d1 ∧
        Frame a (a + length) d d1 := by
  intro k
  induction k with
  | zero =>
    intro random pos d _ _ _
    exact ⟨d, rfl, Frame.refl _ _ _⟩
  | succ k ih =>
    intro random pos d hpos hk hb
    unfold breakPatternsLoop
    simp only
    have hand : xorshiftNext random &&& (modulus - 1) ≤ modulus - 1 := Nat.and_le_right
    have hother : (if length ≤ xorshiftNext random &&& (modulus - 1)
        then (xorshiftNext random &&& (modulus - 1)) - length
        else xorshiftNext random &&& (modulus - 1)) < length := by
      split <;> omega
    obtain ⟨d1, hsw⟩ := Swap_some d pos (a + (if length ≤ xorshiftNext random &&& (modulus - 1)
        then (xorshiftNext random &&& (modulus - 1)) - length
        else xorshiftNext random &&& (modulus - 1))) (by omega) (by omega)
    rw [hsw]
    simp only
    have hf1 := Swap_frame d d1 _ _ a (a + length) hsw (by omega) (by omega)
    obtain ⟨d2, h2, hf2⟩ := ih (xorshiftNext random) (pos + 1) d1 (by omega) (by omega)
      (by rw [hf1.length]; exact hb)
    exact ⟨d2, h2, hf1.trans hf2⟩

theorem breakPatterns_func_spec (d : List α) (a b : Nat) (hab : a ≤ b) (hb : b ≤ d.length) :
    ∃ d1, breakPatterns_func d a b = some d1 ∧ Frame a b d d1 := by
  unfold breakPatterns_func
  simp only
  split
  · rename_i h8
    have hpow : 2 ^ Nat.log2 (b - a) ≤ b - a := Nat.log2_self_le (by omega)
    have hmod : 1 <<< bitsLen (b - a) ≤ 2 * (b - a) := by
      unfold bitsLen
      rw [if_neg (by omega), Nat.one_shiftLeft, Nat.pow_succ]
      omega
    have hmod0 : 0 < 1 <<< bitsLen (b - a) := by
      rw [Nat.one_shiftLeft]
      exact Nat.pos_pow_of_pos _ (by omega)
    have hdiv : (b - a) / 4 * 2 ≤ (b - a) / 2 + 0 := by omega
    have hdiv2 : 4 ≤ (b - a) / 4 * 2 := by omega
    obtain ⟨d1, h1, hf1⟩ := breakPatternsLoop_spec a (b - a) (1 <<< bitsLen (b - a))
      hmod hmod0 3 (b - a) (a + (b - a) / 4 * 2 - 1) d (by omega) (by omega)
      (by omega)
    have e : a + (b - a) = b := by omega
    rw [e] at hf1
    exact ⟨d1, h1, hf1⟩
  · exact ⟨d, rfl, Frame.refl _ _ _⟩

theorem AllOn.offFrame {P : α → Prop} {a b a1 b1 : Nat} {d d1 : List α}
    (h : AllOn P a b d) (hf : Frame a1 b1 d d1) (hdisj : b ≤ a1 ∨ b1 ≤ a) :
    AllOn P a b d1 := by
  intro k x hk1 hk2 hx
  rw [hf.outside k (by omega)] at hx
  exact h k x hk1 hk2 hx

theorem AllOn.sub {P : α → Prop} {a b a1 b1 : Nat} {d : List α} (h : AllOn P a b d)
    (ha : a ≤ a1) (hb : b1 ≤ b) : AllOn P a1 b1 d :=
  fun k x hk1 hk2 hx => h k x (by omega) (by omega) hx

theorem LeftOk.inFrame {less : α → α → Bool} {a b : Nat} {d d1 : List α}
    (h : LeftOk less a b d) (hf : Frame a b d d1) : LeftOk less a b d1 := by
  intro l p hl hp
  rw [hf.outside l (by omega)] at hp
  exact (h l p hl hp).frame hf (le_refl _) (le_refl _)

theorem LeftOk.shrink {less : α → α → Bool} {a b b1 : Nat} {d : List α}
    (h : LeftOk less a b d) (hb : b1 ≤ b) : LeftOk less a b1 d :=
  fun l p hl hp => (h l p hl hp).sub (le_refl _) hb

theorem LeftOk.beforeFrame {less : α → α → Bool} {a b a1 b1 : Nat} {d d1 : List α}
    (h : LeftOk less a b d) (hf : Frame a1 b1 d d1) (hdisj : b ≤ a1) (hab : a ≤ b) :
    LeftOk less a b d1 := by
  intro l p hl hp
  rw [hf.outside l (by omega)] at hp
  exact (h l p hl hp).offFrame hf (Or.inl hdisj)

/-- Two sorted ranges that follow each other, no element of the second less than an
element of the first, make one sorted range. -/
theorem SortedOn.append {less : α → α → Bool} {a m b : Nat} {d : List α}
    (h1 : SortedOn less a m d) (h2 : SortedOn less m b d)
    (hcross : ∀ i j x y, a ≤ i → i < m → m ≤ j → j < b → d[i]? = some x → d[j]? = some y →
      less y x = false) : SortedOn less a b d := by
  intro i j x y hi hij hj hx hy
  by_cases hjm : j < m
  · exact h1 i j x y hi hij hjm hx hy
  · by_cases him : i < m
    · exact hcross i j x y hi him (by omega) hj hx hy
    · exact h2 i j x y (by omega) hij hj hx hy

theorem scanOrdered_spec (less : α → α → Bool) (d : List α) (a b : Nat)
    (hb : b ≤ d.length) :
    ∀ (k i : Nat), a + 1 ≤ i → i ≤ b → b - i ≤ k →
      ∃ i1, scanOrdered less d b k i = some i1 ∧ i ≤ i1 ∧ i1 ≤ b ∧
        (StrictWeakOn less d → SortedOn less a i d → SortedOn less a i1 d) := by
  intro k
  induction k with
  | zero =>
    intro i _ hib _
    exact ⟨i, rfl, le_refl _, hib, fun _ h => h⟩
  | succ k ih =>
    intro i hai hib hk
    unfold scanOrdered
    by_cases hlt : i < b
    · rw [if_pos hlt]
      obtain ⟨x, y, hx, hy, hless⟩ := Less_some less d i (i - 1) (by omega) (by omega)
      rw [hless]
      cases hc : less x y with
      | true => exact ⟨i, rfl, le_refl _, hib, fun _ h => h⟩
      | false =>
        simp only
        obtain ⟨i1, h1, hi1, hi1b, hs1⟩ := ih (i + 1) (by omega) (by omega) (by omega)
        refine ⟨i1, h1, by omega, hi1b, ?_⟩
        intro hswo hs
        apply hs1 hswo
        apply SortedOn.snoc hs x hx
        intro m z hm1 hm2 hz
        by_cases hmi : m = i - 1
        · rw [hmi, hy] at hz
          cases hz
          exact hc
        · exact hswo.le_trans hz hy hx (hs m (i - 1) z y hm1 (by omega) (by omega) hz hy) hc
    · rw [if_neg hlt]
      exact ⟨i, rfl, le_refl _, hib, fun _ h => h⟩

theorem shiftLeft_eq_insertionInner_zero (less : α → α → Bool) (j : Nat) (d : List α) :
    shiftLeft less j d = insertionInner less 0 j d := by
  induction j generalizing d with
  | zero => rfl
  | succ j ih =>
    unfold shiftLeft insertionInner
    rw [if_pos (Nat.succ_pos j)]
    cases hl : Less less d (j + 1) j with
    | none => rfl
    | some c =>
      cases c with
      | false => rfl
      | true =>
        simp only
        cases hs : Swap d (j + 1) j with
        | none => rfl
        | some d1 => exact ih d1

/-- When the element to insert is not less than the one just before position `a`, the
shift of `partialInsertionSort_func` stops at `a`, like the loop of `insertionSort_func`. -/
theorem shiftLeft_eq_insertionInner (less : α → α → Bool) (a : Nat) (j : Nat) (d : List α)
    (haj : a ≤ j) (hj : j < d.length)
    (hleft : ∀ l x p, a = l + 1 → d[j]? = some x → d[l]? = some p → less x p = false) :
    shiftLeft less j d = insertionInner less a j d := by
  induction j generalizing d with
  | zero => rfl
  | succ j ih =>
    unfold shiftLeft insertionInner
    obtain ⟨x, y, hx, hy, hless⟩ := Less_some less d (j + 1) j hj (by omega)
    rw [hless]
    by_cases ha : a < j + 1
    · rw [if_pos ha]
      cases hc : less x y with
      | false => rfl
      | true =>
        simp only
        obtain ⟨d1, hsw⟩ := Swap_some d (j + 1) j hj (by omega)
        rw [hsw]
        simp only
        apply ih d1 (by omega) (by rw [Swap_length d d1 _ _ hsw]; omega)
        intro l x1 p hl hx1 hp
        rw [Swap_get_right d d1 _ _ hsw, hx] at hx1
        cases hx1
        rw [Swap_get_other d d1 _ _ l hsw (by omega) (by omega)] at hp
        exact hleft l _ p hl hx hp
    · rw [if_neg ha]
      have hc : less x y = false := hleft j x y (by omega) hx hy
      rw [hc]

theorem shiftRight_spec (less : α → α → Bool) (k : Nat) (j : Nat) (d : List α)
    (hj : 1 ≤ j) (hk : j + k ≤ d.length) :
    ∃ d1, shiftRight less k j d = some d1 ∧ Frame (j - 1) (j + k) d d1 := by
  induction k generalizing j d with
  | zero => exact ⟨d, rfl, Frame.refl _ _ _⟩
  | succ k ih =>
    unfold shiftRight
    obtain ⟨x, y, hx, hy, hless⟩ := Less_some less d j (j - 1) (by omega) (by omega)
    rw [hless]
    cases hc : less x y with
    | false => exact ⟨d, rfl, Frame.refl _ _ _⟩
    | true =>
      simp only
      obtain ⟨d1, hsw⟩ := Swap_some d j (j - 1) (by omega) (by omega)
      rw [hsw]
      simp only
      have hf1 := Swap_frame d d1 j (j - 1) (j - 1) (j + (k + 1)) hsw (by omega) (by omega)
      obtain ⟨d2, h2, hf2⟩ := ih (j + 1) d1 (by omega) (by rw [hf1.length]; omega)
      exact ⟨d2, h2, hf1.trans (hf2.mono (by omega) (by omega))⟩

theorem partialInsertionLoop_spec (less : α → α → Bool) (a b : Nat) :
    ∀ (steps i : Nat) (d : List α), a + 1 ≤ i → i ≤ b → b ≤ d.length →
      ∃ d1 flag, partialInsertionLoop less a b steps i d = some (d1, flag) ∧
        Frame 0 b d d1 ∧
        (StrictWeakOn less d → LeftOk less a b d → SortedOn less a i d →
          Frame a b d d1 ∧ (flag = true → SortedOn less a b d1)) := by
  intro steps
  induction steps with
  | zero =>
    intro i d _ _ _
    exact ⟨d, false, rfl, Frame.refl _ _ _, fun _ _ _ => ⟨Frame.refl _ _ _, by simp⟩⟩
  | succ steps ih =>
    intro i d hai hib hb
    unfold partialInsertionLoop
    obtain ⟨i1, hscan, hi1, hi1b, hs1⟩ :=
      scanOrdered_spec less d a b hb (b - i) i hai hib (le_refl _)
    rw [hscan]
    simp only
    by_cases hend : i1 = b
    · rw [if_pos hend]
      refine ⟨d, true, rfl, Frame.refl _ _ _, fun hswo _ hs => ⟨Frame.refl _ _ _, ?_⟩⟩
      intro _
      rw [← hend]
      exact hs1 hswo hs
    · rw [if_neg hend]
      by_cases hshort : b - a < 50
      · rw [if_pos hshort]
        exact ⟨d, false, rfl, Frame.refl _ _ _, fun _ _ _ => ⟨Frame.refl _ _ _, by simp⟩⟩
      · rw [if_neg hshort]
        obtain ⟨d1, hsw⟩ := Swap_some d i1 (i1 - 1) (by omega) (by omega)
        rw [hsw]
        simp only
        have hf1 : Frame a b d d1 := Swap_frame d d1 _ _ a b hsw (by omega) (by omega)
        have hlen1 : d1.length = d.length := hf1.length
        -- the shift to the left
        obtain ⟨d2, h2, hf2w, hf2s⟩ : ∃ d2,
            (if 2 ≤ i1 - a then shiftLeft less (i1 - 1) d1 else some d1) = some d2 ∧
            Frame 0 i1 d1 d2 ∧
            (StrictWeakOn less d1 → LeftOk less a b d1 → SortedOn less a (i1 - 1) d1 →
              Frame a i1 d1 d2 ∧ SortedOn less a i1 d2) := by
          by_cases h2 : 2 ≤ i1 - a
          · rw [if_pos h2]
            obtain ⟨d2, hd2, hfr, _⟩ := insertionInner_spec less 0 (i1 - 1) d1 (by omega)
            have e : i1 - 1 + 1 = i1 := by omega
            rw [e] at hfr
            refine ⟨d2, by rw [shiftLeft_eq_insertionInner_zero]; exact hd2, hfr, ?_⟩
            intro hswo1 hleft1 hsorted1
            obtain ⟨x, hx⟩ : ∃ x, d1[i1 - 1]? = some x :=
              ⟨d1[i1 - 1], by simp [show i1 - 1 < d1.length by omega]⟩
            have heq := shiftLeft_eq_insertionInner less a (i1 - 1) d1 (by omega) (by omega)
              (fun l x1 p hl hx1 hp => hleft1 l p hl hp (i1 - 1) x1 (by omega) (by omega) hx1)
            obtain ⟨d2s, hd2s, hfrs, hss⟩ := insertionInner_spec less a (i1 - 1) d1 (by omega)
            rw [e] at hfrs hss
            have hsame : d2s = d2 := by
              rw [shiftLeft_eq_insertionInner_zero, hd2, hd2s] at heq
              exact (Option.some.inj heq).symm
            rw [hsame] at hfrs hss
            exact ⟨hfrs, hss hswo1 hsorted1⟩
          · rw [if_neg h2]
            exact ⟨d1, rfl, Frame.refl _ _ _,
              fun _ _ _ => ⟨Frame.refl _ _ _, SortedOn.of_small less a i1 d1 (by omega)⟩⟩
        rw [h2]
        simp only
        have hlen2 : d2.length = d1.length := hf2w.length
        -- the shift to the right
        obtain ⟨d3, h3, hf3⟩ : ∃ d3,
            (if 2 ≤ b - i1 then shiftRight less (b - (i1 + 1)) (i1 + 1) d2 else some d2)
              = some d3 ∧ Frame i1 b d2 d3 := by
          by_cases h3 : 2 ≤ b - i1
          · rw [if_pos h3]
            obtain ⟨d3, hd3, hfr⟩ :=
              shiftRight_spec less (b - (i1 + 1)) (i1 + 1) d2 (by omega) (by omega)
            have e1 : i1 + 1 - 1 = i1 := by omega
            have e2 : i1 + 1 + (b - (i1 + 1)) = b := by omega
            rw [e1, e2] at hfr
            exact ⟨d3, hd3, hfr⟩
          · rw [if_neg h3]
            exact ⟨d2, rfl, Frame.refl _ _ _⟩
        rw [h3]
        simp only
        obtain ⟨d4, flag, h4, hf4w, hf4s⟩ := ih i1 d3 (by omega) hi1b
          (by rw [hf3.length]; omega)
        refine ⟨d4, flag, h4, ?_, ?_⟩
        · exact (((hf1.mono (Nat.zero_le _) (le_refl _)).trans
            (hf2w.mono (le_refl _) hi1b)).trans (hf3.mono (Nat.zero_le _) (le_refl _))).trans
            hf4w
        · intro hswo hleft hs
          have hswo1 := hswo.ofFrame hf1
          have hleft1 := hleft.inFrame hf1
          have hsorted1 : SortedOn less a (i1 - 1) d1 := by
            intro m n x y hm hmn hn hx hy
            rw [Swap_get_other d d1 _ _ m hsw (by omega) (by omega)] at hx
            rw [Swap_get_other d d1 _ _ n hsw (by omega) (by omega)] at hy
            exact hs1 hswo hs m n x y hm hmn (by omega) hx hy
          obtain ⟨hf2, hsorted2⟩ := hf2s hswo1 hleft1 hsorted1
          have hf12 : Frame a b d d2 := hf1.trans (hf2.mono (le_refl _) hi1b)
          have hf13 : Frame a b d d3 := hf12.trans (hf3.mono (by omega) (le_refl _))
          have hsorted3 : SortedOn less a i1 d3 :=
            hsorted2.frame_outside hf3 (Or.inl (le_refl _))
          obtain ⟨hf4, hflag⟩ := hf4s (hswo.ofFrame hf13) (hleft.inFrame hf13) hsorted3
          exact ⟨hf13.trans hf4, hflag⟩

theorem partialInsertionSort_func_spec (less : α → α → Bool) (d : List α) (a b : Nat)
    (hab : a + 1 ≤ b) (hb : b ≤ d.length) :
    ∃ d1 flag, partialInsertionSort_func less d a b = some (d1, flag) ∧ Frame 0 b d d1 ∧
      (StrictWeakOn less d → LeftOk less a b d →
        Frame a b d d1 ∧ (flag = true → SortedOn less a b d1)) := by
  unfold partialInsertionSort_func
  obtain ⟨d1, flag, h1, hfw, hfs⟩ := partialInsertionLoop_spec less a b 5 (a + 1) d
    (le_refl _) hab hb
  exact ⟨d1, flag, h1, hfw,
    fun hswo hleft => hfs hswo hleft (SortedOn.of_small less a (a + 1) d (le_refl _))⟩

theorem breakStep_spec (d : List α) (a b limit : Nat) (wb : Bool) (hab : a ≤ b)
    (hb : b ≤ d.length) :
    ∃ d0 limit1, breakStep d a b limit wb = some (d0, limit1) ∧ Frame a b d d0 := by
  unfold breakStep
  cases wb with
  | true => exact ⟨d, limit, rfl, Frame.refl _ _ _⟩
  | false =>
    obtain ⟨d0, h0, hf0⟩ := breakPatterns_func_spec d a b hab hb
    rw [h0]
    exact ⟨d0, limit - 1, rfl, hf0⟩

theorem pivotStep_spec (less : α → α → Bool) (d : List α) (a b : Nat) (hl : 8 ≤ b - a)
    (hb : b ≤ d.length) :
    ∃ d1 pivot hint, pivotStep less d a b = some (d1, pivot, hint) ∧ Frame a b d d1 ∧
      a ≤ pivot ∧ pivot < b := by
  unfold pivotStep
  obtain ⟨p0, hint0, hc, hp1, hp2⟩ := choosePivot_func_spec less d a b hl hb
  rw [hc]
  simp only
  by_cases hh : hint0 = SortedHint.decreasingHint
  · rw [if_pos hh]
    obtain ⟨d1, h1, hf1⟩ := reverseRange_func_spec d a b (by omega) hb
    rw [h1]
    exact ⟨d1, _, _, rfl, hf1, by omega, by omega⟩
  · rw [if_neg hh]
    exact ⟨d, _, _, rfl, Frame.refl _ _ _, hp1, hp2⟩

theorem attemptStep_spec (less : α → α → Bool) (d : List α) (a b : Nat) (wb wp : Bool)
    (hint : SortedHint) (hab : a + 1 ≤ b) (hb : b ≤ d.length) :
    ∃ d1 flag, attemptStep less d a b wb wp hint = some (d1, flag) ∧ Frame 0 b d d1 ∧
      (StrictWeakOn less d → LeftOk less a b d →
        Frame a b d d1 ∧ (flag = true → SortedOn less a b d1)) := by
  unfold attemptStep
  split
  · exact partialInsertionSort_func_spec less d a b hab hb
  · exact ⟨d, false, rfl, Frame.refl _ _ _, fun _ _ => ⟨Frame.refl _ _ _, by simp⟩⟩

theorem leftLess_spec (less : α → α → Bool) (d : List α) (a pivot : Nat)
    (ha : a ≤ d.length) (hp : pivot < d.length) :
    ∃ c, leftLess less d a pivot = some c ∧
      (c = false → ∃ l q p, a = l + 1 ∧ d[l]? = some q ∧ d[pivot]? = some p ∧
        less q p = false) := by
  unfold leftLess
  by_cases h0 : 0 < a
  · rw [if_pos h0]
    obtain ⟨q, p, hq, hp1, hless⟩ := Less_some less d (a - 1) pivot (by omega) hp
    rw [hless]
    exact ⟨less q p, rfl, fun hc => ⟨a - 1, q, p, by omega, hq, hp1, hc⟩⟩
  · rw [if_neg h0]
    exact ⟨true, rfl, by simp⟩

/-- A range partitioned around the element at `mid`, both sides sorted, is sorted. -/
theorem sorted_of_partition (less : α → α → Bool) (d : List α) (a mid b : Nat) (p : α)
    (hswo : StrictWeakOn less d) (hp : d[mid]? = some p)
    (hlow : AllOn (fun x => less x p = true) a mid d)
    (hhigh : AllOn (fun x => less x p = false) (mid + 1) b d)
    (h1 : SortedOn less a mid d) (h2 : SortedOn less (mid + 1) b d) :
    SortedOn less a b d := by
  have hle : AllOn (fun x => less p x = false) a (mid + 1) d := by
    intro k x hk1 hk2 hx
    by_cases hkm : k = mid
    · rw [hkm, hp] at hx
      cases hx
      exact hswo.1 _ (List.getElem?_mem hp)
    · exact hswo.asymm hx hp (hlow k x hk1 (by omega) hx)
  have hs : SortedOn less a (mid + 1) d :=
    h1.snoc p hp (hle.sub (le_refl _) (by omega))
  apply hs.append h2
  intro i j x y hi1 hi2 hj1 hj2 hx hy
  exact hswo.le_trans hx hp hy (hle i x hi1 hi2 hx) (hhigh j y hj1 hj2 hy)

/-- After `partitionEqual_func` the element before `mid` is not greater than the
elements from `mid` on. -/
theorem leftOk_of_partitionEqual (less : α → α → Bool) (d : List α) (a mid b : Nat) (p : α)
    (hswo : StrictWeakOn less d) (hpa : d[a]? = some p) (ham : a + 1 ≤ mid)
    (hlow : AllOn (fun x => less p x = false) (a + 1) mid d)
    (hhigh : AllOn (fun x => less p x = true) mid b d) : LeftOk less mid b d := by
  intro l e hl he k x hk1 hk2 hx
  have hpe : less p e = false := by
    by_cases hla : l = a
    · rw [hla, hpa] at he
      cases he
      exact hswo.1 _ (List.getElem?_mem hpa)
    · exact hlow l e (by omega) (by omega) he
  exact hswo.asymm he hx (hswo.lt_of_le_of_lt he hpa hx hpe (hhigh k x hk1 hk2 hx))

/-- A range whose first part holds elements equivalent to `p` and whose second part
is sorted and holds greater elements is sorted. -/
theorem sorted_of_partitionEqual (less : α → α → Bool) (d : List α) (a mid b l : Nat)
    (p q : α) (hswo : StrictWeakOn less d) (hl : a = l + 1) (hq : d[l]? = some q)
    (hleft : AllOn (fun x => less x q = false) a b d) (hqp : less q p = false)
    (hpa : d[a]? = some p) (hmb : mid ≤ b)
    (hlow : AllOn (fun x => less p x = false) (a + 1) mid d)
    (hhigh : AllOn (fun x => less p x = true) mid b d)
    (h2 : SortedOn less mid b d) : SortedOn less a b d := by
  have hle : AllOn (fun x => less p x = false) a mid d := by
    intro k x hk1 hk2 hx
    by_cases hka : k = a
    · rw [hka, hpa] at hx
      cases hx
      exact hswo.1 _ (List.getElem?_mem hpa)
    · exact hlow k x (by omega) hk2 hx
  have hge : AllOn (fun x => less x p = false) a mid d := by
    intro k x hk1 hk2 hx
    exact hswo.le_trans hpa hq hx hqp (hleft k x hk1 (by omega) hx)
  have h1 : SortedOn less a mid d := by
    intro i j x y hi hij hj hx hy
    exact hswo.le_trans hx hpa hy (hle i x hi (by omega) hx) (hge j y (by omega) hj hy)
  apply h1.append h2
  intro i j x y hi1 hi2 hj1 hj2 hx hy
  exact hswo.asymm hx hy
    (hswo.lt_of_le_of_lt hx hpa hy (hle i x hi1 hi2 hx) (hhigh j y hj1 hj2 hy))

theorem pdqsort_func_spec (less : α → α → Bool) :
    ∀ (fuel : Nat) (d : List α) (a b limit : Nat) (wb wp : Bool), a ≤ b → b ≤ d.length →
      b - a < fuel →
      ∃ d1, pdqsort_func less fuel d a b limit wb wp = some d1 ∧ Frame 0 b d d1 ∧
        (StrictWeakOn less d → LeftOk less a b d →
          Frame a b d d1 ∧ SortedOn less a b d1) := by
  intro fuel
  induction fuel with
  | zero =>
    intro d a b limit wb wp _ _ hf
    omega
  | succ fuel ih =>
    intro d a b limit wb wp hab hb hfuel
    unfold pdqsort_func
    by_cases h12 : b - a ≤ 12
    · rw [if_pos h12]
      obtain ⟨d1, h1, hf1, hs1⟩ := insertionSort_func_spec less d a b hb
      exact ⟨d1, h1, hf1.mono (Nat.zero_le _) (le_refl _), fun hswo _ => ⟨hf1, hs1 hswo⟩⟩
    rw [if_neg h12]
    by_cases hlim : limit = 0
    · rw [if_pos hlim]
      obtain ⟨d1, h1, hf1, hs1⟩ := heapSort_func_spec less d a b hab hb
      exact ⟨d1, h1, hf1.mono (Nat.zero_le _) (le_refl _), fun hswo _ => ⟨hf1, hs1 hswo⟩⟩
    rw [if_neg hlim]
    obtain ⟨d0, limit1, hbr, hf0⟩ := breakStep_spec d a b limit wb hab hb
    rw [hbr]
    simp only
    obtain ⟨d1, pivot, hint, hpv, hf1, hpa, hpb⟩ :=
      pivotStep_spec less d0 a b (by omega) (by rw [hf0.length]; exact hb)
    rw [hpv]
    simp only
    have hf01 : Frame a b d d1 := hf0.trans hf1
    obtain ⟨d2, flag, hat, hf2w, hf2s⟩ :=
      attemptStep_spec less d1 a b wb wp hint (by omega) (by rw [hf01.length]; exact hb)
    rw [hat]
    have hf02w : Frame 0 b d d2 := (hf01.mono (Nat.zero_le _) (le_refl _)).trans hf2w
    have hlen2 : d2.length = d.length := hf02w.length
    cases flag with
    | true =>
      simp only
      refine ⟨d2, rfl, hf02w, ?_⟩
      intro hswo hleft
      obtain ⟨hf2, hs2⟩ := hf2s (hswo.ofFrame hf01) (hleft.inFrame hf01)
      exact ⟨hf01.trans hf2, hs2 rfl⟩
    | false =>
      simp only
      obtain ⟨c, hll, hceq⟩ := leftLess_spec less d2 a pivot (by omega) (by omega)
      rw [hll]
      cases c with
      | false =>
        simp only
        obtain ⟨l, q, p, hl, hq, hp, hqp⟩ := hceq rfl
        obtain ⟨d3, mid, p1, hpe, hf3, hm1, hm2, hp1, hd3a, hlow, hhigh⟩ :=
          partitionEqual_func_spec less d2 a b pivot hpa hpb (by omega)
        rw [hpe]
        simp only
        rw [hp] at hp1
        cases hp1
        obtain ⟨d4, h4, hf4w, hf4s⟩ := ih d3 mid b limit1 wb wp hm2
          (by rw [hf3.length]; omega) (by omega)
        refine ⟨d4, h4, (hf02w.trans (hf3.mono (Nat.zero_le _) (le_refl _))).trans hf4w, ?_⟩
        intro hswo hleft
        obtain ⟨hf2, _⟩ := hf2s (hswo.ofFrame hf01) (hleft.inFrame hf01)
        have hf03 : Frame a b d d3 := (hf01.trans hf2).trans hf3
        have hswo3 := hswo.ofFrame hf03
        have hleft3 := hleft.inFrame hf03
        obtain ⟨hf4, hs4⟩ := hf4s hswo3
          (leftOk_of_partitionEqual less d3 a mid b p hswo3 hd3a hm1 hlow hhigh)
        have hf04 : Frame a b d d4 := hf03.trans (hf4.mono (by omega) (le_refl _))
        refine ⟨hf04, ?_⟩
        have hq4 : d4[l]? = some q := by
          rw [hf4.outside l (by omega), hf3.outside l (by omega)]
          exact hq
        have hd4a : d4[a]? = some p := by
          rw [hf4.outside a (by omega)]
          exact hd3a
        exact sorted_of_partitionEqual less d4 a mid b l p q (hswo.ofFrame hf04) hl hq4
          ((hleft.inFrame hf04) l q hl hq4) hqp hd4a hm2
          (hlow.offFrame hf4 (Or.inl (le_refl _)))
          (hhigh.frame hf4 (le_refl _) (le_refl _)) hs4
      | true =>
        simp only
        obtain ⟨d3, mid, ap, p, hpt, hf3, hm1, hm2, _, hd3m, hlow, hhigh⟩ :=
          partition_func_spec less d2 a b pivot hpa hpb (by omega)
        rw [hpt]
        simp only
        have hlen3 : d3.length = d.length := by rw [hf3.length]; exact hlen2
        have hf03w : Frame 0 b d d3 := hf02w.trans (hf3.mono (Nat.zero_le _) (le_refl _))
        by_cases hlr : mid - a < b - mid
        · rw [if_pos hlr]
          obtain ⟨d4, h4, hf4w, hf4s⟩ := ih d3 a mid limit1 true true hm1 (by omega)
            (by omega)
          rw [h4]
          simp only
          obtain ⟨d5, h5, hf5w, hf5s⟩ := ih d4 (mid + 1) b limit1
            (decide ((b - a) / 8 ≤ mid - a)) ap (by omega)
            (by rw [hf4w.length]; omega) (by omega)
          refine ⟨d5, h5, (hf03w.trans (hf4w.mono (le_refl _) (by omega))).trans hf5w, ?_⟩
          intro hswo hleft
          obtain ⟨hf2, _⟩ := hf2s (hswo.ofFrame hf01) (hleft.inFrame hf01)
          have hf03 : Frame a b d d3 := (hf01.trans hf2).trans hf3
          have hswo3 := hswo.ofFrame hf03
          obtain ⟨hf4, hs4⟩ := hf4s hswo3 ((hleft.inFrame hf03).shrink (by omega))
          have hswo4 := hswo3.ofFrame hf4
          have hd4m : d4[mid]? = some p := by
            rw [hf4.outside mid (by omega)]
            exact hd3m
          have hhigh4 := hhigh.offFrame hf4 (Or.inr (by omega))
          have hleft4 : LeftOk less (mid + 1) b d4 := by
            intro l1 p1 hl1 hp1
            have e : l1 = mid := by omega
            rw [e, hd4m] at hp1
            cases hp1
            exact hhigh4
          obtain ⟨hf5, hs5⟩ := hf5s hswo4 hleft4
          have hf05 : Frame a b d d5 :=
            (hf03.trans (hf4.mono (le_refl _) (by omega))).trans
              (hf5.mono (by omega) (le_refl _))
          refine ⟨hf05, ?_⟩
          have hd5m : d5[mid]? = some p := by
            rw [hf5.outside mid (by omega)]
            exact hd4m
          exact sorted_of_partition less d5 a mid b p (hswo.ofFrame hf05) hd5m
            ((hlow.frame hf4 (le_refl _) (le_refl _)).offFrame hf5 (Or.inl (by omega)))
            (hhigh4.frame hf5 (le_refl _) (le_refl _))
            (hs4.frame_outside hf5 (Or.inl (by omega))) hs5
        · rw [if_neg hlr]
          obtain ⟨d4, h4, hf4w, hf4s⟩ := ih d3 (mid + 1) b limit1 true true (by omega)
            (by omega) (by omega)
          rw [h4]
          simp only
          obtain ⟨d5, h5, hf5w, hf5s⟩ := ih d4 a mid limit1
            (decide ((b - a) / 8 ≤ b - mid)) ap hm1
            (by rw [hf4w.length]; omega) (by omega)
          refine ⟨d5, h5, (hf03w.trans hf4w).trans (hf5w.mono (le_refl _) (by omega)), ?_⟩
          intro hswo hleft
          obtain ⟨hf2, _⟩ := hf2s (hswo.ofFrame hf01) (hleft.inFrame hf01)
          have hf03 : Frame a b d d3 := (hf01.trans hf2).trans hf3
          have hswo3 := hswo.ofFrame hf03
          have hleft3 : LeftOk less (mid + 1) b d3 := by
            intro l1 p1 hl1 hp1
            have e : l1 = mid := by omega
            rw [e, hd3m] at hp1
            cases hp1
            exact hhigh
          obtain ⟨hf4, hs4⟩ := hf4s hswo3 hleft3
          have hswo4 := hswo3.ofFrame hf4
          have hleft4 : LeftOk less a mid d4 :=
            ((hleft.inFrame hf03).shrink (by omega)).beforeFrame hf4 (by omega) hm1
          obtain ⟨hf5, hs5⟩ := hf5s hswo4 hleft4
          have hf05 : Frame a b d d5 :=
            (hf03.trans (hf4.mono (by omega) (le_refl _))).trans
              (hf5.mono (le_refl _) (by omega))
          refine ⟨hf05, ?_⟩
          have hd5m : d5[mid]? = some p := by
            rw [hf5.outside mid (by omega), hf4.outside mid (by omega)]
            exact hd3m
          exact sorted_of_partition less d5 a mid b p (hswo.ofFrame hf05) hd5m
            ((hlow.offFrame hf4 (Or.inl (by omega))).frame hf5 (le_refl _) (le_refl _))
            ((hhigh.frame hf4 (le_refl _) (le_refl _)).offFrame hf5 (Or.inr (by omega)))
            hs5 (hs4.frame_outside hf5 (Or.inr (by omega)))

theorem pdqsortSlice_some (less : α → α → Bool) (d : List α) :
    ∃ out, pdqsortSlice less d = some out ∧ out.Perm d := by
  obtain ⟨out, h, hf, _⟩ := pdqsort_func_spec less (d.length + 1) d 0 d.length
    (bitsLen d.length) true true (Nat.zero_le _) (le_refl _) (by omega)
  exact ⟨out, h, hf.perm⟩

theorem pdqsortSlice_sorted (less : α → α → Bool) (d out : List α)
    (hswo : StrictWeakOn less d) (h : pdqsortSlice less d = some out) :
    out.Pairwise (fun x y => less y x = false) := by
  obtain ⟨out1, h1, _, hs⟩ := pdqsort_func_spec less (d.length + 1) d 0 d.length
    (bitsLen d.length) true true (Nat.zero_le _) (le_refl _) (by omega)
  unfold pdqsortSlice at h
  rw [h1] at h
  cases h
  obtain ⟨hf, hsorted⟩ := hs hswo (fun l p hl _ => by omega)
  rw [List.pairwise_iff_getElem]
  intro i j hi hj hij
  exact hsorted i j _ _ (Nat.zero_le _) hij (by rw [hf.length] at hj; exact hj)
    (by simp [hi]) (by simp [hj])

end PdqsortProofs

/-- The model of `sort.Slice` as shipped since Go 1.19 meets the contract of
`sort.Slice`. -/
theorem pdqsortSlice_spec : SortSliceSpec pdqsortSlice :=
  ⟨fun less xs => pdqsortSlice_some less xs,
    fun less xs out h1 h2 => pdqsortSlice_sorted less xs out h1 h2⟩


/-! ## The claims -/

/-- C3: for every grouped input (one well-formed group per service), `SumCost` and
`makeCostList` both return, and the sum of the `Cost` fields of the list
`makeCostList(resp, SumCost(resp))` is the total `SumCost(resp)`: both parse the same
amount strings and sorting only permutes the entries.  When every amount parses to a
finite number (amounts as exact decimals) the total is finite and the two sums are
equal as `float64` values (`==`). -/
theorem costSum_eq_SumCost (sortSlice : SortSlice) (hs : SortSliceSpec sortSlice)
    (cost : GetCostAndUsageOutput) (r : ResultByTime) (rest : List ResultByTime)
    (hr : cost.ResultsByTime = r :: rest) (hwf : ∀ v ∈ r.Groups, v.WellFormed) :
    ∃ total out, SumCost cost = some total ∧ makeCostList sortSlice cost total = some out ∧
      costSum out = total ∧
      ((∀ c ∈ parsedAmounts r.Groups, c.isFinite = true) →
        total.isFinite = true ∧ F64.eq (costSum out) total = true) := by
  haveI := F64.addRightCommutative
  obtain ⟨out, hout, -, hperm⟩ :=
    makeCostList_perm sortSlice hs cost ((parsedAmounts r.Groups).foldl F64.add (F64.fin 0))
      r rest hr hwf
  refine ⟨_, out, sumCost_eq cost r rest hr hwf, hout, ?_, ?_⟩
  · unfold costSum
    rw [List.Perm.foldl_eq (hperm.map (fun e => e.Cost)), filterMap_entry_cost _ _ hwf]
  · intro hfin
    have hc : costSum out = (parsedAmounts r.Groups).foldl F64.add (F64.fin 0) := by
      unfold costSum
      rw [List.Perm.foldl_eq (hperm.map (fun e => e.Cost)), filterMap_entry_cost _ _ hwf]
    rw [hc, foldl_add_finite _ hfin]
    exact ⟨rfl, by simp [F64.eq]⟩

/-- C4 (amended): for every grouped input, every entry of
`makeCostList(resp, SumCost(resp))` has `Ratio = Cost / total * 100`; when every amount
parses to a finite number and the total is nonzero, that is the rational
`Cost / total * 100` and the `Ratio` fields add up to exactly 100 (in exact
arithmetic). -/
theorem ratio_eq_and_sum_100 (sortSlice : SortSlice) (hs : SortSliceSpec sortSlice)
    (cost : GetCostAndUsageOutput) (r : ResultByTime) (rest : List ResultByTime)
    (hr : cost.ResultsByTime = r :: rest) (hwf : ∀ v ∈ r.Groups, v.WellFormed) :
    ∃ total out, SumCost cost = some total ∧ makeCostList sortSlice cost total = some out ∧
      (∀ e ∈ out, e.Ratio = F64.mul (F64.div e.Cost total) (F64.fin 100)) ∧
      ((∀ c ∈ parsedAmounts r.Groups, c.isFinite = true) → total ≠ F64.fin 0 →
        (∀ e ∈ out, e.Ratio = F64.fin (e.Cost.toRat / total.toRat * 100)) ∧
        ratioSum out = F64.fin 100 ∧ F64.eq (ratioSum out) (F64.fin 100) = true) := by
  haveI := F64.addRightCommutative
  obtain ⟨out, hout, -, hperm⟩ :=
    makeCostList_perm sortSlice hs cost ((parsedAmounts r.Groups).foldl F64.add (F64.fin 0))
      r rest hr hwf
  refine ⟨_, out, sumCost_eq cost r rest hr hwf, hout, ?_, ?_⟩
  · intro e he
    exact (mem_entries _ _ e (hperm.mem_iff.1 he)).2
  · intro hfin
    rw [foldl_add_finite _ hfin]
    intro hne
    have ht : (0 + ((parsedAmounts r.Groups).map F64.toRat).sum : ℚ) ≠ 0 := by
      intro h0
      exact hne (by rw [h0])
    have hsum : ratioSum out = F64.fin 100 := by
      unfold ratioSum
      rw [List.Perm.foldl_eq (hperm.map (fun e => e.Ratio)), foldl_add_finite _ hfin,
        filterMap_entry_ratio _ _ hwf, map_ratio_finite _ hfin _ ht, foldl_add_finite,
        sum_map_ratio]
      · congr 1
        rw [zero_add] at ht ⊢
        field_simp
      · intro c hc
        obtain ⟨x, -, rfl⟩ := List.mem_map.1 hc
        rfl
    refine ⟨?_, hsum, by rw [hsum]; simp [F64.eq]⟩
    intro e he
    obtain ⟨hc, hr⟩ := mem_entries _ _ e (hperm.mem_iff.1 he)
    rw [foldl_add_finite _ hfin] at hr
    have hcf := hfin _ hc
    rw [hr]
    cases hcost : e.Cost with
    | fin q => simpa [F64.toRat] using ratio_of_finite q _ ht
    | posInf => simp [hcost, F64.isFinite] at hcf
    | negInf => simp [hcost, F64.isFinite] at hcf
    | nan => simp [hcost, F64.isFinite] at hcf

/-- C10 (amended): for every grouped input in which every parsed amount is finite and
non-negative and the total `SumCost(resp)` is positive, every entry of
`makeCostList(resp, SumCost(resp))` has `Cost >= 0` and `0 <= Ratio <= 100`. -/
theorem cost_and_ratio_in_range (sortSlice : SortSlice) (hs : SortSliceSpec sortSlice)
    (cost : GetCostAndUsageOutput) (r : ResultByTime) (rest : List ResultByTime)
    (hr : cost.ResultsByTime = r :: rest) (hwf : ∀ v ∈ r.Groups, v.WellFormed)
    (hfin : ∀ c ∈ parsedAmounts r.Groups, c.isFinite = true)
    (hnn : ∀ c ∈ parsedAmounts r.Groups, F64.ge c (F64.fin 0) = true) :
    ∃ total out, SumCost cost = some total ∧ makeCostList sortSlice cost total = some out ∧
      (F64.gt total (F64.fin 0) = true →
        ∀ e ∈ out, F64.ge e.Cost (F64.fin 0) = true ∧ F64.le (F64.fin 0) e.Ratio = true ∧
          F64.le e.Ratio (F64.fin 100) = true) := by
  obtain ⟨out, hout, -, hperm⟩ :=
    makeCostList_perm sortSlice hs cost ((parsedAmounts r.Groups).foldl F64.add (F64.fin 0))
      r rest hr hwf
  refine ⟨_, out, sumCost_eq cost r rest hr hwf, hout, ?_⟩
  rw [foldl_add_finite _ hfin]
  intro hpos e he
  have hpos1 : (0 : ℚ) < 0 + ((parsedAmounts r.Groups).map F64.toRat).sum := by
    simpa [F64.gt, F64.lt] using hpos
  obtain ⟨hc, hratio⟩ := mem_entries _ _ e (hperm.mem_iff.1 he)
  have hnn1 : ∀ c ∈ parsedAmounts r.Groups, 0 ≤ c.toRat := by
    intro c hc
    have h1 := hnn c hc
    have h2 := hfin c hc
    cases c <;> simp_all [F64.ge, F64.le, F64.toRat, F64.isFinite]
  have hle := toRat_le_sum _ hnn1 _ hc
  have h0 := hnn1 _ hc
  have hcf := hfin _ hc
  refine ⟨hnn _ hc, ?_⟩
  rw [foldl_add_finite _ hfin] at hratio
  rw [hratio]
  cases hcost : e.Cost with
  | fin q =>
    rw [hcost] at hle h0
    simp only [F64.toRat] at hle h0
    rw [ratio_of_finite q _ (ne_of_gt hpos1)]
    simp only [F64.le, decide_eq_true_eq]
    constructor
    · positivity
    · rw [div_mul_eq_mul_div, div_le_iff₀ hpos1]
      nlinarith
  | posInf => simp [hcost, F64.isFinite] at hcf
  | negInf => simp [hcost, F64.isFinite] at hcf
  | nan => simp [hcost, F64.isFinite] at hcf

theorem scenario_finite :
    ∀ c ∈ parsedAmounts (mkBucket [("EC2", "120.00"), ("S3", "1.00"), ("RDS", "79.00")]).Groups,
      c.isFinite = true := by
  rw [parsedAmounts_mkBucket]
  simp [parseFloat_120, parseFloat_1, parseFloat_79, F64.isFinite]

theorem scenario_nonneg :
    ∀ c ∈ parsedAmounts (mkBucket [("EC2", "120.00"), ("S3", "1.00"), ("RDS", "79.00")]).Groups,
      F64.ge c (F64.fin 0) = true := by
  rw [parsedAmounts_mkBucket]
  simp [parseFloat_120, parseFloat_1, parseFloat_79, F64.ge, F64.le]

theorem scenario_total : SumCost scenario = some (F64.fin 200) := by
  decide!

/-- Witness of C3 on the end-to-end scenario, with `pdqsortSlice` as `sort.Slice`: the
costs of the ranked list add up to the total, 200. -/
theorem costSum_eq_SumCost_witness :
    ∃ out, SumCost scenario = some (F64.fin 200) ∧
      makeCostList pdqsortSlice scenario (F64.fin 200) = some out ∧
      costSum out = F64.fin 200 ∧ F64.eq (costSum out) (F64.fin 200) = true := by
  obtain ⟨total, out, h1, h2, h3, h4⟩ :=
    costSum_eq_SumCost pdqsortSlice pdqsortSlice_spec scenario _ [] rfl
      (mkBucket_wellFormed [("EC2", "120.00"), ("S3", "1.00"), ("RDS", "79.00")])
  have ht : total = F64.fin 200 := by
    rw [scenario_total] at h1
    exact (Option.some.inj h1).symm
  subst ht
  exact ⟨out, h1, h2, h3, (h4 scenario_finite).2⟩

/-- Witness of C4 (amended) on the end-to-end scenario, with `pdqsortSlice` as `sort.Slice`: the
total 200 is nonzero and the ratios add up to 100. -/
theorem ratio_eq_and_sum_100_witness :
    ∃ out, SumCost scenario = some (F64.fin 200) ∧
      makeCostList pdqsortSlice scenario (F64.fin 200) = some out ∧
      (∀ e ∈ out, e.Ratio = F64.mul (F64.div e.Cost (F64.fin 200)) (F64.fin 100)) ∧
      (∀ e ∈ out, e.Ratio = F64.fin (e.Cost.toRat / 200 * 100)) ∧
      ratioSum out = F64.fin 100 ∧ F64.eq (ratioSum out) (F64.fin 100) = true := by
  obtain ⟨total, out, h1, h2, h3, h4⟩ :=
    ratio_eq_and_sum_100 pdqsortSlice pdqsortSlice_spec scenario _ [] rfl
      (mkBucket_wellFormed [("EC2", "120.00"), ("S3", "1.00"), ("RDS", "79.00")])
  have ht : total = F64.fin 200 := by
    rw [scenario_total] at h1
    exact (Option.some.inj h1).symm
  subst ht
  obtain ⟨h5, h6, h7⟩ := h4 scenario_finite (by decide)
  exact ⟨out, h1, h2, h3, h5, h6, h7⟩

/-- C4 as stated fails: a nonzero total does not make the ratios add up to 100.  With
the amounts "Inf" and "1.00" the total is `+Inf`, which is not zero; the ratios are
`Inf / Inf * 100 = NaN` and `1 / Inf * 100 = 0`, and their sum is NaN, not 100. -/
theorem infinite_amount_ratio_sum_nan :
    SumCost infiniteAmount = some F64.posInf ∧ F64.posInf ≠ F64.fin 0 ∧
    F64.eq F64.posInf (F64.fin 0) = false ∧
    makeCostList pdqsortSlice infiniteAmount F64.posInf =
      some [⟨"EC2", F64.posInf, F64.nan⟩, ⟨"S3", F64.fin 1, F64.fin 0⟩] ∧
    ratioSum [⟨"EC2", F64.posInf, F64.nan⟩, ⟨"S3", F64.fin 1, F64.fin 0⟩] = F64.nan ∧
    F64.eq F64.nan (F64.fin 100) = false := by
  refine ⟨?_, ?_, ?_, ?_, ?_, ?_⟩ <;> decide!

/-- Witness of C10 (amended) on the end-to-end scenario: the amounts 120, 1, 79 are
finite and non-negative, the total 200 is positive, and every entry is in range. -/
theorem cost_and_ratio_in_range_witness :
    ∃ out, SumCost scenario = some (F64.fin 200) ∧
      makeCostList pdqsortSlice scenario (F64.fin 200) = some out ∧
      ∀ e ∈ out, F64.ge e.Cost (F64.fin 0) = true ∧ F64.le (F64.fin 0) e.Ratio = true ∧
        F64.le e.Ratio (F64.fin 100) = true := by
  obtain ⟨total, out, h1, h2, h3⟩ :=
    cost_and_ratio_in_range pdqsortSlice pdqsortSlice_spec scenario _ [] rfl
      (mkBucket_wellFormed [("EC2", "120.00"), ("S3", "1.00"), ("RDS", "79.00")])
      scenario_finite scenario_nonneg
  have ht : total = F64.fin 200 := by
    rw [scenario_total] at h1
    exact (Option.some.inj h1).symm
  subst ht
  exact ⟨out, h1, h2, h3 (by decide)⟩

/-- C10 as stated fails: with the amounts "Inf" and "1.00" every parsed amount is
non-negative and the total `+Inf` is positive, but the ratio of the first entry is
`Inf / Inf * 100 = NaN`, which is not `>= 0`. -/
theorem infinite_amount_ratio_nan :
    (∀ c ∈ parsedAmounts (mkBucket [("EC2", "Inf"), ("S3", "1.00")]).Groups,
      F64.ge c (F64.fin 0) = true) ∧
    SumCost infiniteAmount = some F64.posInf ∧ F64.gt F64.posInf (F64.fin 0) = true ∧
    makeCostList pdqsortSlice infiniteAmount F64.posInf =
      some [⟨"EC2", F64.posInf, F64.nan⟩, ⟨"S3", F64.fin 1, F64.fin 0⟩] ∧
    F64.le (F64.fin 0) F64.nan = false := by
  refine ⟨?_, ?_, ?_, ?_, ?_⟩
  · rw [parsedAmounts_mkBucket]
    simp [parseFloat_Inf, parseFloat_1, F64.ge, F64.le]
  · decide!
  · decide
  · decide!
  · decide

/-- C1 (amended): for every grouped billing result (first time bucket, one well-formed
group per service) `makeCostList` returns a list that has one entry per group and is a
permutation of the entries built from the groups; when no amount parses to NaN the list
is non-increasing by cost: `output[i].Cost >= output[i+1].Cost` at all adjacent
positions. -/
theorem makeCostList_nonincreasing_perm (sortSlice : SortSlice)
    (hs : SortSliceSpec sortSlice) (cost : GetCostAndUsageOutput) (totalCost : F64)
    (r : ResultByTime) (rest : List ResultByTime) (hr : cost.ResultsByTime = r :: rest)
    (hwf : ∀ v ∈ r.Groups, v.WellFormed) :
    ∃ out, makeCostList sortSlice cost totalCost = some out ∧
      out.length = r.Groups.length ∧
      out.Perm (r.Groups.filterMap (entry totalCost)) ∧
      ((∀ c ∈ parsedAmounts r.Groups, c.isNaN = false) →
        ∀ i (h : i + 1 < out.length), F64.ge (out[i]).Cost (out[i + 1]).Cost = true) := by
  obtain ⟨out, hout, hsort, hperm⟩ := makeCostList_perm sortSlice hs cost totalCost r rest hr hwf
  refine ⟨out, hout, ?_, hperm, ?_⟩
  · rw [hperm.length_eq, filterMap_entry_length _ _ hwf]
  · intro hnan i h
    have hnan2 := entries_not_nan totalCost _ hnan
    have hsorted := hs.sorted costLess _ out (costLess_strictWeakOn _ hnan2) hsort
    have hi := List.pairwise_iff_getElem.1 hsorted i (i + 1) (by omega) h (by omega)
    exact F64.ge_of_not_lt _ _ (hnan2 _ (hperm.mem_iff.1 (List.getElem_mem _)))
      (hnan2 _ (hperm.mem_iff.1 (List.getElem_mem _))) hi

theorem scenario_not_nan :
    ∀ c ∈ parsedAmounts (mkBucket [("EC2", "120.00"), ("S3", "1.00"), ("RDS", "79.00")]).Groups,
      c.isNaN = false := by
  rw [parsedAmounts_mkBucket]
  simp [parseFloat_120, parseFloat_1, parseFloat_79, F64.isNaN]

/-- Witness of C1 (amended) on the end-to-end scenario, with `pdqsortSlice` as
`sort.Slice`: no amount is NaN and the list is non-increasing. -/
theorem makeCostList_nonincreasing_perm_witness :
    ∃ out, makeCostList pdqsortSlice scenario (F64.fin 200) = some out ∧
      out.length = 3 ∧
      out.Perm ((mkBucket [("EC2", "120.00"), ("S3", "1.00"), ("RDS", "79.00")]).Groups.filterMap
        (entry (F64.fin 200))) ∧
      ∀ i (h : i + 1 < out.length), F64.ge (out[i]).Cost (out[i + 1]).Cost = true := by
  obtain ⟨out, h1, h2, h3, h4⟩ :=
    makeCostList_nonincreasing_perm pdqsortSlice pdqsortSlice_spec scenario (F64.fin 200)
      _ [] rfl (mkBucket_wellFormed [("EC2", "120.00"), ("S3", "1.00"), ("RDS", "79.00")])
  exact ⟨out, h1, h2, h3, h4 scenario_not_nan⟩

/-- C1 as stated fails: with the amounts "1.00", "NaN", "2.00" the comparison
`resp[i].Cost > resp[j].Cost` is false whenever NaN is involved, `sort.Slice` leaves the
three entries where they are, and the returned list is not non-increasing:
neither `1 >= NaN` nor `NaN >= 2` holds (nor `1 >= 2`). -/
theorem nan_amount_not_sorted :
    SumCost nanAmount = some F64.nan ∧
    makeCostList pdqsortSlice nanAmount F64.nan =
      some [⟨"EC2", F64.fin 1, F64.nan⟩, ⟨"S3", F64.nan, F64.nan⟩,
        ⟨"RDS", F64.fin 2, F64.nan⟩] ∧
    F64.ge (F64.fin 1) F64.nan = false ∧ F64.ge F64.nan (F64.fin 2) = false ∧
    F64.ge (F64.fin 1) (F64.fin 2) = false := by
  refine ⟨?_, ?_, ?_, ?_, ?_⟩ <;> decide!

/-- C2 (amended): the sort in `makeCostList` orders by cost only.  For every input
whose parsed amounts are pairwise different (and none NaN), any sort that meets the
contract of `sort.Slice` returns the same list, the entries in descending order of cost
as a stable sort arranges them; nothing is promised on the relative order of groups
with equal parsed costs. -/
theorem makeCostList_determined_by_distinct_costs (sortSlice : SortSlice)
    (hs : SortSliceSpec sortSlice) (cost : GetCostAndUsageOutput) (totalCost : F64)
    (r : ResultByTime) (rest : List ResultByTime) (hr : cost.ResultsByTime = r :: rest)
    (hwf : ∀ v ∈ r.Groups, v.WellFormed)
    (hnan : ∀ c ∈ parsedAmounts r.Groups, c.isNaN = false)
    (hdist : (parsedAmounts r.Groups).Pairwise (fun a b => F64.eq a b = false)) :
    makeCostList sortSlice cost totalCost =
      some ((r.Groups.filterMap (entry totalCost)).insertionSort
        (fun x y => costLess y x = false)) :=
  makeCostList_eq_insertionSort sortSlice hs cost totalCost r rest hr hwf hnan hdist

theorem scenario_distinct :
    (parsedAmounts (mkBucket [("EC2", "120.00"), ("S3", "1.00"), ("RDS", "79.00")]).Groups).Pairwise
      (fun a b => F64.eq a b = false) := by
  rw [parsedAmounts_mkBucket]
  simp [parseFloat_120, parseFloat_1, parseFloat_79, F64.eq]

/-- Witness of C2 (amended) on the end-to-end scenario. -/
theorem makeCostList_determined_by_distinct_costs_witness :
    makeCostList pdqsortSlice scenario (F64.fin 200) =
      some (((mkBucket [("EC2", "120.00"), ("S3", "1.00"), ("RDS", "79.00")]).Groups.filterMap
        (entry (F64.fin 200))).insertionSort (fun x y => costLess y x = false)) :=
  makeCostList_determined_by_distinct_costs pdqsortSlice pdqsortSlice_spec scenario
    (F64.fin 200) _ [] rfl (mkBucket_wellFormed _) scenario_not_nan scenario_distinct

/-- C2 as stated fails: the sort is not stable.  With thirteen services of which the
first twelve cost 1.00 and the last 2.00, `sort.Slice` (Go 1.19 and later) swaps the
pivot `svc06` to the front and `svc01` to the back while partitioning, so `svc06` and
`svc02` come out before `svc00`, and `svc01` after `svc11`, although their costs are
equal and the API listed them in the order svc00, svc01, ..., svc11. -/
theorem tied_costs_reordered :
    SumCost tiedCosts = some (F64.fin 14) ∧
    makeCostList pdqsortSlice tiedCosts (F64.fin 14) =
      some [⟨"svc12", F64.fin 2, F64.fin (100 / 7)⟩, ⟨"svc06", F64.fin 1, F64.fin (50 / 7)⟩,
        ⟨"svc02", F64.fin 1, F64.fin (50 / 7)⟩, ⟨"svc03", F64.fin 1, F64.fin (50 / 7)⟩,
        ⟨"svc04", F64.fin 1, F64.fin (50 / 7)⟩, ⟨"svc05", F64.fin 1, F64.fin (50 / 7)⟩,
        ⟨"svc00", F64.fin 1, F64.fin (50 / 7)⟩, ⟨"svc07", F64.fin 1, F64.fin (50 / 7)⟩,
        ⟨"svc08", F64.fin 1, F64.fin (50 / 7)⟩, ⟨"svc09", F64.fin 1, F64.fin (50 / 7)⟩,
        ⟨"svc10", F64.fin 1, F64.fin (50 / 7)⟩, ⟨"svc11", F64.fin 1, F64.fin (50 / 7)⟩,
        ⟨"svc01", F64.fin 1, F64.fin (50 / 7)⟩] := by
  refine ⟨?_, ?_⟩ <;> decide!

/-- C8: on the raw input [("EC2","120.00"),("S3","1.00"),("RDS","79.00")], `SumCost`
returns 200, `makeCostList` returns [("EC2",120,60), ("RDS",79,39.5), ("S3",1,0.5)]
whatever sort meeting the contract of `sort.Slice` it runs, and `drawPieGraph` builds
the slices EC2 (120), RDS (79), Others (1) in that order. -/
theorem scenario_end_to_end (sortSlice : SortSlice) (hs : SortSliceSpec sortSlice) :
    SumCost scenario = some (F64.fin 200) ∧
    makeCostList sortSlice scenario (F64.fin 200) =
      some [⟨"EC2", F64.fin 120, F64.fin 60⟩, ⟨"RDS", F64.fin 79, F64.fin (79 / 2)⟩,
        ⟨"S3", F64.fin 1, F64.fin (1 / 2)⟩] ∧
    pieValues [⟨"EC2", F64.fin 120, F64.fin 60⟩, ⟨"RDS", F64.fin 79, F64.fin (79 / 2)⟩,
        ⟨"S3", F64.fin 1, F64.fin (1 / 2)⟩] =
      [⟨"EC2", F64.fin 120⟩, ⟨"RDS", F64.fin 79⟩, ⟨"Others", F64.fin 1⟩] := by
  refine ⟨by decide!, ?_, by decide!⟩
  rw [makeCostList_eq_insertionSort sortSlice hs scenario (F64.fin 200) _ [] rfl
    (mkBucket_wellFormed _) scenario_not_nan scenario_distinct]
  decide!

/-- Witness of C8 with `pdqsortSlice` as `sort.Slice`. -/
theorem scenario_end_to_end_witness :
    SumCost scenario = some (F64.fin 200) ∧
    makeCostList pdqsortSlice scenario (F64.fin 200) =
      some [⟨"EC2", F64.fin 120, F64.fin 60⟩, ⟨"RDS", F64.fin 79, F64.fin (79 / 2)⟩,
        ⟨"S3", F64.fin 1, F64.fin (1 / 2)⟩] ∧
    pieValues [⟨"EC2", F64.fin 120, F64.fin 60⟩, ⟨"RDS", F64.fin 79, F64.fin (79 / 2)⟩,
        ⟨"S3", F64.fin 1, F64.fin (1 / 2)⟩] =
      [⟨"EC2", F64.fin 120⟩, ⟨"RDS", F64.fin 79⟩, ⟨"Others", F64.fin 1⟩] :=
  scenario_end_to_end pdqsortSlice pdqsortSlice_spec

/-- C5 (amended): for every list of entries, the slice list `drawPieGraph` hands to the
chart is: one slice per entry whose `Ratio` is not below 1.0 (that is `Ratio >= 1.0`, or
`Ratio` NaN), in input order, labelled with the entry's `Name` and valued at its `Cost`;
followed by one final slice labelled "Others" whose value is the sum of the `Cost`s of
the entries with `Ratio < 1.0` (0 when there are none).  The list is never empty. -/
theorem pieValues_eq (results : List Result) :
    pieValues results =
      (results.filter (fun v => F64.ge v.Ratio (F64.fin 1) || v.Ratio.isNaN)).map
          (fun v => (⟨v.Name, v.Cost⟩ : Value)) ++
        [⟨"Others", costSum (results.filter (fun v => F64.lt v.Ratio (F64.fin 1)))⟩] ∧
    pieValues results ≠ [] ∧
    (∀ v ∈ results, F64.lt v.Ratio (F64.fin 1) = true →
      (F64.ge v.Ratio (F64.fin 1) || v.Ratio.isNaN) = false) := by
  have hfilter : (fun v : Result => !F64.lt v.Ratio (F64.fin 1)) =
      (fun v => F64.ge v.Ratio (F64.fin 1) || v.Ratio.isNaN) := by
    funext v
    exact not_lt_iff_ge_or_nan _ (F64.fin 1) rfl
  have h : pieValues results =
      (results.filter (fun v => F64.ge v.Ratio (F64.fin 1) || v.Ratio.isNaN)).map
          (fun v => (⟨v.Name, v.Cost⟩ : Value)) ++
        [⟨"Others", costSum (results.filter (fun v => F64.lt v.Ratio (F64.fin 1)))⟩] := by
    simp [pieValues, pieLoop_eq, hfilter, costSum]
  refine ⟨h, ?_, ?_⟩
  · rw [h]
    simp
  · intro v _ hlt
    rw [← not_lt_iff_ge_or_nan _ (F64.fin 1) rfl, hlt]
    rfl

/-- C5 as stated fails: an entry whose `Ratio` is NaN (here the only service of a month
whose total is zero, `0 / 0 * 100`) is not an entry with `Ratio >= 1.0`, yet the test
`v.Ratio < 1.0` is false for it and it gets a slice of its own before "Others". -/
theorem nan_ratio_gets_slice :
    SumCost zeroCost = some (F64.fin 0) ∧
    makeCostList pdqsortSlice zeroCost (F64.fin 0) = some [⟨"EC2", F64.fin 0, F64.nan⟩] ∧
    F64.ge F64.nan (F64.fin 1) = false ∧
    pieValues [⟨"EC2", F64.fin 0, F64.nan⟩] =
      [⟨"EC2", F64.fin 0⟩, ⟨"Others", F64.fin 0⟩] ∧
    pieValues [⟨"EC2", F64.fin 0, F64.nan⟩] ≠
      (([⟨"EC2", F64.fin 0, F64.nan⟩] : List Result).filter
          (fun v => F64.ge v.Ratio (F64.fin 1))).map
          (fun v => (⟨v.Name, v.Cost⟩ : Value)) ++
        [⟨"Others", costSum (([⟨"EC2", F64.fin 0, F64.nan⟩] : List Result).filter
          (fun v => F64.lt v.Ratio (F64.fin 1)))⟩] := by
  refine ⟨?_, ?_, ?_, ?_, ?_⟩ <;> decide!

/-- C9 (amended): the error of `strconv.ParseFloat` is discarded and no error is
reported: on every grouped input `SumCost` and `makeCostList` return.  A group whose
amount string is not a well-formed number (`ErrSyntax`) contributes 0 to `SumCost` and
gets `Cost` 0, and `Ratio` 0 when the total is neither zero nor NaN; the total is the
sum over the other groups.  A group whose amount is a number out of the range of
`float64` (`ErrRange`) is counted with an infinite cost. -/
theorem syntax_errors_count_as_zero (sortSlice : SortSlice) (hs : SortSliceSpec sortSlice)
    (cost : GetCostAndUsageOutput) (r : ResultByTime) (rest : List ResultByTime)
    (hr : cost.ResultsByTime = r :: rest) (hwf : ∀ v ∈ r.Groups, v.WellFormed) :
    ∃ total out, SumCost cost = some total ∧ makeCostList sortSlice cost total = some out ∧
      total = (parsedAmounts (r.Groups.filter
        (fun v => decide (amountError v ≠ some NumError.ErrSyntax)))).foldl F64.add (F64.fin 0) ∧
      (∀ v ∈ r.Groups, amountError v = some NumError.ErrSyntax →
        blendedCost v = some (F64.fin 0) ∧
        ∃ e ∈ out, entry total v = some e ∧ e.Cost = F64.fin 0 ∧
          (total ≠ F64.fin 0 → total.isNaN = false → e.Ratio = F64.fin 0)) ∧
      (∀ v ∈ r.Groups, amountError v = some NumError.ErrRange →
        blendedCost v = some F64.posInf ∨ blendedCost v = some F64.negInf) := by
  obtain ⟨out, hout, -, hperm⟩ :=
    makeCostList_perm sortSlice hs cost ((parsedAmounts r.Groups).foldl F64.add (F64.fin 0))
      r rest hr hwf
  refine ⟨_, out, sumCost_eq cost r rest hr hwf, hout, foldl_parsedAmounts_filter _ _, ?_, ?_⟩
  · intro v hv herr
    have hb := blendedCost_of_syntax_error v herr
    refine ⟨hb, ?_⟩
    obtain ⟨c, k, hc, -, he⟩ := entry_of_wellFormed
      ((parsedAmounts r.Groups).foldl F64.add (F64.fin 0)) v (hwf v hv)
    rw [hb, Option.some.injEq] at hc
    subst hc
    refine ⟨_, hperm.mem_iff.2 (List.mem_filterMap.2 ⟨v, hv, he⟩), he, rfl, ?_⟩
    intro h0 hnan
    exact zero_ratio _ h0 hnan
  · intro v _ herr
    exact blendedCost_of_range_error v herr

/-- Witness of C9 (amended): the amount "n/a" of EC2 is a syntax error; the total is
the other amount, 1, and the EC2 entry has cost 0 and ratio 0. -/
theorem syntax_errors_count_as_zero_witness :
    amountError (mkGroup "EC2" "n/a") = some NumError.ErrSyntax ∧
    ∃ out, SumCost garbageAmount = some (F64.fin 1) ∧
      makeCostList pdqsortSlice garbageAmount (F64.fin 1) = some out ∧
      ∃ e ∈ out, entry (F64.fin 1) (mkGroup "EC2" "n/a") = some e ∧ e.Cost = F64.fin 0 ∧
        e.Ratio = F64.fin 0 := by
  refine ⟨by decide!, ?_⟩
  obtain ⟨total, out, h1, h2, -, h4, -⟩ :=
    syntax_errors_count_as_zero pdqsortSlice pdqsortSlice_spec garbageAmount
      _ [] rfl (mkBucket_wellFormed [("EC2", "n/a"), ("S3", "1.00")])
  have ht : total = F64.fin 1 := by
    have : SumCost garbageAmount = some (F64.fin 1) := by decide!
    rw [this] at h1
    exact (Option.some.inj h1).symm
  subst ht
  obtain ⟨-, e, he, h5, h6, h7⟩ := h4 (mkGroup "EC2" "n/a")
    (by simp [mkBucket]) (by decide!)
  exact ⟨out, h1, h2, e, he, h5, h6, h7 (by decide) rfl⟩

/-- C9 as stated fails: the amount "1e999" fails to parse (`ParseFloat` returns
`ErrRange`), yet it is not treated as zero: the value returned with the error is `+Inf`,
so the group gets `Cost` `+Inf` and the total is `+Inf`, not the sum 1 of the
parsable amounts. -/
theorem range_error_counts_as_infinity :
    ParseFloat "1e999" = (F64.posInf, some NumError.ErrRange) ∧
    SumCost hugeAmount = some F64.posInf ∧
    makeCostList pdqsortSlice hugeAmount F64.posInf =
      some [⟨"EC2", F64.posInf, F64.nan⟩, ⟨"S3", F64.fin 1, F64.fin 0⟩] ∧
    F64.eq F64.posInf (F64.fin 1) = false := by
  refine ⟨?_, ?_, ?_, ?_⟩ <;> decide!

/-- C7: `Handle` runs its stages in the order fetch cost, send text, render chart,
send image and stops at the first that fails.  The result and the calls made are
fixed by the answers of the stages: an error of the billing API is returned wrapped
with "get cost error = " after the one call `getCost`, and neither `sendToSlack` nor
`sendPieGraphToSlack` is called; once the cost is fetched and aggregated the report is
sent, and an error of that call is returned wrapped after two calls; else the chart is
rendered, and an error of the renderer is returned wrapped after three calls; else the
image is sent, and its error is returned wrapped after four calls; else `Handle`
returns nil after the four calls.  On every response of the shape the API delivers the
aggregation returns, so that `Handle` returns.  In all cases the calls made are a
prefix of the four stages, every call but the last succeeded, a non-nil result is the
wrapped error of the last call, and the result is nil exactly when all four stages were
called and succeeded. -/
theorem Handle_stops_at_first_failure (w : World) :
    (∀ err, w.getCostAndUsage w.start w.end_ = Except.error err →
      Handle w = (HandleResult.returned (some (Errorf "get cost error = " err)),
        [Call.getCost w.start w.end_])) ∧
    (∀ resp totalCost list, w.getCostAndUsage w.start w.end_ = Except.ok resp →
      SumCost resp = some totalCost → makeCostList w.sortSlice resp totalCost = some list →
      (∀ err, w.httpPost w.SLACKENDPOINT ("*Monthly Report*\n " ++ w.report totalCost list) =
          some err →
        Handle w = (HandleResult.returned (some (Errorf "send to slack error = " err)),
          [Call.getCost w.start w.end_, Call.sendToSlack (w.report totalCost list)])) ∧
      (w.httpPost w.SLACKENDPOINT ("*Monthly Report*\n " ++ w.report totalCost list) = none →
        (∀ err, w.render (pieValues list) = Except.error err →
          Handle w = (HandleResult.returned (some (Errorf "draw pie graph error = " err)),
            [Call.getCost w.start w.end_, Call.sendToSlack (w.report totalCost list),
              Call.drawPieGraph list])) ∧
        (∀ b, w.render (pieValues list) = Except.ok b →
          (∀ err, w.uploadFile w.SLACKAPITOKEN "output.png" [w.SLACKCHANNEL] b = some err →
            Handle w = (HandleResult.returned (some (Errorf "send pie graph error = " err)),
              [Call.getCost w.start w.end_, Call.sendToSlack (w.report totalCost list),
                Call.drawPieGraph list, Call.sendPieGraphToSlack b])) ∧
          (w.uploadFile w.SLACKAPITOKEN "output.png" [w.SLACKCHANNEL] b = none →
            Handle w = (HandleResult.returned none,
              [Call.getCost w.start w.end_, Call.sendToSlack (w.report totalCost list),
                Call.drawPieGraph list, Call.sendPieGraphToSlack b]))))) ∧
    (∀ resp r rest, w.getCostAndUsage w.start w.end_ = Except.ok resp →
      resp.ResultsByTime = r :: rest → (∀ v ∈ r.Groups, v.WellFormed) →
      SortSliceSpec w.sortSlice →
      (∃ totalCost list, SumCost resp = some totalCost ∧
        makeCostList w.sortSlice resp totalCost = some list) ∧
      (∃ e, (Handle w).1 = HandleResult.returned e) ∧ 2 ≤ (Handle w).2.length) ∧
    ((Handle w).2.map Call.stage) <+:
      [Stage.fetchCost, Stage.sendText, Stage.renderChart, Stage.sendImage] ∧
    (∀ c ∈ (Handle w).2.dropLast, w.failure c = none) ∧
    (∀ e, (Handle w).1 = HandleResult.returned (some e) →
      ∃ c err, (Handle w).2.getLast? = some c ∧ w.failure c = some err ∧
        e = Errorf c.label err) ∧
    (∀ c ∈ (Handle w).2, ∀ err, w.failure c = some err →
      (Handle w).1 = HandleResult.returned (some (Errorf c.label err))) ∧
    ((Handle w).1 = HandleResult.returned none ↔
      ((Handle w).2.length = 4 ∧ ∀ c ∈ (Handle w).2, w.failure c = none)) := by
  have hagg : ∀ resp r rest, resp.ResultsByTime = r :: rest →
      (∀ v ∈ r.Groups, v.WellFormed) → SortSliceSpec w.sortSlice →
      ∃ totalCost list, SumCost resp = some totalCost ∧
        makeCostList w.sortSlice resp totalCost = some list := by
    intro resp r rest hr hwf hs
    obtain ⟨list, hlist, -, -⟩ := makeCostList_perm w.sortSlice hs resp
      ((parsedAmounts r.Groups).foldl F64.add (F64.fin 0)) r rest hr hwf
    exact ⟨_, list, sumCost_eq resp r rest hr hwf, hlist⟩
  unfold World.report World.start World.end_
  rcases hse : getStartAndEndDay w.Local w.now with ⟨start, end_⟩
  simp only
  refine ⟨?_, ?_, ?_, ?_⟩
  · intro err h1
    simp [Handle, hse, getCost, h1]
  · intro resp totalCost list h1 h2 h3
    refine ⟨?_, ?_⟩
    · intro err h4
      simp [Handle, hse, getCost, h1, h2, h3, sendToSlack, h4]
    · intro h4
      refine ⟨?_, ?_⟩
      · intro err h5
        simp [Handle, hse, getCost, h1, h2, h3, sendToSlack, h4, drawPieGraph, h5]
      · intro b h5
        refine ⟨?_, ?_⟩
        · intro err h6
          simp [Handle, hse, getCost, h1, h2, h3, sendToSlack, h4, drawPieGraph, h5,
            sendPieGraphToSlack, h6]
        · intro h6
          simp [Handle, hse, getCost, h1, h2, h3, sendToSlack, h4, drawPieGraph, h5,
            sendPieGraphToSlack, h6]
  · intro resp r rest h1 hr hwf hs
    obtain ⟨totalCost, list, h2, h3⟩ := hagg resp r rest hr hwf hs
    refine ⟨⟨totalCost, list, h2, h3⟩, ?_⟩
    cases h4 : w.httpPost w.SLACKENDPOINT
        ("*Monthly Report*\n " ++ reportText w start end_ totalCost list) with
    | some err =>
      simp [Handle, hse, getCost, h1, h2, h3, sendToSlack, h4]
    | none =>
      cases h5 : w.render (pieValues list) with
      | error err =>
        simp [Handle, hse, getCost, h1, h2, h3, sendToSlack, h4, drawPieGraph, h5]
      | ok b =>
        cases h6 : w.uploadFile w.SLACKAPITOKEN "output.png" [w.SLACKCHANNEL] b with
        | some err =>
          simp [Handle, hse, getCost, h1, h2, h3, sendToSlack, h4, drawPieGraph, h5,
            sendPieGraphToSlack, h6]
        | none =>
          simp [Handle, hse, getCost, h1, h2, h3, sendToSlack, h4, drawPieGraph, h5,
            sendPieGraphToSlack, h6]
  cases h1 : w.getCostAndUsage start end_ with
  | error err =>
    simp [Handle, hse, getCost, h1, World.failure, Call.stage, Call.label]
  | ok resp =>
    cases h2 : SumCost resp with
    | none => simp [Handle, hse, getCost, h1, h2, World.failure, Call.stage]
    | some totalCost =>
      cases h3 : makeCostList w.sortSlice resp totalCost with
      | none => simp [Handle, hse, getCost, h1, h2, h3, World.failure, Call.stage]
      | some list =>
        cases h4 : w.httpPost w.SLACKENDPOINT
            ("*Monthly Report*\n " ++ reportText w start end_ totalCost list) with
        | some err =>
          simp [Handle, hse, getCost, h1, h2, h3, sendToSlack, h4, World.failure, Call.stage,
            Call.label]
        | none =>
          cases h5 : w.render (pieValues list) with
          | error err =>
            simp [Handle, hse, getCost, h1, h2, h3, sendToSlack, h4, drawPieGraph, h5,
              World.failure, Call.stage, Call.label]
          | ok b =>
            cases h6 : w.uploadFile w.SLACKAPITOKEN "output.png" [w.SLACKCHANNEL] b with
            | some err =>
              simp [Handle, hse, getCost, h1, h2, h3, sendToSlack, h4, drawPieGraph, h5,
                sendPieGraphToSlack, h6, World.failure, Call.stage, Call.label]
            | none =>
              simp [Handle, hse, getCost, h1, h2, h3, sendToSlack, h4, drawPieGraph, h5,
                sendPieGraphToSlack, h6, World.failure, Call.stage, Call.label]

/-- Witness of C7 on two concrete worlds.  Where the API answers with the end-to-end
scenario and every call succeeds, `Handle` returns nil after the four calls, for the
period 2024-02-01 to 2024-02-29; where the API fails, `Handle` returns the wrapped
error "get cost error = AccessDenied" after the call `getCost` alone. -/
theorem Handle_stops_at_first_failure_witness :
    scenarioWorld.start = "2024-02-01" ∧ scenarioWorld.end_ = "2024-02-29" ∧
    Handle scenarioWorld = (HandleResult.returned none,
      [Call.getCost scenarioWorld.start scenarioWorld.end_,
        Call.sendToSlack (scenarioWorld.report (F64.fin 200)
          [⟨"EC2", F64.fin 120, F64.fin 60⟩, ⟨"RDS", F64.fin 79, F64.fin (79 / 2)⟩,
            ⟨"S3", F64.fin 1, F64.fin (1 / 2)⟩]),
        Call.drawPieGraph [⟨"EC2", F64.fin 120, F64.fin 60⟩,
          ⟨"RDS", F64.fin 79, F64.fin (79 / 2)⟩, ⟨"S3", F64.fin 1, F64.fin (1 / 2)⟩],
        Call.sendPieGraphToSlack [137, 80, 78, 71]]) ∧
    Handle failingWorld =
      (HandleResult.returned (some (Errorf "get cost error = " (GoError.base "AccessDenied"))),
        [Call.getCost failingWorld.start failingWorld.end_]) ∧
    (Errorf "get cost error = " (GoError.base "AccessDenied")).Error =
      "get cost error = AccessDenied" :=
  ⟨by decide!, by decide!,
    ((((Handle_stops_at_first_failure scenarioWorld).2.1 scenario (F64.fin 200) _ rfl
      (by decide!) (by decide!)).2 rfl).2 [137, 80, 78, 71] rfl).2 rfl,
    (Handle_stops_at_first_failure failingWorld).1 _ rfl, by decide⟩

/-- C6 (amended): let the invocation fall in the month `m` of the year `y` on the clock
of `time.Local`, whatever the day and the time of day.  When the offset of
`time.Local` from UTC does not change from one day before the first day of the
preceding month to one day after its last day (as in UTC, the zone of the Lambda
runtime, or in any zone without a transition around that month), `getStartAndEndDay`
returns the first day of the month before `m` (December of `y - 1` when `m` is
January) and the last day of that same month (28, 29, 30 or 31, February having 29
days in leap years), both in the layout "2006-01-02"; for the years 1 to 9999 the two
texts are `YYYY-MM-DD` on ten characters. -/
theorem getStartAndEndDay_previous_month (Local : Location) (now y m off : Int)
    (hy : (Time.mk now Local).Year = y) (hm : (Time.mk now Local).Month = m)
    (hoff : -86400 ≤ off ∧ off ≤ 86400)
    (hzone : ∀ u, midnightUTC (prevMonthYear y m) (prevMonth m) 1 - 86400 ≤ u →
      u ≤ midnightUTC (prevMonthYear y m) (prevMonth m)
        (daysIn (prevMonth m) (prevMonthYear y m)) + 86400 →
      (Local.lookup u).1 = off) :
    (1 ≤ m ∧ m ≤ 12) ∧
    getStartAndEndDay Local now =
      (formatDate (prevMonthYear y m) (prevMonth m) 1,
        formatDate (prevMonthYear y m) (prevMonth m)
          (daysIn (prevMonth m) (prevMonthYear y m))) ∧
    (28 ≤ daysIn (prevMonth m) (prevMonthYear y m) ∧
      daysIn (prevMonth m) (prevMonthYear y m) ≤ 31) ∧
    (1 ≤ prevMonthYear y m ∧ prevMonthYear y m ≤ 9999 →
      getStartAndEndDay Local now =
        (isoDate (prevMonthYear y m).toNat (prevMonth m).toNat 1,
          isoDate (prevMonthYear y m).toNat (prevMonth m).toNat
            (daysIn (prevMonth m) (prevMonthYear y m)).toNat)) := by
  have hmr : 1 ≤ m ∧ m ≤ 12 := by
    rw [← hm]
    exact absDate_month_range _
  have hp := prevMonth_range m hmr
  have hdays := daysIn_range (prevMonth m) (prevMonthYear y m)
  obtain ⟨hn1, hn2⟩ := prevMonth_norm y m hmr
  rw [midnightUTC_eq _ _ _ hp, midnightUTC_eq _ _ _ hp] at hzone
  have hspan : civilSeconds (prevMonthYear y m) (prevMonth m)
      (daysIn (prevMonth m) (prevMonthYear y m)) =
      civilSeconds (prevMonthYear y m) (prevMonth m) 1 +
        (daysIn (prevMonth m) (prevMonthYear y m) - 1) * 86400 := by
    unfold civilSeconds
    ring
  -- the first day
  have hstart : Date y (m - 1) 1 0 0 0 Local =
      ⟨civilSeconds (prevMonthYear y m) (prevMonth m) 1 - off, Local⟩ := by
    have h := Date_midnight y (m - 1) 1 off Local (by omega)
      (by rw [hn1, hn2]; exact hzone _ (by omega) (by omega))
      (by rw [hn1, hn2]; exact hzone _ (by omega) (by omega))
    rw [hn1, hn2] at h
    exact h
  have hz1 : (Local.lookup (civilSeconds (prevMonthYear y m) (prevMonth m) 1 - off)).1 = off :=
    hzone _ (by omega) (by omega)
  have hdate1 := Time_Date_of Local off (prevMonthYear y m) (prevMonth m) 1 hp (by omega) hz1
  have hclock1 := Time_Clock_of Local off (prevMonthYear y m) (prevMonth m) 1 hz1
  -- the last day
  have hlast := civilSeconds_last (prevMonthYear y m) (prevMonth m) hp
  have hend : (Time.mk (civilSeconds (prevMonthYear y m) (prevMonth m) 1 - off) Local).AddDate
      0 1 (-1) = ⟨civilSeconds (prevMonthYear y m) (prevMonth m)
        (daysIn (prevMonth m) (prevMonthYear y m)) - off, Local⟩ := by
    unfold Time.AddDate
    rw [hdate1, hclock1]
    simp only
    have h := Date_midnight (prevMonthYear y m + 0) (prevMonth m + 1) (1 + -1) off Local
      (by omega)
      (by rw [hlast]; exact hzone _ (by omega) (by omega))
      (by rw [hlast]; exact hzone _ (by omega) (by omega))
    rw [hlast] at h
    exact h
  have hz2 : (Local.lookup (civilSeconds (prevMonthYear y m) (prevMonth m)
      (daysIn (prevMonth m) (prevMonthYear y m)) - off)).1 = off :=
    hzone _ (by omega) (by omega)
  have hdate2 := Time_Date_of Local off (prevMonthYear y m) (prevMonth m)
    (daysIn (prevMonth m) (prevMonthYear y m)) hp (by omega) hz2
  have hmain : getStartAndEndDay Local now =
      (formatDate (prevMonthYear y m) (prevMonth m) 1,
        formatDate (prevMonthYear y m) (prevMonth m)
          (daysIn (prevMonth m) (prevMonthYear y m))) := by
    unfold getStartAndEndDay
    simp only
    rw [hy, hm, hstart, hend]
    unfold Time.Format
    rw [hdate1, hdate2]
  refine ⟨hmr, hmain, hdays, ?_⟩
  intro hyr
  rw [hmain]
  have e1 : prevMonthYear y m = ((prevMonthYear y m).toNat : Int) := by omega
  have e2 : prevMonth m = ((prevMonth m).toNat : Int) := by omega
  have e3 : daysIn (prevMonth m) (prevMonthYear y m) =
      ((daysIn (prevMonth m) (prevMonthYear y m)).toNat : Int) := by omega
  have f1 := formatDate_eq_isoDate (prevMonthYear y m).toNat (prevMonth m).toNat 1
    (by omega) (by omega) (by omega)
  have f2 := formatDate_eq_isoDate (prevMonthYear y m).toNat (prevMonth m).toNat
    (daysIn (prevMonth m) (prevMonthYear y m)).toNat (by omega) (by omega) (by omega)
  rw [← e1, ← e2] at f1
  rw [← e1, ← e2, ← e3] at f2
  rw [← f1, ← f2]
  rfl

/-- Witness of C6 (amended).  In UTC the invocation of 2024-03-15 10:30:00 (a leap
year) gives ("2024-02-01", "2024-02-29") and that of 2024-01-10 00:00:00 (year
rollover) gives ("2023-12-01", "2023-12-31"); in a zone nine hours east of UTC the
invocation of 2024-02-29 15:30:00 UTC, already March 1 on the local clock, gives
("2024-02-01", "2024-02-29"). -/
theorem getStartAndEndDay_previous_month_witness :
    getStartAndEndDay UTC 1710498600 = ("2024-02-01", "2024-02-29") ∧
    getStartAndEndDay UTC 1704844800 = ("2023-12-01", "2023-12-31") ∧
    (Time.mk 1709220600 UTC).Date = (2024, 2, 29) ∧
    (Time.mk 1709220600 tokyo).Date = (2024, 3, 1) ∧
    getStartAndEndDay tokyo 1709220600 = ("2024-02-01", "2024-02-29") :=
  ⟨((getStartAndEndDay_previous_month UTC 1710498600 2024 3 0 (by decide) (by decide)
      (by decide) (fun _ _ _ => rfl)).2.2.2 (by decide)).trans (by decide),
    ((getStartAndEndDay_previous_month UTC 1704844800 2024 1 0 (by decide) (by decide)
      (by decide) (fun _ _ _ => rfl)).2.2.2 (by decide)).trans (by decide),
    by decide, by decide,
    ((getStartAndEndDay_previous_month tokyo 1709220600 2024 3 32400 (by decide) (by decide)
      (by decide) (fun _ _ _ => rfl)).2.2.2 (by decide)).trans (by decide)⟩

/-- C6 as stated fails where `time.Local` has a daylight-saving transition that skips
the midnight of the first day of the preceding month.  In a zone as America/Asuncion
(UTC-4, on daylight-saving time UTC-3 from 2017-10-01 00:00 local time, so that the
local clock goes from 23:59:59 on September 30 to 01:00:00 on October 1), the
invocation of 2017-11-15 12:00:00 local time is in November 2017, and `time.Date`
gives for 2017-10-01 00:00:00, which that zone has not, the instant 2017-09-30
23:00:00: `getStartAndEndDay` returns ("2017-09-30", "2017-10-29") and not
("2017-10-01", "2017-10-31"). -/
theorem asuncion_start_is_september_30 :
    (Time.mk 1506830399 asuncion).Date = (2017, 9, 30) ∧
    (Time.mk 1506830399 asuncion).Clock = (23, 59, 59) ∧
    (Time.mk 1506830400 asuncion).Date = (2017, 10, 1) ∧
    (Time.mk 1506830400 asuncion).Clock = (1, 0, 0) ∧
    (Time.mk 1510758000 asuncion).Date = (2017, 11, 15) ∧
    (Time.mk 1510758000 asuncion).Clock = (12, 0, 0) ∧
    (Date 2017 10 1 0 0 0 asuncion).Date = (2017, 9, 30) ∧
    (Date 2017 10 1 0 0 0 asuncion).Clock = (23, 0, 0) ∧
    getStartAndEndDay asuncion 1510758000 = ("2017-09-30", "2017-10-29") ∧
    getStartAndEndDay asuncion 1510758000 ≠
      (formatDate 2017 10 1, formatDate 2017 10 (daysIn 10 2017)) := by
  refine ⟨?_, ?_, ?_, ?_, ?_, ?_, ?_, ?_, ?_, ?_⟩ <;> decide!

end AwsCostNotify
